import Mathlib

/-!
# Verification of the SourceCred addressable property-graph core

This development gives a shallow embedding of the SourceCred graph engine
(`src/core/graph.js`), the legacy payload graph (`Graph.merge` /
`Graph.mergeConservative`), the PageRank score decomposition
(`src/analysis/pagerankNodeDecomposition.js`) and the cred-data compression
(`compressByThreshold`), and proves the specified properties about them.

JavaScript `Map`s and `Set`s are embedded as association lists / lists in
insertion order; `Map.set` replaces an existing entry in place and otherwise
appends, which the helper `aset` mirrors.  JavaScript numbers are embedded as
`ℚ` (the claims under study are exact, not about floating point rounding).
-/

/-- Association-list lookup, mirroring JavaScript `Map.prototype.get`. -/
def alookup {α β : Type} [DecidableEq α] (k : α) : List (α × β) → Option β
  | [] => none
  | (k₁, v) :: rest => if k₁ = k then some v else alookup k rest

/-- Association-list update, mirroring JavaScript `Map.prototype.set`:
replace the entry in place when the key is present (keeping iteration order),
otherwise append a fresh entry at the end. -/
def aset {α β : Type} [DecidableEq α] (k : α) (v : β) : List (α × β) → List (α × β)
  | [] => [(k, v)]
  | (k₁, v₁) :: rest => if k₁ = k then (k, v) :: rest else (k₁, v₁) :: aset k v rest

/-- Association-list removal, mirroring JavaScript `Map.prototype.delete`
(on maps whose keys are unique, as JavaScript maps always are). -/
def adelete {α β : Type} [DecidableEq α] (k : α) : List (α × β) → List (α × β)
  | [] => []
  | (k₁, v₁) :: rest => if k₁ = k then rest else (k₁, v₁) :: adelete k rest

/-- Remove the first occurrence of an element from a list, mirroring
JavaScript `Set.prototype.delete` on sets (which never hold duplicates). -/
def eraseFirst {α : Type} [DecidableEq α] (a : α) : List α → List α
  | [] => []
  | b :: rest => if b = a then rest else b :: eraseFirst a rest

namespace AList

variable {α β : Type} [DecidableEq α]

theorem alookup_aset (k k₁ : α) (v : β) (m : List (α × β)) :
    alookup k₁ (aset k v m) = if k = k₁ then some v else alookup k₁ m := by
  induction m with
  | nil => rfl
  | cons p rest ih =>
    obtain ⟨k₂, v₂⟩ := p
    by_cases h : k₂ = k
    · have hs : aset k v ((k₂, v₂) :: rest) = (k, v) :: rest := by simp [aset, h]
      rw [hs]
      by_cases h₁ : k = k₁
      · simp [alookup, h₁]
      · have h₂ : ¬k₂ = k₁ := fun hh => h₁ (h.symm.trans hh)
        simp [alookup, h₁, h₂]
    · have hs : aset k v ((k₂, v₂) :: rest) = (k₂, v₂) :: aset k v rest := by
        simp [aset, h]
      rw [hs]
      by_cases h₂ : k₂ = k₁
      · have h₁ : ¬k = k₁ := fun hh => h (h₂.trans hh.symm)
        simp [alookup, h₂, h₁]
      · simp [alookup, h₂, ih]

theorem alookup_eq_none_iff (k : α) (m : List (α × β)) :
    alookup k m = none ↔ k ∉ m.map Prod.fst := by
  induction m with
  | nil => simp [alookup]
  | cons p rest ih =>
    obtain ⟨k₁, v₁⟩ := p
    by_cases h : k₁ = k
    · subst h
      simp [alookup]
    · simp [alookup, h, ih, Ne.symm h]

theorem alookup_isSome_iff (k : α) (m : List (α × β)) :
    (alookup k m).isSome = true ↔ k ∈ m.map Prod.fst := by
  rw [← not_iff_not, ← alookup_eq_none_iff]
  cases alookup k m <;> simp

theorem mem_of_alookup_eq_some {k : α} {v : β} {m : List (α × β)} :
    alookup k m = some v → (k, v) ∈ m := by
  induction m with
  | nil => intro h; simp [alookup] at h
  | cons p rest ih =>
    obtain ⟨k₁, v₁⟩ := p
    intro h
    by_cases hk : k₁ = k
    · subst hk
      simp [alookup] at h
      subst h
      exact List.mem_cons_self _ _
    · simp [alookup, hk] at h
      exact List.mem_cons_of_mem _ (ih h)

theorem alookup_eq_some_of_mem {k : α} {v : β} {m : List (α × β)}
    (hnd : (m.map Prod.fst).Nodup) (hmem : (k, v) ∈ m) :
    alookup k m = some v := by
  induction m with
  | nil => simp at hmem
  | cons p rest ih =>
    obtain ⟨k₁, v₁⟩ := p
    simp only [List.map_cons, List.nodup_cons] at hnd
    rcases List.mem_cons.mp hmem with h | h
    · obtain ⟨hk, hv⟩ := Prod.ext_iff.mp h
      simp only at hk hv
      subst hk; subst hv
      simp [alookup]
    · have hk : ¬k₁ = k := by
        intro he
        subst he
        exact hnd.1 (List.mem_map.mpr ⟨(k₁, v), h, rfl⟩)
      simp [alookup, hk]
      exact ih hnd.2 h

theorem keys_aset_of_mem {k : α} (v : β) {m : List (α × β)}
    (h : k ∈ m.map Prod.fst) : (aset k v m).map Prod.fst = m.map Prod.fst := by
  induction m with
  | nil => simp at h
  | cons p rest ih =>
    obtain ⟨k₁, v₁⟩ := p
    by_cases hk : k₁ = k
    · simp [aset, hk]
    · simp only [List.map_cons, List.mem_cons] at h
      rcases h with h | h
      · exact absurd h.symm hk
      · simp [aset, hk, ih h]

theorem aset_of_alookup_none {k : α} {m : List (α × β)}
    (h : alookup k m = none) (v : β) : aset k v m = m ++ [(k, v)] := by
  induction m with
  | nil => simp [aset]
  | cons p rest ih =>
    obtain ⟨k₁, v₁⟩ := p
    by_cases hk : k₁ = k
    · simp [alookup, hk] at h
    · simp [alookup, hk] at h
      simp [aset, hk, ih h]

theorem mem_aset {p : α × β} {k : α} {v : β} {m : List (α × β)} :
    p ∈ aset k v m → p ∈ m ∨ p = (k, v) := by
  induction m with
  | nil => simp [aset]
  | cons q rest ih =>
    obtain ⟨k₁, v₁⟩ := q
    by_cases hk : k₁ = k
    · simp only [aset, if_pos hk, List.mem_cons]
      intro h
      rcases h with h | h
      · exact Or.inr h
      · exact Or.inl (Or.inr h)
    · simp only [aset, if_neg hk, List.mem_cons]
      intro h
      rcases h with h | h
      · exact Or.inl (Or.inl h)
      · rcases ih h with h₁ | h₁
        · exact Or.inl (Or.inr h₁)
        · exact Or.inr h₁

theorem keys_nodup_aset {k : α} (v : β) {m : List (α × β)}
    (hnd : (m.map Prod.fst).Nodup) : ((aset k v m).map Prod.fst).Nodup := by
  by_cases h : k ∈ m.map Prod.fst
  · rw [keys_aset_of_mem v h]; exact hnd
  · rw [aset_of_alookup_none ((alookup_eq_none_iff k m).mpr h) v]
    simp only [List.map_append, List.map_cons, List.map_nil]
    refine List.Nodup.append hnd (List.nodup_singleton k) ?_
    intro a ha hb
    simp only [List.mem_singleton] at hb
    subst hb
    exact h ha

theorem alookup_adelete_ne {k k₁ : α} (m : List (α × β)) (h : k ≠ k₁) :
    alookup k₁ (adelete k m) = alookup k₁ m := by
  induction m with
  | nil => rfl
  | cons p rest ih =>
    obtain ⟨k₂, v₂⟩ := p
    by_cases hk : k₂ = k
    · have hs : adelete k ((k₂, v₂) :: rest) = rest := by simp [adelete, hk]
      rw [hs]
      have h₂ : ¬k₂ = k₁ := fun hh => h (hk.symm.trans hh)
      simp [alookup, h₂]
    · have hs : adelete k ((k₂, v₂) :: rest) = (k₂, v₂) :: adelete k rest := by
        simp [adelete, hk]
      rw [hs]
      by_cases h₂ : k₂ = k₁ <;> simp [alookup, h₂, ih]

theorem alookup_adelete_self {k : α} {m : List (α × β)}
    (hnd : (m.map Prod.fst).Nodup) : alookup k (adelete k m) = none := by
  induction m with
  | nil => rfl
  | cons p rest ih =>
    obtain ⟨k₁, v₁⟩ := p
    simp only [List.map_cons, List.nodup_cons] at hnd
    by_cases hk : k₁ = k
    · have hs : adelete k ((k₁, v₁) :: rest) = rest := by simp [adelete, hk]
      rw [hs, alookup_eq_none_iff]
      exact hk ▸ hnd.1
    · have hs : adelete k ((k₁, v₁) :: rest) = (k₁, v₁) :: adelete k rest := by
        simp [adelete, hk]
      rw [hs]
      simp [alookup, hk]
      exact ih hnd.2

theorem mem_adelete {p : α × β} {k : α} {m : List (α × β)} :
    p ∈ adelete k m → p ∈ m := by
  induction m with
  | nil => simp [adelete]
  | cons q rest ih =>
    obtain ⟨k₁, v₁⟩ := q
    by_cases hk : k₁ = k
    · simp only [adelete, if_pos hk, List.mem_cons]
      exact fun h => Or.inr h
    · simp only [adelete, if_neg hk, List.mem_cons]
      intro h
      rcases h with h | h
      · exact Or.inl h
      · exact Or.inr (ih h)

theorem keys_adelete_sublist (k : α) (m : List (α × β)) :
    ((adelete k m).map Prod.fst).Sublist (m.map Prod.fst) := by
  induction m with
  | nil => simp [adelete]
  | cons p rest ih =>
    obtain ⟨k₁, v₁⟩ := p
    by_cases hk : k₁ = k
    · simp only [adelete, if_pos hk, List.map_cons]
      exact List.Sublist.cons _ (List.Sublist.refl _)
    · simp only [adelete, if_neg hk, List.map_cons]
      exact List.Sublist.cons₂ _ ih

theorem keys_nodup_adelete (k : α) {m : List (α × β)}
    (hnd : (m.map Prod.fst).Nodup) : ((adelete k m).map Prod.fst).Nodup :=
  (keys_adelete_sublist k m).nodup hnd

theorem aset_self_of_alookup {k : α} {v : β} {m : List (α × β)}
    (h : alookup k m = some v) : aset k v m = m := by
  induction m with
  | nil => simp [alookup] at h
  | cons p rest ih =>
    obtain ⟨k₁, v₁⟩ := p
    by_cases hk : k₁ = k
    · subst hk
      simp [alookup] at h
      simp [aset, h]
    · simp [alookup, hk] at h
      simp [aset, hk, ih h]

theorem alookup_eq_of_perm {m m₁ : List (α × β)} (hp : m.Perm m₁)
    (hnd : (m.map Prod.fst).Nodup) (k : α) : alookup k m = alookup k m₁ := by
  have hnd₁ : (m₁.map Prod.fst).Nodup := ((hp.map Prod.fst).nodup_iff).mp hnd
  cases h : alookup k m with
  | none =>
    cases h₁ : alookup k m₁ with
    | none => rfl
    | some v =>
      have hm := hp.mem_iff.mpr (mem_of_alookup_eq_some h₁)
      rw [alookup_eq_some_of_mem hnd hm] at h
      cases h
  | some v =>
    have hm := hp.mem_iff.mp (mem_of_alookup_eq_some h)
    exact (alookup_eq_some_of_mem hnd₁ hm).symm

theorem mem_eraseFirst {a b : α} {l : List α} :
    b ∈ eraseFirst a l → b ∈ l := by
  induction l with
  | nil => simp [eraseFirst]
  | cons c rest ih =>
    by_cases hc : c = a
    · simp only [eraseFirst, if_pos hc, List.mem_cons]
      exact fun h => Or.inr h
    · simp only [eraseFirst, if_neg hc, List.mem_cons]
      intro h
      rcases h with h | h
      · exact Or.inl h
      · exact Or.inr (ih h)

theorem eraseFirst_sublist (a : α) (l : List α) :
    (eraseFirst a l).Sublist l := by
  induction l with
  | nil => simp [eraseFirst]
  | cons c rest ih =>
    by_cases hc : c = a
    · simp only [eraseFirst, if_pos hc]
      exact List.Sublist.cons _ (List.Sublist.refl _)
    · simp only [eraseFirst, if_neg hc]
      exact List.Sublist.cons₂ _ ih

theorem not_mem_eraseFirst_self {a : α} {l : List α} (hnd : l.Nodup) :
    a ∉ eraseFirst a l := by
  induction l with
  | nil => simp [eraseFirst]
  | cons c rest ih =>
    simp only [List.nodup_cons] at hnd
    by_cases hc : c = a
    · simp only [eraseFirst, if_pos hc]
      exact hc ▸ hnd.1
    · simp only [eraseFirst, if_neg hc, List.mem_cons]
      intro h
      rcases h with h | h
      · exact hc h.symm
      · exact ih hnd.2 h

theorem mem_eraseFirst_of_ne {a b : α} {l : List α} (hne : b ≠ a)
    (hmem : b ∈ l) : b ∈ eraseFirst a l := by
  induction l with
  | nil => simp at hmem
  | cons c rest ih =>
    by_cases hc : c = a
    · simp only [eraseFirst, if_pos hc]
      rcases List.mem_cons.mp hmem with h | h
      · exact absurd (h.trans hc) hne
      · exact h
    · simp only [eraseFirst, if_neg hc, List.mem_cons]
      rcases List.mem_cons.mp hmem with h | h
      · exact Or.inl h
      · exact Or.inr (ih h)

end AList

/-- Insert into a sorted list according to a boolean comparator (stable):
the incoming element goes before the first element it compares `le` to. -/
def insertLe {α : Type} (le : α → α → Bool) (x : α) : List α → List α
  | [] => [x]
  | y :: rest => if le x y then x :: y :: rest else y :: insertLe le x rest

/-- Stable insertion sort by a boolean comparator; embeds the deterministic
sorts used by `Graph.toJSON` (`Array.sort` / lodash `sortBy`) and by the
decomposition's lodash `sortBy`. -/
def sortLe {α : Type} (le : α → α → Bool) : List α → List α
  | [] => []
  | x :: rest => insertLe le x (sortLe le rest)

namespace SortLe

variable {α : Type} (le : α → α → Bool)

theorem insertLe_perm (x : α) (l : List α) : (insertLe le x l).Perm (x :: l) := by
  induction l with
  | nil => simp [insertLe]
  | cons y rest ih =>
    by_cases h : le x y
    · simp [insertLe, h]
    · simp only [insertLe, if_neg h]
      exact (ih.cons y).trans (List.Perm.swap x y rest)

theorem sortLe_perm (l : List α) : (sortLe le l).Perm l := by
  induction l with
  | nil => simp [sortLe]
  | cons x rest ih =>
    exact (insertLe_perm le x (sortLe le rest)).trans (ih.cons x)

theorem insertLe_pairwise
    (htot : ∀ a b : α, le a b = true ∨ le b a = true)
    (htrans : ∀ a b c : α, le a b = true → le b c = true → le a c = true)
    (x : α) {l : List α} (hp : l.Pairwise (fun a b => le a b = true)) :
    (insertLe le x l).Pairwise (fun a b => le a b = true) := by
  induction l with
  | nil => simp [insertLe]
  | cons y rest ih =>
    rcases List.pairwise_cons.mp hp with ⟨hy, hrest⟩
    by_cases h : le x y
    · simp only [insertLe, if_pos h]
      refine List.pairwise_cons.mpr ⟨?_, hp⟩
      intro b hb
      rcases List.mem_cons.mp hb with hb | hb
      · exact hb ▸ h
      · exact htrans x y b h (hy b hb)
    · simp only [insertLe, if_neg h]
      refine List.pairwise_cons.mpr ⟨?_, ih hrest⟩
      intro b hb
      have hb₁ : b ∈ x :: rest := (insertLe_perm le x rest).mem_iff.mp hb
      rcases List.mem_cons.mp hb₁ with hb₁ | hb₁
      · rw [hb₁]
        rcases htot x y with h₁ | h₁
        · exact absurd h₁ h
        · exact h₁
      · exact hy b hb₁

theorem sortLe_pairwise
    (htot : ∀ a b : α, le a b = true ∨ le b a = true)
    (htrans : ∀ a b c : α, le a b = true → le b c = true → le a c = true)
    (l : List α) : (sortLe le l).Pairwise (fun a b => le a b = true) := by
  induction l with
  | nil => simp [sortLe]
  | cons x rest ih => exact insertLe_pairwise le htot htrans x ih

end SortLe

/-- `Option`-valued map over a list: `some` of the pointwise images when every
element maps to `some`, and `none` as soon as one element maps to `none`.
Embeds a JavaScript `.map` whose callback may throw. -/
def mapO {α β : Type} (f : α → Option β) : List α → Option (List β)
  | [] => some []
  | a :: rest =>
    match f a, mapO f rest with
    | some b, some l => some (b :: l)
    | _, _ => none

namespace MapO

variable {α β : Type} {f : α → Option β}

theorem eq_some_of_mem {l : List α} {out : List β} (h : mapO f l = some out) :
    ∀ a ∈ l, ∃ b ∈ out, f a = some b := by
  induction l generalizing out with
  | nil => simp
  | cons x rest ih =>
    intro a ha
    simp only [mapO] at h
    cases hx : f x with
    | none => rw [hx] at h; simp at h
    | some b =>
      rw [hx] at h
      cases hr : mapO f rest with
      | none => rw [hr] at h; simp at h
      | some outr =>
        rw [hr] at h
        simp only at h
        obtain rfl : b :: outr = out := by
          cases h; rfl
        rcases List.mem_cons.mp ha with ha | ha
        · exact ⟨b, List.mem_cons_self _ _, ha ▸ hx⟩
        · obtain ⟨c, hc, hfc⟩ := ih hr a ha
          exact ⟨c, List.mem_cons_of_mem _ hc, hfc⟩

theorem mem_eq_some {l : List α} {out : List β} (h : mapO f l = some out) :
    ∀ b ∈ out, ∃ a ∈ l, f a = some b := by
  induction l generalizing out with
  | nil =>
    simp only [mapO] at h
    cases h
    simp
  | cons x rest ih =>
    intro b hb
    simp only [mapO] at h
    cases hx : f x with
    | none => rw [hx] at h; simp at h
    | some c =>
      rw [hx] at h
      cases hr : mapO f rest with
      | none => rw [hr] at h; simp at h
      | some outr =>
        rw [hr] at h
        simp only at h
        obtain rfl : c :: outr = out := by cases h; rfl
        rcases List.mem_cons.mp hb with hb | hb
        · exact ⟨x, List.mem_cons_self _ _, hb ▸ hx⟩
        · obtain ⟨a, ha, hfa⟩ := ih hr b hb
          exact ⟨a, List.mem_cons_of_mem _ ha, hfa⟩

end MapO

/-- Index of the first occurrence of an element in a list (the length of the
list when absent), mirroring a JavaScript `Map` from elements to indices. -/
def idxOf {α : Type} [DecidableEq α] (a : α) : List α → Nat
  | [] => 0
  | b :: rest => if b = a then 0 else idxOf a rest + 1

theorem idxOf_getElem? {α : Type} [DecidableEq α] {a : α} {l : List α}
    (h : a ∈ l) : l[idxOf a l]? = some a := by
  induction l with
  | nil => simp at h
  | cons b rest ih =>
    by_cases hb : b = a
    · simp [idxOf, hb]
    · rcases List.mem_cons.mp h with h₁ | h₁
      · exact absurd h₁.symm hb
      · simp only [idxOf, if_neg hb, List.getElem?_cons_succ]
        exact ih h₁

/-- A node address: the ordered list of string segments (the parts returned by
`NodeAddress.toParts`).  The `N` kind-marker nonce of the string encoding is
implicit in the type and therefore not repeated here. -/
abbrev NodeAddr : Type := List String

/-- An edge address: the ordered list of string segments (the parts returned
by `EdgeAddress.toParts`), with the `E` nonce implicit in the type. -/
abbrev EdgeAddr : Type := List String

/-- Modelled from the spec: the address module (`src/core/address.js`) is not
part of the sources under study; per the spec, `assertValid` fails exactly
when the address does not carry the expected kind marker (unrepresentable in
the segment-list embedding) or a segment contains the NUL delimiter. -/
def validParts (a : List String) : Bool :=
  a.all fun s => s.data.all fun c => c ≠ Char.ofNat 0

/-- Modelled from the spec: `hasPrefix(address, prefix)` holds iff the
address's segments begin with all of the prefix's segments. -/
def addrHasPrefix (a pre : List String) : Bool :=
  pre.isPrefixOf a

/-- An edge of the new graph: address plus source and destination node
addresses (`src/core/graph.js`, type `Edge`). -/
structure Edge where
  address : EdgeAddr
  src : NodeAddr
  dst : NodeAddr
deriving DecidableEq, Repr

/-- The error taxonomy of the graph core (spec §7).  The JavaScript source
throws generic `Error`s whose messages identify these classes; the embedding
keeps the class only. -/
inductive GError where
  /-- `InvalidAddressError`: `assertValid` rejected an address. -/
  | invalidAddress
  /-- `MissingEndpointError`: `addEdge` with an absent `src` or `dst`. -/
  | missingEndpoint
  /-- `ConflictingEdgeError`: `addEdge` address reuse with different content. -/
  | conflictingEdge
  /-- `DanglingEdgeError`: `removeNode` on a node with incident edges. -/
  | danglingEdge
  /-- `_markModification`'s guard: the modification counter reached
  `Number.MAX_SAFE_INTEGER`. -/
  | modificationLimit
  /-- `NullUtil.get` received null (internal-corruption guard). -/
  | nullUtilGet
  /-- `removeEdge`'s internal `Invariant violation` throw. -/
  | invariantViolation
  /-- `ConcurrentModificationError` from `_checkForComodification`. -/
  | concurrentModification
  /-- `_checkForComodification` saw a modification count from the future. -/
  | modificationCountFromFuture
  /-- `IncompatibleFormatError`: the JSON compatibility envelope mismatched. -/
  | incompatibleFormat
deriving DecidableEq, Repr

/-- The graph state (`src/core/graph.js`, class `Graph`): node set, edge map,
both adjacency indices, and the modification counter.  (The
`_invariantsLastChecked` cache only memoizes `_checkInvariants` and carries no
information of its own; it is not part of the embedded state.) -/
structure Graph where
  nodes : List NodeAddr
  edges : List (EdgeAddr × Edge)
  inEdges : List (NodeAddr × List Edge)
  outEdges : List (NodeAddr × List Edge)
  modificationCount : Nat
deriving DecidableEq, Repr

namespace Graph

/-- `Number.MAX_SAFE_INTEGER`. -/
def maxSafeInteger : Nat := 2 ^ 53 - 1

/-- The freshly constructed graph. -/
def empty : Graph :=
  { nodes := [], edges := [], inEdges := [], outEdges := [], modificationCount := 0 }

/-- `Graph._markModification`: fail once the counter has reached
`Number.MAX_SAFE_INTEGER`, otherwise increment it.  Note that the guard fires
*before* the increment, i.e. after `2^53 - 1` modifications. -/
def markModification (g : Graph) : Graph × Option GError :=
  if maxSafeInteger ≤ g.modificationCount then (g, some .modificationLimit)
  else ({ g with modificationCount := g.modificationCount + 1 }, none)

/-- `Graph.addNode`: validate, insert the node with empty adjacency lists if
absent, then mark the modification. -/
def addNode (g : Graph) (a : NodeAddr) : Graph × Option GError :=
  if ¬validParts a then (g, some .invalidAddress)
  else if a ∈ g.nodes then markModification g
  else
    markModification
      { g with
        nodes := g.nodes ++ [a]
        inEdges := aset a [] g.inEdges
        outEdges := aset a [] g.outEdges }

/-- `Graph.removeNode`: validate, fail while any incident edge remains,
otherwise drop the node and its (empty) adjacency entries, then mark the
modification. -/
def removeNode (g : Graph) (a : NodeAddr) : Graph × Option GError :=
  if ¬validParts a then (g, some .invalidAddress)
  else
    let existingInEdges := (alookup a g.inEdges).getD []
    let existingOutEdges := (alookup a g.outEdges).getD []
    if (existingInEdges ++ existingOutEdges).length > 0 then (g, some .danglingEdge)
    else
      markModification
        { g with
          nodes := eraseFirst a g.nodes
          inEdges := adelete a g.inEdges
          outEdges := adelete a g.outEdges }

/-- `Graph.addEdge`: validate all three addresses, require both endpoints,
reject an address reuse with different content, and otherwise insert the edge
into the edge map and push it onto both adjacency lists.  The structure of
the branches (including the second, redundant `_edges.set` and the
`NullUtil.get` guards, which fire *after* the first `_edges.set`) mirrors the
source. -/
def addEdge (g : Graph) (e : Edge) : Graph × Option GError :=
  if ¬validParts e.src then (g, some .invalidAddress)
  else if ¬validParts e.dst then (g, some .invalidAddress)
  else if ¬validParts e.address then (g, some .invalidAddress)
  else if e.src ∉ g.nodes ∨ e.dst ∉ g.nodes then (g, some .missingEndpoint)
  else
    match alookup e.address g.edges with
    | some existingEdge =>
      if existingEdge.src ≠ e.src ∨ existingEdge.dst ≠ e.dst ∨
          existingEdge.address ≠ e.address then
        (g, some .conflictingEdge)
      else markModification { g with edges := aset e.address e g.edges }
    | none =>
      let g₁ := { g with edges := aset e.address e g.edges }
      match alookup e.dst g₁.inEdges, alookup e.src g₁.outEdges with
      | some ins, some outs =>
        let g₂ :=
          { g₁ with
            inEdges := aset e.dst (ins ++ [e]) g₁.inEdges
            outEdges := aset e.src (outs ++ [e]) g₁.outEdges }
        markModification { g₂ with edges := aset e.address e g₂.edges }
      | _, _ => (g₁, some .nullUtilGet)

/-- Remove the first edge with the given address from an adjacency list
(JavaScript `findIndex` + `splice`). -/
def removeFirstByAddress (a : EdgeAddr) : List Edge → List Edge
  | [] => []
  | e :: rest => if e.address = a then rest else e :: removeFirstByAddress a rest

/-- `Graph.removeEdge`: validate; a no-op (just marking the modification) when
the address is absent; otherwise delete from the edge map and splice the edge
out of both adjacency lists, with the source's internal `Invariant violation`
throw when an adjacency list lacks the edge. -/
def removeEdge (g : Graph) (a : EdgeAddr) : Graph × Option GError :=
  if ¬validParts a then (g, some .invalidAddress)
  else
    match alookup a g.edges with
    | none => markModification g
    | some e =>
      let g₁ := { g with edges := adelete a g.edges }
      match alookup e.dst g₁.inEdges, alookup e.src g₁.outEdges with
      | some ins, some outs =>
        if ins.all fun ed => ed.address ≠ a then (g₁, some .invariantViolation)
        else
          let g₂ := { g₁ with inEdges := aset e.dst (removeFirstByAddress a ins) g₁.inEdges }
          if outs.all fun ed => ed.address ≠ a then (g₂, some .invariantViolation)
          else
            markModification
              { g₂ with outEdges := aset e.src (removeFirstByAddress a outs) g₂.outEdges }
      | _, _ => (g₁, some .nullUtilGet)

end Graph

namespace Graph

/-- All edge addresses stored in an adjacency index, in iteration order: the
contents of the `inEdgesSeen` / `outEdgesSeen` sets built by
`_checkInvariants`. -/
def flatAddrs : List (NodeAddr × List Edge) → List EdgeAddr
  | [] => []
  | (_, es) :: rest => es.map Edge.address ++ flatAddrs rest

/-- The checks `_checkInvariants` performs on one adjacency index
(Invariants 3 and 4): every key is in the graph (3.1/4.1); every stored edge
is in the edge map (3.3/4.3) and anchored at its key (3.4/4.4); and, via the
global seen-set, no address occurs twice in the whole index (3.2*/4.2*). -/
def IndexOk (g : Graph) (index : List (NodeAddr × List Edge))
    (base : Edge → NodeAddr) : Prop :=
  (∀ p ∈ index, p.1 ∈ g.nodes ∧
    ∀ e ∈ p.2, alookup e.address g.edges = some e ∧ base e = p.1) ∧
  (flatAddrs index).Nodup

/-- `Graph._checkInvariants` succeeds: the five documented invariant classes.
`checkInvariants()` (the public wrapper) throws exactly when this fails, since
its `_invariantsLastChecked` cache merely memoizes the result. -/
def CheckInvariantsOk (g : Graph) : Prop :=
  -- Invariant 1: every node has entries in both indices.
  (∀ n ∈ g.nodes, (alookup n g.inEdges).isSome ∧ (alookup n g.outEdges).isSome) ∧
  -- Invariant 2.1-2.3: edge-map entries match their key and have present endpoints.
  (∀ p ∈ g.edges, p.2.address = p.1 ∧ p.2.src ∈ g.nodes ∧ p.2.dst ∈ g.nodes) ∧
  -- Invariants 3 and 4.
  IndexOk g g.inEdges Edge.dst ∧
  IndexOk g g.outEdges Edge.src ∧
  -- Invariant 2.4/2.5: every edge appears in both indices.
  (∀ p ∈ g.edges, p.1 ∈ flatAddrs g.inEdges ∧ p.1 ∈ flatAddrs g.outEdges)

instance (g : Graph) (index : List (NodeAddr × List Edge)) (base : Edge → NodeAddr) :
    Decidable (IndexOk g index base) := by
  unfold IndexOk; infer_instance

instance (g : Graph) : Decidable (CheckInvariantsOk g) := by
  unfold CheckInvariantsOk; infer_instance

/-- Well-formedness: the structural facts that hold of every JavaScript
`Graph` for free (no duplicate `Set` elements or `Map` keys, addresses were
validated on entry) together with `CheckInvariantsOk`.  This is the inductive
invariant maintained by the mutators. -/
def Wf (g : Graph) : Prop :=
  g.nodes.Nodup ∧
  (g.edges.map Prod.fst).Nodup ∧
  (g.inEdges.map Prod.fst).Nodup ∧
  (g.outEdges.map Prod.fst).Nodup ∧
  (∀ n ∈ g.nodes, validParts n = true) ∧
  (∀ p ∈ g.edges, validParts p.2.address = true) ∧
  CheckInvariantsOk g

instance (g : Graph) : Decidable (Wf g) := by
  unfold Wf; infer_instance

/-- One graph mutation, for describing call sequences. -/
inductive Op where
  | addNode (a : NodeAddr)
  | addEdge (e : Edge)
  | removeNode (a : NodeAddr)
  | removeEdge (a : EdgeAddr)
deriving DecidableEq, Repr

/-- Apply one mutation. -/
def applyOp (g : Graph) : Op → Graph × Option GError
  | .addNode a => g.addNode a
  | .addEdge e => g.addEdge e
  | .removeNode a => g.removeNode a
  | .removeEdge a => g.removeEdge a

/-- Run a sequence of mutations, producing the final graph only when no call
throws (a "valid sequence" in the sense of the spec). -/
def runValid (g : Graph) : List Op → Option Graph
  | [] => some g
  | op :: rest =>
    match applyOp g op with
    | (g₁, none) => runValid g₁ rest
    | (_, some _) => none

/-- A graph is reachable when some valid call sequence builds it from the
empty graph. -/
def Reachable (g : Graph) : Prop :=
  ∃ ops, runValid Graph.empty ops = some g

end Graph

namespace AList

variable {α β : Type} [DecidableEq α]

theorem adelete_of_alookup_none {k : α} {m : List (α × β)}
    (h : alookup k m = none) : adelete k m = m := by
  induction m with
  | nil => rfl
  | cons p rest ih =>
    obtain ⟨k₁, v₁⟩ := p
    by_cases hk : k₁ = k
    · simp [alookup, hk] at h
    · simp [alookup, hk] at h
      simp [adelete, hk, ih h]

theorem mem_adelete_ne {p : α × β} {k : α} {m : List (α × β)}
    (hnd : (m.map Prod.fst).Nodup) (h : p ∈ adelete k m) : p ∈ m ∧ p.1 ≠ k := by
  induction m with
  | nil => simp [adelete] at h
  | cons q rest ih =>
    obtain ⟨k₁, v₁⟩ := q
    simp only [List.map_cons, List.nodup_cons] at hnd
    by_cases hk : k₁ = k
    · simp only [adelete, if_pos hk] at h
      refine ⟨List.mem_cons_of_mem _ h, ?_⟩
      intro he
      exact hnd.1 (hk ▸ he ▸ List.mem_map.mpr ⟨p, h, rfl⟩)
    · simp only [adelete, if_neg hk, List.mem_cons] at h
      rcases h with h | h
      · exact ⟨h ▸ List.mem_cons_self _ _, h ▸ hk⟩
      · obtain ⟨h₁, h₂⟩ := ih hnd.2 h
        exact ⟨List.mem_cons_of_mem _ h₁, h₂⟩

theorem mem_aset_strong {p : α × β} {k : α} {v : β} {m : List (α × β)}
    (hnd : (m.map Prod.fst).Nodup) (h : p ∈ aset k v m) :
    (p ∈ m ∧ p.1 ≠ k) ∨ p = (k, v) := by
  induction m with
  | nil =>
    simp only [aset, List.mem_singleton] at h
    exact Or.inr h
  | cons q rest ih =>
    obtain ⟨k₁, v₁⟩ := q
    simp only [List.map_cons, List.nodup_cons] at hnd
    by_cases hk : k₁ = k
    · simp only [aset, if_pos hk, List.mem_cons] at h
      rcases h with h | h
      · exact Or.inr h
      · refine Or.inl ⟨List.mem_cons_of_mem _ h, ?_⟩
        intro he
        exact hnd.1 (hk ▸ he ▸ List.mem_map.mpr ⟨p, h, rfl⟩)
    · simp only [aset, if_neg hk, List.mem_cons] at h
      rcases h with h | h
      · exact Or.inl ⟨h ▸ List.mem_cons_self _ _, h ▸ hk⟩
      · rcases ih hnd.2 h with ⟨h₁, h₂⟩ | h₁
        · exact Or.inl ⟨List.mem_cons_of_mem _ h₁, h₂⟩
        · exact Or.inr h₁

end AList

namespace Graph

theorem flatAddrs_append (m₁ m₂ : List (NodeAddr × List Edge)) :
    flatAddrs (m₁ ++ m₂) = flatAddrs m₁ ++ flatAddrs m₂ := by
  induction m₁ with
  | nil => simp [flatAddrs]
  | cons p rest ih =>
    obtain ⟨k, es⟩ := p
    simp [flatAddrs, ih]

theorem mem_flatAddrs {x : EdgeAddr} {m : List (NodeAddr × List Edge)} :
    x ∈ flatAddrs m ↔ ∃ p ∈ m, x ∈ p.2.map Edge.address := by
  induction m with
  | nil => simp [flatAddrs]
  | cons p rest ih =>
    obtain ⟨k, es⟩ := p
    simp only [flatAddrs, List.mem_append, List.mem_cons, ih]
    constructor
    · intro h
      rcases h with h | ⟨q, hq, hx⟩
      · exact ⟨(k, es), Or.inl rfl, h⟩
      · exact ⟨q, Or.inr hq, hx⟩
    · intro ⟨q, hq, hx⟩
      rcases hq with hq | hq
      · subst hq
        exact Or.inl hx
      · exact Or.inr ⟨q, hq, hx⟩

theorem flatAddrs_aset_none {k : NodeAddr} {m : List (NodeAddr × List Edge)}
    (h : alookup k m = none) (vs : List Edge) :
    flatAddrs (aset k vs m) = flatAddrs m ++ vs.map Edge.address := by
  rw [AList.aset_of_alookup_none h vs, flatAddrs_append]
  simp [flatAddrs]

/-- Decomposition of an adjacency index around an existing key: the flat
address list splits into a context `pre`/`post` with the key's own addresses
in between, uniformly for updates and for deletion of that key. -/
theorem flatAddrs_decomp {k : NodeAddr} {vs : List Edge}
    {m : List (NodeAddr × List Edge)} (h : alookup k m = some vs) :
    ∃ pre post,
      flatAddrs m = pre ++ vs.map Edge.address ++ post ∧
      (∀ vs₁, flatAddrs (aset k vs₁ m) = pre ++ vs₁.map Edge.address ++ post) ∧
      flatAddrs (adelete k m) = pre ++ post := by
  induction m with
  | nil => simp [alookup] at h
  | cons p rest ih =>
    obtain ⟨k₁, es₁⟩ := p
    by_cases hk : k₁ = k
    · simp only [alookup, if_pos hk] at h
      obtain rfl : es₁ = vs := by cases h; rfl
      refine ⟨[], flatAddrs rest, ?_, ?_, ?_⟩
      · simp [flatAddrs]
      · intro vs₁
        simp [aset, hk, flatAddrs]
      · simp [adelete, hk]
    · simp only [alookup, if_neg hk] at h
      obtain ⟨pre, post, h₁, h₂, h₃⟩ := ih h
      refine ⟨es₁.map Edge.address ++ pre, post, ?_, ?_, ?_⟩
      · simp [flatAddrs, h₁]
      · intro vs₁
        simp [aset, hk, flatAddrs, h₂ vs₁]
      · simp [adelete, hk, flatAddrs, h₃]

theorem mem_removeFirstByAddress {e : Edge} {a : EdgeAddr} {l : List Edge}
    (h : e ∈ removeFirstByAddress a l) : e ∈ l := by
  induction l with
  | nil => simp [removeFirstByAddress] at h
  | cons f rest ih =>
    by_cases hf : f.address = a
    · simp only [removeFirstByAddress, if_pos hf] at h
      exact List.mem_cons_of_mem _ h
    · simp only [removeFirstByAddress, if_neg hf, List.mem_cons] at h
      rcases h with h | h
      · exact h ▸ List.mem_cons_self _ _
      · exact List.mem_cons_of_mem _ (ih h)

theorem map_address_removeFirst_perm {a : EdgeAddr} {l : List Edge}
    (h : a ∈ l.map Edge.address) :
    (l.map Edge.address).Perm (a :: (removeFirstByAddress a l).map Edge.address) := by
  induction l with
  | nil => simp at h
  | cons f rest ih =>
    by_cases hf : f.address = a
    · simp only [removeFirstByAddress, if_pos hf, List.map_cons, hf]
      exact List.Perm.refl _
    · have ha : a ∈ rest.map Edge.address := by
        rcases List.mem_map.mp h with ⟨e, he, hea⟩
        rcases List.mem_cons.mp he with he | he
        · exact absurd (he ▸ hea) hf
        · exact List.mem_map.mpr ⟨e, he, hea⟩
      simp only [removeFirstByAddress, if_neg hf, List.map_cons]
      exact ((ih ha).cons f.address).trans (List.Perm.swap a f.address _)

theorem address_ne_of_mem_removeFirst {a : EdgeAddr} {l : List Edge} {e : Edge}
    (hnd : (l.map Edge.address).Nodup) (h : e ∈ removeFirstByAddress a l) :
    e.address ≠ a := by
  induction l with
  | nil => simp [removeFirstByAddress] at h
  | cons f rest ih =>
    simp only [List.map_cons, List.nodup_cons] at hnd
    by_cases hf : f.address = a
    · simp only [removeFirstByAddress, if_pos hf] at h
      intro he
      exact hnd.1 (hf ▸ he ▸ List.mem_map.mpr ⟨e, h, rfl⟩)
    · simp only [removeFirstByAddress, if_neg hf, List.mem_cons] at h
      rcases h with h | h
      · exact h ▸ hf
      · exact ih hnd.2 h

end Graph

namespace Graph

/-- Well-formedness ignores the modification counter. -/
theorem wf_set_mc (g : Graph) (n : Nat) :
    Wf { g with modificationCount := n } ↔ Wf g := Iff.rfl

/-- In a well-formed graph, an address keying either adjacency index is a
node of the graph (Invariant 3.1/4.1, in lookup form). -/
theorem alookup_inEdges_none_of_not_node {g : Graph} (hw : Wf g) {a : NodeAddr}
    (h : a ∉ g.nodes) : alookup a g.inEdges = none := by
  obtain ⟨-, -, -, -, -, -, -, -, inv3, -, -⟩ := hw
  rw [AList.alookup_eq_none_iff]
  intro hk
  obtain ⟨p, hp, hpa⟩ := List.mem_map.mp hk
  exact h (hpa ▸ (inv3.1 p hp).1)

theorem alookup_outEdges_none_of_not_node {g : Graph} (hw : Wf g) {a : NodeAddr}
    (h : a ∉ g.nodes) : alookup a g.outEdges = none := by
  obtain ⟨-, -, -, -, -, -, -, -, -, inv4, -⟩ := hw
  rw [AList.alookup_eq_none_iff]
  intro hk
  obtain ⟨p, hp, hpa⟩ := List.mem_map.mp hk
  exact h (hpa ▸ (inv4.1 p hp).1)

/-- If a node's out-adjacency list is empty (or absent), no edge of a
well-formed graph has it as `src`. -/
theorem no_src_of_outEdges_empty {g : Graph} (hw : Wf g) {a : NodeAddr}
    (hout : (alookup a g.outEdges).getD [] = []) :
    ∀ p ∈ g.edges, p.2.src ≠ a := by
  obtain ⟨-, hnE, -, hnO, -, -, -, -, -, inv4, inv45⟩ := hw
  intro p hp he
  have hflat : p.1 ∈ flatAddrs g.outEdges := (inv45 p hp).2
  obtain ⟨q, hq, hx⟩ := mem_flatAddrs.mp hflat
  obtain ⟨ed, hed, heda⟩ := List.mem_map.mp hx
  have h₄ := (inv4.1 q hq).2 ed hed
  have hpe : alookup p.1 g.edges = some p.2 := AList.alookup_eq_some_of_mem hnE hp
  rw [heda, hpe] at h₄
  obtain ⟨hedp, hsrc⟩ := h₄
  obtain rfl : ed = p.2 := by cases hedp; rfl
  have hq₁ : q.1 = a := hsrc.symm.trans he
  have : alookup a g.outEdges = some q.2 :=
    hq₁ ▸ AList.alookup_eq_some_of_mem hnO hq
  rw [this] at hout
  simp only [Option.getD_some] at hout
  rw [hout] at hed
  simp at hed

/-- If a node's in-adjacency list is empty (or absent), no edge of a
well-formed graph has it as `dst`. -/
theorem no_dst_of_inEdges_empty {g : Graph} (hw : Wf g) {a : NodeAddr}
    (hin : (alookup a g.inEdges).getD [] = []) :
    ∀ p ∈ g.edges, p.2.dst ≠ a := by
  obtain ⟨-, hnE, hnI, -, -, -, -, -, inv3, -, inv45⟩ := hw
  intro p hp he
  have hflat : p.1 ∈ flatAddrs g.inEdges := (inv45 p hp).1
  obtain ⟨q, hq, hx⟩ := mem_flatAddrs.mp hflat
  obtain ⟨ed, hed, heda⟩ := List.mem_map.mp hx
  have h₃ := (inv3.1 q hq).2 ed hed
  have hpe : alookup p.1 g.edges = some p.2 := AList.alookup_eq_some_of_mem hnE hp
  rw [heda, hpe] at h₃
  obtain ⟨hedp, hdst⟩ := h₃
  obtain rfl : ed = p.2 := by cases hedp; rfl
  have hq₁ : q.1 = a := hdst.symm.trans he
  have : alookup a g.inEdges = some q.2 :=
    hq₁ ▸ AList.alookup_eq_some_of_mem hnI hq
  rw [this] at hin
  simp only [Option.getD_some] at hin
  rw [hin] at hed
  simp at hed

/-- `addNode` preserves well-formedness whenever it does not throw. -/
theorem wf_addNode {g : Graph} {a : NodeAddr} {g₁ : Graph}
    (hw : Wf g) (h : g.addNode a = (g₁, none)) : Wf g₁ := by
  unfold addNode at h
  by_cases hv : validParts a
  · rw [if_neg (by simp [hv])] at h
    by_cases hmem : a ∈ g.nodes
    · rw [if_pos hmem] at h
      unfold markModification at h
      by_cases hcap : maxSafeInteger ≤ g.modificationCount
      · rw [if_pos hcap] at h; simp at h
      · rw [if_neg hcap] at h
        simp only [Prod.mk.injEq] at h
        rw [← h.1]
        exact hw
    · rw [if_neg hmem] at h
      unfold markModification at h
      by_cases hcap : maxSafeInteger ≤ g.modificationCount
      · rw [if_pos hcap] at h; simp at h
      · rw [if_neg hcap] at h
        simp only [Prod.mk.injEq] at h
        rw [← h.1]
        have hkeyIn : alookup a g.inEdges = none :=
          alookup_inEdges_none_of_not_node hw hmem
        have hkeyOut : alookup a g.outEdges = none :=
          alookup_outEdges_none_of_not_node hw hmem
        obtain ⟨hnN, hnE, hnI, hnO, hvN, hvE, inv1, inv2, inv3, inv4, inv45⟩ := hw
        have hFlatIn : flatAddrs (aset a [] g.inEdges) = flatAddrs g.inEdges := by
          rw [flatAddrs_aset_none hkeyIn]
          simp
        have hFlatOut : flatAddrs (aset a [] g.outEdges) = flatAddrs g.outEdges := by
          rw [flatAddrs_aset_none hkeyOut]
          simp
        refine ⟨?_, hnE, ?_, ?_, ?_, hvE, ?_, ?_, ⟨?_, ?_⟩, ⟨?_, ?_⟩, ?_⟩
        · refine List.Nodup.append hnN (List.nodup_singleton a) ?_
          intro b hb hb₁
          simp only [List.mem_singleton] at hb₁
          exact hmem (hb₁ ▸ hb)
        · exact AList.keys_nodup_aset _ hnI
        · exact AList.keys_nodup_aset _ hnO
        · intro n hn
          rcases List.mem_append.mp hn with hn | hn
          · exact hvN n hn
          · simp only [List.mem_singleton] at hn
            exact hn ▸ hv
        · intro n hn
          rw [AList.alookup_aset, AList.alookup_aset]
          rcases List.mem_append.mp hn with hn | hn
          · by_cases ha : a = n
            · simp [ha]
            · simp only [if_neg ha]
              exact inv1 n hn
          · simp only [List.mem_singleton] at hn
            simp [hn]
        · intro p hp
          obtain ⟨h₁, h₂, h₃⟩ := inv2 p hp
          exact ⟨h₁, List.mem_append_left _ h₂, List.mem_append_left _ h₃⟩
        · intro p hp
          rcases AList.mem_aset hp with hp | hp
          · obtain ⟨h₁, h₂⟩ := inv3.1 p hp
            exact ⟨List.mem_append_left _ h₁, h₂⟩
          · subst hp
            refine ⟨List.mem_append_right _ (List.mem_singleton_self a), ?_⟩
            intro e he
            simp at he
        · rw [hFlatIn]
          exact inv3.2
        · intro p hp
          rcases AList.mem_aset hp with hp | hp
          · obtain ⟨h₁, h₂⟩ := inv4.1 p hp
            exact ⟨List.mem_append_left _ h₁, h₂⟩
          · subst hp
            refine ⟨List.mem_append_right _ (List.mem_singleton_self a), ?_⟩
            intro e he
            simp at he
        · rw [hFlatOut]
          exact inv4.2
        · intro p hp
          rw [hFlatIn, hFlatOut]
          exact inv45 p hp
  · rw [if_pos (by simp [hv])] at h
    simp at h

end Graph

namespace Graph

/-- `removeNode` preserves well-formedness whenever it does not throw. -/
theorem wf_removeNode {g : Graph} {a : NodeAddr} {g₁ : Graph}
    (hw : Wf g) (h : g.removeNode a = (g₁, none)) : Wf g₁ := by
  simp only [removeNode] at h
  by_cases hv : validParts a
  · rw [if_neg (by simp [hv])] at h
    by_cases hlen :
        ((alookup a g.inEdges).getD [] ++ (alookup a g.outEdges).getD []).length > 0
    · rw [if_pos hlen] at h; simp at h
    · rw [if_neg hlen] at h
      have hnil : (alookup a g.inEdges).getD [] = [] ∧
          (alookup a g.outEdges).getD [] = [] := by
        have h0 :
            ((alookup a g.inEdges).getD [] ++ (alookup a g.outEdges).getD []) = [] := by
          rw [← List.length_eq_zero]
          omega
        exact List.append_eq_nil.mp h0
      have hNoSrc := no_src_of_outEdges_empty hw hnil.2
      have hNoDst := no_dst_of_inEdges_empty hw hnil.1
      have hFlatIn : flatAddrs (adelete a g.inEdges) = flatAddrs g.inEdges := by
        cases hin : alookup a g.inEdges with
        | none => rw [AList.adelete_of_alookup_none hin]
        | some vs =>
          have hvs : vs = [] := by
            have := hnil.1
            rw [hin] at this
            simpa using this
          subst hvs
          obtain ⟨pre, post, h₁, -, h₃⟩ := flatAddrs_decomp hin
          rw [h₃, h₁]
          simp
      have hFlatOut : flatAddrs (adelete a g.outEdges) = flatAddrs g.outEdges := by
        cases hout : alookup a g.outEdges with
        | none => rw [AList.adelete_of_alookup_none hout]
        | some vs =>
          have hvs : vs = [] := by
            have := hnil.2
            rw [hout] at this
            simpa using this
          subst hvs
          obtain ⟨pre, post, h₁, -, h₃⟩ := flatAddrs_decomp hout
          rw [h₃, h₁]
          simp
      unfold markModification at h
      by_cases hcap : maxSafeInteger ≤ g.modificationCount
      · rw [if_pos hcap] at h; simp at h
      · rw [if_neg hcap] at h
        simp only [Prod.mk.injEq] at h
        rw [← h.1]
        obtain ⟨hnN, hnE, hnI, hnO, hvN, hvE, inv1, inv2, inv3, inv4, inv45⟩ := hw
        have hmemEF : ∀ n ∈ eraseFirst a g.nodes, n ∈ g.nodes ∧ n ≠ a := by
          intro n hn
          refine ⟨AList.mem_eraseFirst hn, ?_⟩
          intro he
          exact AList.not_mem_eraseFirst_self hnN (he ▸ hn)
        refine ⟨?_, hnE, ?_, ?_, ?_, hvE, ?_, ?_, ⟨?_, ?_⟩, ⟨?_, ?_⟩, ?_⟩
        · exact (AList.eraseFirst_sublist a g.nodes).nodup hnN
        · exact AList.keys_nodup_adelete a hnI
        · exact AList.keys_nodup_adelete a hnO
        · intro n hn
          exact hvN n (hmemEF n hn).1
        · intro n hn
          obtain ⟨hn₁, hn₂⟩ := hmemEF n hn
          rw [AList.alookup_adelete_ne _ (fun he => hn₂ he.symm),
            AList.alookup_adelete_ne _ (fun he => hn₂ he.symm)]
          exact inv1 n hn₁
        · intro p hp
          obtain ⟨h₁, h₂, h₃⟩ := inv2 p hp
          exact ⟨h₁, AList.mem_eraseFirst_of_ne (hNoSrc p hp) h₂,
            AList.mem_eraseFirst_of_ne (hNoDst p hp) h₃⟩
        · intro p hp
          obtain ⟨hp₁, hp₂⟩ := AList.mem_adelete_ne hnI hp
          obtain ⟨h₁, h₂⟩ := inv3.1 p hp₁
          exact ⟨AList.mem_eraseFirst_of_ne hp₂ h₁, h₂⟩
        · rw [hFlatIn]
          exact inv3.2
        · intro p hp
          obtain ⟨hp₁, hp₂⟩ := AList.mem_adelete_ne hnO hp
          obtain ⟨h₁, h₂⟩ := inv4.1 p hp₁
          exact ⟨AList.mem_eraseFirst_of_ne hp₂ h₁, h₂⟩
        · rw [hFlatOut]
          exact inv4.2
        · intro p hp
          rw [hFlatIn, hFlatOut]
          exact inv45 p hp
  · rw [if_pos (by simp [hv])] at h
    simp at h

end Graph

namespace Graph

/-- `addEdge` preserves well-formedness whenever it does not throw. -/
theorem wf_addEdge {g : Graph} {e : Edge} {g₁ : Graph}
    (hw : Wf g) (h : g.addEdge e = (g₁, none)) : Wf g₁ := by
  simp only [addEdge] at h
  split at h
  · simp at h
  split at h
  · simp at h
  split at h
  · simp at h
  split at h
  · simp at h
  rename_i hvs hvd hva hmiss
  rw [not_not] at hvs hvd hva
  rw [not_or, not_not, not_not] at hmiss
  obtain ⟨hs, hd⟩ := hmiss
  split at h
  · -- existing edge at that address
    rename_i ex hex
    split at h
    · simp at h
    · rename_i hc
      rw [not_or, not_or] at hc
      obtain ⟨hc₁, hc₂, hc₃⟩ := hc
      rw [not_not] at hc₁ hc₂ hc₃
      have hxe : ex = e := by
        cases ex; cases e
        simp only at hc₁ hc₂ hc₃
        simp [hc₁, hc₂, hc₃]
      rw [AList.aset_self_of_alookup (hxe ▸ hex)] at h
      unfold markModification at h
      split at h
      · simp at h
      · simp only [Prod.mk.injEq] at h
        rw [← h.1]
        exact hw
  · -- fresh address
    rename_i hex
    obtain ⟨hnN, hnE, hnI, hnO, hvN, hvE, inv1, inv2, inv3, inv4, inv45⟩ := hw
    have hinsS : (alookup e.dst g.inEdges).isSome = true := (inv1 e.dst hd).1
    have houtsS : (alookup e.src g.outEdges).isSome = true := (inv1 e.src hs).2
    split at h
    · rename_i ins outs hins houts
      have hins : alookup e.dst g.inEdges = some ins := hins
      have houts : alookup e.src g.outEdges = some outs := houts
      have hsetIn : alookup e.address (aset e.address e g.edges) = some e := by
        rw [AList.alookup_aset]
        simp
      rw [AList.aset_self_of_alookup hsetIn] at h
      unfold markModification at h
      split at h
      · simp at h
      · simp only [Prod.mk.injEq] at h
        rw [← h.1]
        -- fresh-address facts
        have haddrNe : ∀ {x : EdgeAddr} {ed : Edge},
            alookup x g.edges = some ed → x ≠ e.address := by
          intro x ed hx he
          rw [he, hex] at hx
          cases hx
        have hanotIn : e.address ∉ flatAddrs g.inEdges := by
          intro hx
          obtain ⟨q, hq, hxx⟩ := mem_flatAddrs.mp hx
          obtain ⟨ed, hed, heda⟩ := List.mem_map.mp hxx
          have h₃ := ((inv3.1 q hq).2 ed hed).1
          exact haddrNe h₃ heda
        have hanotOut : e.address ∉ flatAddrs g.outEdges := by
          intro hx
          obtain ⟨q, hq, hxx⟩ := mem_flatAddrs.mp hx
          obtain ⟨ed, hed, heda⟩ := List.mem_map.mp hxx
          have h₄ := ((inv4.1 q hq).2 ed hed).1
          exact haddrNe h₄ heda
        obtain ⟨preI, postI, hI₁, hI₂, -⟩ := flatAddrs_decomp hins
        obtain ⟨preO, postO, hO₁, hO₂, -⟩ := flatAddrs_decomp houts
        have hpermIn :
            (flatAddrs (aset e.dst (ins ++ [e]) g.inEdges)).Perm
              (e.address :: flatAddrs g.inEdges) := by
          rw [hI₂ (ins ++ [e]), hI₁]
          simp only [List.map_append, List.map_cons, List.map_nil]
          have hm := @List.perm_middle _ e.address
            (preI ++ ins.map Edge.address) postI
          simpa [List.append_assoc] using hm
        have hpermOut :
            (flatAddrs (aset e.src (outs ++ [e]) g.outEdges)).Perm
              (e.address :: flatAddrs g.outEdges) := by
          rw [hO₂ (outs ++ [e]), hO₁]
          simp only [List.map_append, List.map_cons, List.map_nil]
          have hm := @List.perm_middle _ e.address
            (preO ++ outs.map Edge.address) postO
          simpa [List.append_assoc] using hm
        have hlookAset : ∀ {x : EdgeAddr} {ed : Edge},
            alookup x g.edges = some ed →
            alookup x (aset e.address e g.edges) = some ed := by
          intro x ed hx
          rw [AList.alookup_aset, if_neg (fun hh => haddrNe hx hh.symm)]
          exact hx
        refine ⟨hnN, ?_, ?_, ?_, hvN, ?_, ?_, ?_, ⟨?_, ?_⟩, ⟨?_, ?_⟩, ?_⟩
        · exact AList.keys_nodup_aset _ hnE
        · exact AList.keys_nodup_aset _ hnI
        · exact AList.keys_nodup_aset _ hnO
        · intro p hp
          rcases AList.mem_aset hp with hp | hp
          · exact hvE p hp
          · rw [hp]
            exact hva
        · intro n hn
          rw [AList.alookup_aset, AList.alookup_aset]
          constructor
          · by_cases hden : e.dst = n
            · simp [hden]
            · simp only [if_neg hden]
              exact (inv1 n hn).1
          · by_cases hsen : e.src = n
            · simp [hsen]
            · simp only [if_neg hsen]
              exact (inv1 n hn).2
        · intro p hp
          rcases AList.mem_aset hp with hp | hp
          · exact inv2 p hp
          · rw [hp]
            exact ⟨rfl, hs, hd⟩
        · intro p hp
          rcases AList.mem_aset hp with hp | hp
          · obtain ⟨h₁, h₂⟩ := inv3.1 p hp
            refine ⟨h₁, ?_⟩
            intro ed hed
            obtain ⟨h₃, h₄⟩ := h₂ ed hed
            exact ⟨hlookAset h₃, h₄⟩
          · rw [hp]
            refine ⟨hd, ?_⟩
            intro ed hed
            rcases List.mem_append.mp hed with hed | hed
            · obtain ⟨h₃, h₄⟩ :=
                (inv3.1 (e.dst, ins) (AList.mem_of_alookup_eq_some hins)).2 ed hed
              exact ⟨hlookAset h₃, h₄⟩
            · simp only [List.mem_singleton] at hed
              subst hed
              exact ⟨hsetIn, rfl⟩
        · rw [hpermIn.nodup_iff]
          exact List.nodup_cons.mpr ⟨hanotIn, inv3.2⟩
        · intro p hp
          rcases AList.mem_aset hp with hp | hp
          · obtain ⟨h₁, h₂⟩ := inv4.1 p hp
            refine ⟨h₁, ?_⟩
            intro ed hed
            obtain ⟨h₃, h₄⟩ := h₂ ed hed
            exact ⟨hlookAset h₃, h₄⟩
          · rw [hp]
            refine ⟨hs, ?_⟩
            intro ed hed
            rcases List.mem_append.mp hed with hed | hed
            · obtain ⟨h₃, h₄⟩ :=
                (inv4.1 (e.src, outs) (AList.mem_of_alookup_eq_some houts)).2 ed hed
              exact ⟨hlookAset h₃, h₄⟩
            · simp only [List.mem_singleton] at hed
              subst hed
              exact ⟨hsetIn, rfl⟩
        · rw [hpermOut.nodup_iff]
          exact List.nodup_cons.mpr ⟨hanotOut, inv4.2⟩
        · intro p hp
          rw [hpermIn.mem_iff, hpermOut.mem_iff]
          rcases AList.mem_aset hp with hp | hp
          · obtain ⟨h₁, h₂⟩ := inv45 p hp
            exact ⟨List.mem_cons_of_mem _ h₁, List.mem_cons_of_mem _ h₂⟩
          · rw [hp]
            exact ⟨List.mem_cons_self _ _, List.mem_cons_self _ _⟩
    · -- NullUtil.get failure: impossible here, and an error anyway
      simp at h

end Graph

namespace Graph

/-- `removeEdge` preserves well-formedness whenever it does not throw. -/
theorem wf_removeEdge {g : Graph} {a : EdgeAddr} {g₁ : Graph}
    (hw : Wf g) (h : g.removeEdge a = (g₁, none)) : Wf g₁ := by
  simp only [removeEdge] at h
  split at h
  · simp at h
  rename_i hv
  rw [not_not] at hv
  split at h
  · -- absent address: a pure modification mark
    unfold markModification at h
    split at h
    · simp at h
    · simp only [Prod.mk.injEq] at h
      rw [← h.1]
      exact hw
  · rename_i e hedge
    obtain ⟨hnN, hnE, hnI, hnO, hvN, hvE, inv1, inv2, inv3, inv4, inv45⟩ := hw
    obtain ⟨hea, hes, hed⟩ := inv2 (a, e) (AList.mem_of_alookup_eq_some hedge)
    simp only at hea hes hed
    split at h
    · rename_i ins outs hins houts
      have hins : alookup e.dst g.inEdges = some ins := hins
      have houts : alookup e.src g.outEdges = some outs := houts
      split at h
      · simp at h
      · rename_i hinsAll
        split at h
        · simp at h
        · rename_i houtsAll
          have haIns : a ∈ ins.map Edge.address := by
            simp only [List.all_eq_true, not_forall] at hinsAll
            obtain ⟨ed, hed₁, hed₂⟩ := hinsAll
            simp only [ne_eq, Decidable.not_not,
              decide_eq_true_eq] at hed₂
            exact List.mem_map.mpr ⟨ed, hed₁, hed₂⟩
          have haOuts : a ∈ outs.map Edge.address := by
            simp only [List.all_eq_true, not_forall] at houtsAll
            obtain ⟨ed, hed₁, hed₂⟩ := houtsAll
            simp only [ne_eq, Decidable.not_not,
              decide_eq_true_eq] at hed₂
            exact List.mem_map.mpr ⟨ed, hed₁, hed₂⟩
          unfold markModification at h
          split at h
          · simp at h
          simp only [Prod.mk.injEq] at h
          rw [← h.1]
          obtain ⟨preI, postI, hI₁, hI₂, -⟩ := flatAddrs_decomp hins
          obtain ⟨preO, postO, hO₁, hO₂, -⟩ := flatAddrs_decomp houts
          have hInsNodup : (ins.map Edge.address).Nodup := by
            have hsub : (ins.map Edge.address).Sublist
                (preI ++ ins.map Edge.address ++ postI) := by
              have h₁ := List.sublist_append_left (ins.map Edge.address) postI
              have h₂ := List.sublist_append_right preI (ins.map Edge.address ++ postI)
              simpa [List.append_assoc] using h₁.trans h₂
            exact hsub.nodup (hI₁ ▸ inv3.2)
          have hOutsNodup : (outs.map Edge.address).Nodup := by
            have hsub : (outs.map Edge.address).Sublist
                (preO ++ outs.map Edge.address ++ postO) := by
              have h₁ := List.sublist_append_left (outs.map Edge.address) postO
              have h₂ := List.sublist_append_right preO (outs.map Edge.address ++ postO)
              simpa [List.append_assoc] using h₁.trans h₂
            exact hsub.nodup (hO₁ ▸ inv4.2)
          have hpermIn :
              (flatAddrs g.inEdges).Perm
                (a :: flatAddrs (aset e.dst (removeFirstByAddress a ins) g.inEdges)) := by
            rw [hI₂ (removeFirstByAddress a ins), hI₁]
            simp only [List.append_assoc]
            have hmp := map_address_removeFirst_perm haIns
            have step := (hmp.append_right postI).append_left preI
            refine step.trans ?_
            have hm := @List.perm_middle _ a
              preI
              ((removeFirstByAddress a ins).map Edge.address ++ postI)
            simpa [List.append_assoc] using hm
          have hpermOut :
              (flatAddrs g.outEdges).Perm
                (a :: flatAddrs (aset e.src (removeFirstByAddress a outs) g.outEdges)) := by
            rw [hO₂ (removeFirstByAddress a outs), hO₁]
            simp only [List.append_assoc]
            have hmp := map_address_removeFirst_perm haOuts
            have step := (hmp.append_right postO).append_left preO
            refine step.trans ?_
            have hm := @List.perm_middle _ a
              preO
              ((removeFirstByAddress a outs).map Edge.address ++ postO)
            simpa [List.append_assoc] using hm
          have hlookDel : ∀ {x : EdgeAddr} {ed : Edge}, x ≠ a →
              alookup x g.edges = some ed →
              alookup x (adelete a g.edges) = some ed := by
            intro x ed hx hlk
            rw [AList.alookup_adelete_ne _ (fun hh => hx hh.symm)]
            exact hlk
          refine ⟨hnN, ?_, ?_, ?_, hvN, ?_, ?_, ?_, ⟨?_, ?_⟩, ⟨?_, ?_⟩, ?_⟩
          · exact AList.keys_nodup_adelete a hnE
          · exact AList.keys_nodup_aset _ hnI
          · exact AList.keys_nodup_aset _ hnO
          · intro p hp
            exact hvE p (AList.mem_adelete hp)
          · intro n hn
            rw [AList.alookup_aset, AList.alookup_aset]
            constructor
            · by_cases hden : e.dst = n
              · simp [hden]
              · simp only [if_neg hden]
                exact (inv1 n hn).1
            · by_cases hsen : e.src = n
              · simp [hsen]
              · simp only [if_neg hsen]
                exact (inv1 n hn).2
          · intro p hp
            exact inv2 p (AList.mem_adelete hp)
          · intro p hp
            rcases AList.mem_aset_strong hnI hp with ⟨hp₁, hp₂⟩ | hp₁
            · obtain ⟨h₁, h₂⟩ := inv3.1 p hp₁
              refine ⟨h₁, ?_⟩
              intro ed hedm
              obtain ⟨h₃, h₄⟩ := h₂ ed hedm
              have hne : ed.address ≠ a := by
                intro hh
                rw [hh, hedge] at h₃
                obtain rfl : e = ed := by cases h₃; rfl
                exact hp₂ (h₄ ▸ rfl)
              exact ⟨hlookDel hne h₃, h₄⟩
            · rw [hp₁]
              refine ⟨hed, ?_⟩
              intro ed hedm
              have hmem : ed ∈ ins := mem_removeFirstByAddress hedm
              have hne : ed.address ≠ a := address_ne_of_mem_removeFirst hInsNodup hedm
              obtain ⟨h₃, h₄⟩ :=
                (inv3.1 (e.dst, ins) (AList.mem_of_alookup_eq_some hins)).2 ed hmem
              exact ⟨hlookDel hne h₃, h₄⟩
          · exact (List.nodup_cons.mp (hpermIn.nodup_iff.mp inv3.2)).2
          · intro p hp
            rcases AList.mem_aset_strong hnO hp with ⟨hp₁, hp₂⟩ | hp₁
            · obtain ⟨h₁, h₂⟩ := inv4.1 p hp₁
              refine ⟨h₁, ?_⟩
              intro ed hedm
              obtain ⟨h₃, h₄⟩ := h₂ ed hedm
              have hne : ed.address ≠ a := by
                intro hh
                rw [hh, hedge] at h₃
                obtain rfl : e = ed := by cases h₃; rfl
                exact hp₂ (h₄ ▸ rfl)
              exact ⟨hlookDel hne h₃, h₄⟩
            · rw [hp₁]
              refine ⟨hes, ?_⟩
              intro ed hedm
              have hmem : ed ∈ outs := mem_removeFirstByAddress hedm
              have hne : ed.address ≠ a := address_ne_of_mem_removeFirst hOutsNodup hedm
              obtain ⟨h₃, h₄⟩ :=
                (inv4.1 (e.src, outs) (AList.mem_of_alookup_eq_some houts)).2 ed hmem
              exact ⟨hlookDel hne h₃, h₄⟩
          · exact (List.nodup_cons.mp (hpermOut.nodup_iff.mp inv4.2)).2
          · intro p hp
            obtain ⟨hp₁, hp₂⟩ := AList.mem_adelete_ne hnE hp
            obtain ⟨h₁, h₂⟩ := inv45 p hp₁
            constructor
            · rcases List.mem_cons.mp (hpermIn.mem_iff.mp h₁) with hh | hh
              · exact absurd hh hp₂
              · exact hh
            · rcases List.mem_cons.mp (hpermOut.mem_iff.mp h₂) with hh | hh
              · exact absurd hh hp₂
              · exact hh
    · simp at h

end Graph

namespace AList

variable {α β : Type} [DecidableEq α]

theorem length_aset_of_mem {k : α} (v : β) {m : List (α × β)}
    (h : k ∈ m.map Prod.fst) : (aset k v m).length = m.length := by
  have := congrArg List.length (keys_aset_of_mem v h)
  simpa using this

theorem length_aset_of_none {k : α} {m : List (α × β)}
    (h : alookup k m = none) (v : β) : (aset k v m).length = m.length + 1 := by
  rw [aset_of_alookup_none h v]
  simp

theorem adelete_sublist (k : α) (m : List (α × β)) : (adelete k m).Sublist m := by
  induction m with
  | nil => simp [adelete]
  | cons p rest ih =>
    obtain ⟨k₁, v₁⟩ := p
    by_cases hk : k₁ = k
    · simp only [adelete, if_pos hk]
      exact List.Sublist.cons _ (List.Sublist.refl _)
    · simp only [adelete, if_neg hk]
      exact List.Sublist.cons₂ _ ih

end AList


namespace Graph

/-- A successful `_markModification` leaves every structure untouched, bumps
the counter by one, and certifies the counter was below the cap. -/
theorem markModification_ok {gX g₁ : Graph} (h : markModification gX = (g₁, none)) :
    g₁.nodes = gX.nodes ∧ g₁.edges = gX.edges ∧ g₁.inEdges = gX.inEdges ∧
    g₁.outEdges = gX.outEdges ∧
    g₁.modificationCount = gX.modificationCount + 1 ∧
    gX.modificationCount < maxSafeInteger := by
  unfold markModification at h
  split at h
  · simp at h
  · rename_i hcap
    simp only [Prod.mk.injEq] at h
    rw [← h.1]
    exact ⟨rfl, rfl, rfl, rfl, rfl, by omega⟩

/-- Exact result of a successful fresh `addNode`. -/
theorem addNode_fresh_state {g : Graph} {a : NodeAddr}
    (hv : validParts a = true) (hm : a ∉ g.nodes)
    (hc : g.modificationCount < maxSafeInteger) :
    g.addNode a =
      ({ g with
          nodes := g.nodes ++ [a]
          inEdges := aset a [] g.inEdges
          outEdges := aset a [] g.outEdges
          modificationCount := g.modificationCount + 1 }, none) := by
  unfold addNode markModification
  rw [if_neg (by simp [hv]), if_neg hm,
    if_neg (show ¬maxSafeInteger ≤ g.modificationCount by omega)]

/-- Exact result of a successful duplicate `addNode`. -/
theorem addNode_dup_state {g : Graph} {a : NodeAddr}
    (hv : validParts a = true) (hm : a ∈ g.nodes)
    (hc : g.modificationCount < maxSafeInteger) :
    g.addNode a =
      ({ g with modificationCount := g.modificationCount + 1 }, none) := by
  unfold addNode markModification
  rw [if_neg (by simp [hv]), if_pos hm,
    if_neg (show ¬maxSafeInteger ≤ g.modificationCount by omega)]

/-- Exact result of a successful fresh `addEdge` (stated via the adjacency
lists that a well-formed graph necessarily has for the endpoints). -/
theorem addEdge_fresh_state {g : Graph} {e : Edge} {ins outs : List Edge}
    (hvs : validParts e.src = true) (hvd : validParts e.dst = true)
    (hva : validParts e.address = true)
    (hs : e.src ∈ g.nodes) (hd : e.dst ∈ g.nodes)
    (hex : alookup e.address g.edges = none)
    (hins : alookup e.dst g.inEdges = some ins)
    (houts : alookup e.src g.outEdges = some outs)
    (hc : g.modificationCount < maxSafeInteger) :
    g.addEdge e =
      ({ g with
          edges := g.edges ++ [(e.address, e)]
          inEdges := aset e.dst (ins ++ [e]) g.inEdges
          outEdges := aset e.src (outs ++ [e]) g.outEdges
          modificationCount := g.modificationCount + 1 }, none) := by
  unfold addEdge
  rw [if_neg (by simp [hvs]), if_neg (by simp [hvd]), if_neg (by simp [hva]),
    if_neg (by simp [hs, hd]), hex]
  simp only [hins, houts]
  have hsetIn : alookup e.address (aset e.address e g.edges) = some e := by
    rw [AList.alookup_aset]
    simp
  rw [AList.aset_self_of_alookup hsetIn, AList.aset_of_alookup_none hex]
  unfold markModification
  rw [if_neg (show ¬maxSafeInteger ≤ g.modificationCount by omega)]

/-- A successful `addNode` adds at most one node, no edge, and bumps the
counter by one (which therefore was below the cap). -/
theorem size_addNode {g : Graph} {a : NodeAddr} {g₁ : Graph}
    (h : g.addNode a = (g₁, none)) :
    g₁.nodes.length + g₁.edges.length ≤ g.nodes.length + g.edges.length + 1 ∧
    g₁.modificationCount = g.modificationCount + 1 ∧
    g.modificationCount < maxSafeInteger := by
  unfold addNode at h
  split at h
  · simp at h
  split at h
  · obtain ⟨e₁, e₂, -, -, e₅, e₆⟩ := markModification_ok h
    rw [e₁, e₂]
    exact ⟨by omega, e₅, e₆⟩
  · obtain ⟨e₁, e₂, -, -, e₅, e₆⟩ := markModification_ok h
    have e₁' : g₁.nodes = g.nodes ++ [a] := e₁
    have e₂' : g₁.edges = g.edges := e₂
    have e₅' : g₁.modificationCount = g.modificationCount + 1 := e₅
    have e₆' : g.modificationCount < maxSafeInteger := e₆
    rw [e₁', e₂', List.length_append]
    exact ⟨by simp; omega, e₅', e₆'⟩

/-- A successful `addEdge` adds at most one edge, no node, and bumps the
counter by one. -/
theorem size_addEdge {g : Graph} {e : Edge} {g₁ : Graph}
    (h : g.addEdge e = (g₁, none)) :
    g₁.nodes.length + g₁.edges.length ≤ g.nodes.length + g.edges.length + 1 ∧
    g₁.modificationCount = g.modificationCount + 1 ∧
    g.modificationCount < maxSafeInteger := by
  simp only [addEdge] at h
  split at h
  · simp at h
  split at h
  · simp at h
  split at h
  · simp at h
  split at h
  · simp at h
  split at h
  · rename_i ex hex
    split at h
    · simp at h
    · rename_i hc
      rw [not_or, not_or] at hc
      obtain ⟨hc₁, hc₂, hc₃⟩ := hc
      rw [not_not] at hc₁ hc₂ hc₃
      have hxe : ex = e := by
        cases ex; cases e
        simp only at hc₁ hc₂ hc₃
        simp [hc₁, hc₂, hc₃]
      rw [AList.aset_self_of_alookup (hxe ▸ hex)] at h
      obtain ⟨e₁, e₂, -, -, e₅, e₆⟩ := markModification_ok h
      have e₁' : g₁.nodes = g.nodes := e₁
      have e₂' : g₁.edges = g.edges := e₂
      have e₅' : g₁.modificationCount = g.modificationCount + 1 := e₅
      have e₆' : g.modificationCount < maxSafeInteger := e₆
      rw [e₁', e₂']
      exact ⟨by omega, e₅', e₆'⟩
  · rename_i hex
    split at h
    · rename_i ins outs hins houts
      have hsetIn : alookup e.address (aset e.address e g.edges) = some e := by
        rw [AList.alookup_aset]
        simp
      rw [AList.aset_self_of_alookup hsetIn] at h
      obtain ⟨e₁, e₂, -, -, e₅, e₆⟩ := markModification_ok h
      have e₁' : g₁.nodes = g.nodes := e₁
      have e₂' : g₁.edges = aset e.address e g.edges := e₂
      have e₅' : g₁.modificationCount = g.modificationCount + 1 := e₅
      have e₆' : g.modificationCount < maxSafeInteger := e₆
      rw [e₁', e₂', AList.length_aset_of_none hex]
      exact ⟨by omega, e₅', e₆'⟩
    · simp at h

/-- A successful `removeNode` removes nodes only and bumps the counter. -/
theorem size_removeNode {g : Graph} {a : NodeAddr} {g₁ : Graph}
    (h : g.removeNode a = (g₁, none)) :
    g₁.nodes.length + g₁.edges.length ≤ g.nodes.length + g.edges.length + 1 ∧
    g₁.modificationCount = g.modificationCount + 1 ∧
    g.modificationCount < maxSafeInteger := by
  simp only [removeNode] at h
  split at h
  · simp at h
  split at h
  · simp at h
  obtain ⟨e₁, e₂, -, -, e₅, e₆⟩ := markModification_ok h
  have e₁' : g₁.nodes = eraseFirst a g.nodes := e₁
  have e₂' : g₁.edges = g.edges := e₂
  have e₅' : g₁.modificationCount = g.modificationCount + 1 := e₅
  have e₆' : g.modificationCount < maxSafeInteger := e₆
  rw [e₁', e₂']
  have hlen := (AList.eraseFirst_sublist a g.nodes).length_le
  exact ⟨by omega, e₅', e₆'⟩

/-- A successful `removeEdge` removes edges only and bumps the counter. -/
theorem size_removeEdge {g : Graph} {a : EdgeAddr} {g₁ : Graph}
    (h : g.removeEdge a = (g₁, none)) :
    g₁.nodes.length + g₁.edges.length ≤ g.nodes.length + g.edges.length + 1 ∧
    g₁.modificationCount = g.modificationCount + 1 ∧
    g.modificationCount < maxSafeInteger := by
  simp only [removeEdge] at h
  split at h
  · simp at h
  split at h
  · obtain ⟨e₁, e₂, -, -, e₅, e₆⟩ := markModification_ok h
    rw [e₁, e₂]
    exact ⟨by omega, e₅, e₆⟩
  · rename_i e hedge
    split at h
    · rename_i ins outs hins houts
      split at h
      · simp at h
      split at h
      · simp at h
      obtain ⟨e₁, e₂, -, -, e₅, e₆⟩ := markModification_ok h
      have e₁' : g₁.nodes = g.nodes := e₁
      have e₂' : g₁.edges = adelete a g.edges := e₂
      have e₅' : g₁.modificationCount = g.modificationCount + 1 := e₅
      have e₆' : g.modificationCount < maxSafeInteger := e₆
      rw [e₁', e₂']
      have hlen := (AList.adelete_sublist a g.edges).length_le
      exact ⟨by omega, e₅', e₆'⟩
    · simp at h

end Graph

namespace Graph

/-- Counter bookkeeping: a graph never holds more nodes plus edges than its
modification count, which never exceeds `Number.MAX_SAFE_INTEGER`. -/
def SizeOk (g : Graph) : Prop :=
  g.nodes.length + g.edges.length ≤ g.modificationCount ∧
  g.modificationCount ≤ maxSafeInteger

theorem wf_empty : Wf Graph.empty := by decide

theorem sizeOk_empty : SizeOk Graph.empty := by
  constructor
  · simp [empty]
  · simp [empty, maxSafeInteger]

theorem wf_applyOp {g : Graph} {op : Op} {g₁ : Graph}
    (hw : Wf g) (h : applyOp g op = (g₁, none)) : Wf g₁ := by
  cases op with
  | addNode a => exact wf_addNode hw h
  | addEdge e => exact wf_addEdge hw h
  | removeNode a => exact wf_removeNode hw h
  | removeEdge a => exact wf_removeEdge hw h

theorem size_applyOp {g : Graph} {op : Op} {g₁ : Graph}
    (h : applyOp g op = (g₁, none)) :
    g₁.nodes.length + g₁.edges.length ≤ g.nodes.length + g.edges.length + 1 ∧
    g₁.modificationCount = g.modificationCount + 1 ∧
    g.modificationCount < maxSafeInteger := by
  cases op with
  | addNode a => exact size_addNode h
  | addEdge e => exact size_addEdge h
  | removeNode a => exact size_removeNode h
  | removeEdge a => exact size_removeEdge h

theorem runValid_inv : ∀ (ops : List Op) (g g₁ : Graph),
    runValid g ops = some g₁ → Wf g → SizeOk g → Wf g₁ ∧ SizeOk g₁ := by
  intro ops
  induction ops with
  | nil =>
    intro g g₁ h hw hs
    simp only [runValid] at h
    cases h
    exact ⟨hw, hs⟩
  | cons op rest ih =>
    intro g g₁ h hw hs
    simp only [runValid] at h
    split at h
    · rename_i g₂ heq
      obtain ⟨hle, hmc, hcap⟩ := size_applyOp heq
      have hs₁ := hs.1
      have hs₂ := hs.2
      exact ih g₂ g₁ h (wf_applyOp hw heq) ⟨by omega, by omega⟩
    · cases h

theorem wf_of_reachable {g : Graph} (h : Reachable g) : Wf g := by
  obtain ⟨ops, hops⟩ := h
  exact (runValid_inv ops Graph.empty g hops wf_empty sizeOk_empty).1

theorem sizeOk_of_reachable {g : Graph} (h : Reachable g) : SizeOk g := by
  obtain ⟨ops, hops⟩ := h
  exact (runValid_inv ops Graph.empty g hops wf_empty sizeOk_empty).2

end Graph

/-- **C1.** For every graph reachable from the empty graph by a valid sequence
of `addNode`, `addEdge`, `removeNode`, and `removeEdge` calls (a sequence in
which no call throws), `checkInvariants()` does not throw: the five documented
invariant classes (node/edge index completeness, edge endpoint existence,
adjacency index accuracy in both directions, no duplicate adjacency entries,
and index-graph agreement) all hold. -/
theorem claim_C1 (ops : List Graph.Op) (g : Graph)
    (h : Graph.runValid Graph.empty ops = some g) : Graph.CheckInvariantsOk g :=
  (Graph.wf_of_reachable ⟨ops, h⟩).2.2.2.2.2.2

/-- Witness for C1 at a concrete valid call sequence. -/
theorem claim_C1_witness :
    Graph.CheckInvariantsOk
      { nodes := [["n"]], edges := [], inEdges := [(["n"], [])],
        outEdges := [(["n"], [])], modificationCount := 1 } :=
  claim_C1 [Graph.Op.addNode ["n"]] _ (by decide)

namespace Graph

/-- In a well-formed graph, an edge of the edge map occurs (by address) in the
in-adjacency list of its `dst`. -/
theorem exists_in_entry {g : Graph} (hw : Wf g) {a : EdgeAddr} {e : Edge}
    (hedge : alookup a g.edges = some e) {ins : List Edge}
    (hins : alookup e.dst g.inEdges = some ins) :
    ∃ ed ∈ ins, ed.address = a := by
  obtain ⟨-, hnE, hnI, -, -, -, -, inv2, inv3, -, inv45⟩ := hw
  have hmem := AList.mem_of_alookup_eq_some hedge
  have hflat : a ∈ flatAddrs g.inEdges := (inv45 (a, e) hmem).1
  obtain ⟨q, hq, hx⟩ := mem_flatAddrs.mp hflat
  obtain ⟨ed, hed, heda⟩ := List.mem_map.mp hx
  obtain ⟨h₃, h₄⟩ := (inv3.1 q hq).2 ed hed
  rw [heda, hedge] at h₃
  obtain rfl : ed = e := by cases h₃; rfl
  have hq₂ : alookup q.1 g.inEdges = some q.2 := AList.alookup_eq_some_of_mem hnI hq
  rw [← h₄, hins] at hq₂
  have hq₃ : ins = q.2 := by cases hq₂; rfl
  refine ⟨ed, ?_, heda⟩
  rw [hq₃]
  exact hed

/-- In a well-formed graph, an edge of the edge map occurs (by address) in the
out-adjacency list of its `src`. -/
theorem exists_out_entry {g : Graph} (hw : Wf g) {a : EdgeAddr} {e : Edge}
    (hedge : alookup a g.edges = some e) {outs : List Edge}
    (houts : alookup e.src g.outEdges = some outs) :
    ∃ ed ∈ outs, ed.address = a := by
  obtain ⟨-, hnE, -, hnO, -, -, -, inv2, -, inv4, inv45⟩ := hw
  have hmem := AList.mem_of_alookup_eq_some hedge
  have hflat : a ∈ flatAddrs g.outEdges := (inv45 (a, e) hmem).2
  obtain ⟨q, hq, hx⟩ := mem_flatAddrs.mp hflat
  obtain ⟨ed, hed, heda⟩ := List.mem_map.mp hx
  obtain ⟨h₄, h₅⟩ := (inv4.1 q hq).2 ed hed
  rw [heda, hedge] at h₄
  obtain rfl : ed = e := by cases h₄; rfl
  have hq₂ : alookup q.1 g.outEdges = some q.2 := AList.alookup_eq_some_of_mem hnO hq
  rw [← h₅, houts] at hq₂
  have hq₃ : outs = q.2 := by cases hq₂; rfl
  refine ⟨ed, ?_, heda⟩
  rw [hq₃]
  exact hed

/-- Exact result of a successful duplicate `addEdge` (the edge map already
binds `e.address` to `e` itself). -/
theorem addEdge_dup_state {g : Graph} {e : Edge}
    (hvs : validParts e.src = true) (hvd : validParts e.dst = true)
    (hva : validParts e.address = true)
    (hs : e.src ∈ g.nodes) (hd : e.dst ∈ g.nodes)
    (hex : alookup e.address g.edges = some e)
    (hc : g.modificationCount < maxSafeInteger) :
    g.addEdge e =
      ({ g with modificationCount := g.modificationCount + 1 }, none) := by
  unfold addEdge
  rw [if_neg (by simp [hvs]), if_neg (by simp [hvd]), if_neg (by simp [hva]),
    if_neg (by simp [hs, hd]), hex]
  simp only [ne_eq, not_true_eq_false, or_self, if_neg, false_or]
  rw [if_neg (by simp), AList.aset_self_of_alookup hex]
  unfold markModification
  rw [if_neg (show ¬maxSafeInteger ≤ g.modificationCount by omega)]

/-- Exact result of `removeNode` on a node with no incident edges. -/
theorem removeNode_free_state {g : Graph} {a : NodeAddr}
    (hv : validParts a = true)
    (hin : (alookup a g.inEdges).getD [] = [])
    (hout : (alookup a g.outEdges).getD [] = [])
    (hc : g.modificationCount < maxSafeInteger) :
    g.removeNode a =
      ({ g with
          nodes := eraseFirst a g.nodes
          inEdges := adelete a g.inEdges
          outEdges := adelete a g.outEdges
          modificationCount := g.modificationCount + 1 }, none) := by
  unfold removeNode
  rw [if_neg (by simp [hv]), if_neg (by simp [hin, hout])]
  unfold markModification
  rw [if_neg (show ¬maxSafeInteger ≤ g.modificationCount by omega)]

end Graph

/-- **C3 (amended).** For a well-formed graph whose modification counter is
below `Number.MAX_SAFE_INTEGER`, and an edge `e` with valid addresses:
`addEdge(e)` throws `MissingEndpointError` if `e.src` or `e.dst` is not a
node; otherwise it throws `ConflictingEdgeError` if the address already maps
to an edge with a different `src` or `dst`; otherwise, on an exact duplicate,
the call succeeds leaving the node set and edge map unchanged; otherwise `e`
is added to the edge map and appended to both adjacency lists.  (The
counter bound is forced by the counterexample: at the cap, the
counter-overflow guard throws even on an exact duplicate.) -/
theorem claim_C3 {g : Graph} {e : Edge} (hw : Graph.Wf g)
    (hvs : validParts e.src = true) (hvd : validParts e.dst = true)
    (hva : validParts e.address = true)
    (hc : g.modificationCount < Graph.maxSafeInteger) :
    ((e.src ∉ g.nodes ∨ e.dst ∉ g.nodes) →
      (g.addEdge e).2 = some GError.missingEndpoint) ∧
    (∀ ex, e.src ∈ g.nodes → e.dst ∈ g.nodes →
      alookup e.address g.edges = some ex →
      (ex.src ≠ e.src ∨ ex.dst ≠ e.dst) →
      (g.addEdge e).2 = some GError.conflictingEdge) ∧
    (e.src ∈ g.nodes → e.dst ∈ g.nodes →
      alookup e.address g.edges = some e →
      (g.addEdge e).2 = none ∧ (g.addEdge e).1.nodes = g.nodes ∧
      (g.addEdge e).1.edges = g.edges) ∧
    (e.src ∈ g.nodes → e.dst ∈ g.nodes →
      alookup e.address g.edges = none →
      (g.addEdge e).2 = none ∧ (g.addEdge e).1.nodes = g.nodes ∧
      (g.addEdge e).1.edges = g.edges ++ [(e.address, e)] ∧
      (∃ ins, alookup e.dst g.inEdges = some ins ∧
        alookup e.dst (g.addEdge e).1.inEdges = some (ins ++ [e])) ∧
      (∃ outs, alookup e.src g.outEdges = some outs ∧
        alookup e.src (g.addEdge e).1.outEdges = some (outs ++ [e]))) := by
  refine ⟨?_, ?_, ?_, ?_⟩
  · intro hmiss
    unfold Graph.addEdge
    rw [if_neg (by simp [hvs]), if_neg (by simp [hvd]), if_neg (by simp [hva]),
      if_pos hmiss]
  · intro ex hs hd hex hne
    have hconf : ex.src ≠ e.src ∨ ex.dst ≠ e.dst ∨ ex.address ≠ e.address := by
      rcases hne with hne | hne
      · exact Or.inl hne
      · exact Or.inr (Or.inl hne)
    unfold Graph.addEdge
    rw [if_neg (by simp [hvs]), if_neg (by simp [hvd]), if_neg (by simp [hva]),
      if_neg (by simp [hs, hd]), hex]
    simp only [if_pos hconf]
  · intro hs hd hex
    rw [Graph.addEdge_dup_state hvs hvd hva hs hd hex hc]
    exact ⟨rfl, rfl, rfl⟩
  · intro hs hd hex
    have hinv1 := hw.2.2.2.2.2.2.1
    obtain ⟨ins, hins⟩ := Option.isSome_iff_exists.mp (hinv1 e.dst hd).1
    obtain ⟨outs, houts⟩ := Option.isSome_iff_exists.mp (hinv1 e.src hs).2
    rw [Graph.addEdge_fresh_state hvs hvd hva hs hd hex hins houts hc]
    refine ⟨rfl, rfl, rfl, ⟨ins, hins, ?_⟩, ⟨outs, houts, ?_⟩⟩
    · show alookup e.dst (aset e.dst (ins ++ [e]) g.inEdges) = some (ins ++ [e])
      rw [AList.alookup_aset]
      simp
    · show alookup e.src (aset e.src (outs ++ [e]) g.outEdges) = some (outs ++ [e])
      rw [AList.alookup_aset]
      simp

/-- Counterexample to C3 as stated: in this well-formed graph whose
modification counter sits at `Number.MAX_SAFE_INTEGER`, re-adding the exact
duplicate edge is *not* a no-op call — it throws (the overflow guard), so the
unconditional claim fails. -/
theorem claim_C3_counterexample :
    Graph.Wf
      { nodes := [["n"]],
        edges := [(["e"], { address := ["e"], src := ["n"], dst := ["n"] })],
        inEdges := [(["n"], [{ address := ["e"], src := ["n"], dst := ["n"] }])],
        outEdges := [(["n"], [{ address := ["e"], src := ["n"], dst := ["n"] }])],
        modificationCount := 9007199254740991 } ∧
    (["n"] : NodeAddr) ∈
      Graph.nodes
        { nodes := [["n"]],
          edges := [(["e"], { address := ["e"], src := ["n"], dst := ["n"] })],
          inEdges := [(["n"], [{ address := ["e"], src := ["n"], dst := ["n"] }])],
          outEdges := [(["n"], [{ address := ["e"], src := ["n"], dst := ["n"] }])],
          modificationCount := 9007199254740991 } ∧
    alookup (["e"] : EdgeAddr)
        (Graph.edges
          { nodes := [["n"]],
            edges := [(["e"], { address := ["e"], src := ["n"], dst := ["n"] })],
            inEdges := [(["n"], [{ address := ["e"], src := ["n"], dst := ["n"] }])],
            outEdges := [(["n"], [{ address := ["e"], src := ["n"], dst := ["n"] }])],
            modificationCount := 9007199254740991 }) =
      some { address := ["e"], src := ["n"], dst := ["n"] } ∧
    (Graph.addEdge
        { nodes := [["n"]],
          edges := [(["e"], { address := ["e"], src := ["n"], dst := ["n"] })],
          inEdges := [(["n"], [{ address := ["e"], src := ["n"], dst := ["n"] }])],
          outEdges := [(["n"], [{ address := ["e"], src := ["n"], dst := ["n"] }])],
          modificationCount := 9007199254740991 }
        { address := ["e"], src := ["n"], dst := ["n"] }).2 ≠ none := by
  refine ⟨by decide, by decide, by decide, by decide⟩

/-- Witness for (the amended) C3 at a concrete graph: a fresh edge insert. -/
theorem claim_C3_witness :
    (Graph.addEdge
        { nodes := [["n"], ["m"]], edges := [],
          inEdges := [(["n"], []), (["m"], [])],
          outEdges := [(["n"], []), (["m"], [])],
          modificationCount := 2 }
        { address := ["e"], src := ["n"], dst := ["m"] }).2 = none ∧
    (Graph.addEdge
        { nodes := [["n"], ["m"]], edges := [],
          inEdges := [(["n"], []), (["m"], [])],
          outEdges := [(["n"], []), (["m"], [])],
          modificationCount := 2 }
        { address := ["e"], src := ["n"], dst := ["m"] }).1.nodes =
      Graph.nodes
        { nodes := [["n"], ["m"]], edges := [],
          inEdges := [(["n"], []), (["m"], [])],
          outEdges := [(["n"], []), (["m"], [])],
          modificationCount := 2 } ∧
    (Graph.addEdge
        { nodes := [["n"], ["m"]], edges := [],
          inEdges := [(["n"], []), (["m"], [])],
          outEdges := [(["n"], []), (["m"], [])],
          modificationCount := 2 }
        { address := ["e"], src := ["n"], dst := ["m"] }).1.edges =
      Graph.edges
        { nodes := [["n"], ["m"]], edges := [],
          inEdges := [(["n"], []), (["m"], [])],
          outEdges := [(["n"], []), (["m"], [])],
          modificationCount := 2 } ++
        [(["e"], { address := ["e"], src := ["n"], dst := ["m"] })] := by
  have h := (claim_C3 (g :=
      { nodes := [["n"], ["m"]], edges := [],
        inEdges := [(["n"], []), (["m"], [])],
        outEdges := [(["n"], []), (["m"], [])],
        modificationCount := 2 })
      (e := { address := ["e"], src := ["n"], dst := ["m"] })
      (by decide) (by decide) (by decide) (by decide)
      (by decide)).2.2.2 (by decide) (by decide) (by decide)
  exact ⟨h.1, h.2.1, h.2.2.1⟩

/-- **C4 (amended).** For a well-formed graph whose modification counter is
below `Number.MAX_SAFE_INTEGER` and a node `n` of the graph: `removeNode(n)`
throws `DanglingEdgeError` if and only if at least one edge has `n` as `src`
or `dst`; when no edge is incident, the call succeeds and removes `n` from
the node set and from both adjacency indices.  (The counter bound is forced
by the counterexample: at the cap the call throws even with no incident
edge.) -/
theorem claim_C4 {g : Graph} {n : NodeAddr} (hw : Graph.Wf g)
    (hn : n ∈ g.nodes) (hc : g.modificationCount < Graph.maxSafeInteger) :
    ((g.removeNode n).2 = some GError.danglingEdge ↔
      ∃ p ∈ g.edges, p.2.src = n ∨ p.2.dst = n) ∧
    ((¬∃ p ∈ g.edges, p.2.src = n ∨ p.2.dst = n) →
      (g.removeNode n).2 = none ∧
      n ∉ (g.removeNode n).1.nodes ∧
      alookup n (g.removeNode n).1.inEdges = none ∧
      alookup n (g.removeNode n).1.outEdges = none) := by
  have hv : validParts n = true := hw.2.2.2.2.1 n hn
  by_cases hlen :
      ((alookup n g.inEdges).getD [] ++ (alookup n g.outEdges).getD []).length > 0
  · -- some incident edge: the call throws `DanglingEdgeError`
    have hrn : g.removeNode n = (g, some GError.danglingEdge) := by
      unfold Graph.removeNode
      rw [if_neg (by simp [hv]), if_pos hlen]
    have hincident : ∃ p ∈ g.edges, p.2.src = n ∨ p.2.dst = n := by
      obtain ⟨x, hx⟩ := List.exists_mem_of_length_pos hlen
      rcases List.mem_append.mp hx with hx | hx
      · cases hin : alookup n g.inEdges with
        | none => rw [hin] at hx; simp at hx
        | some ins =>
          rw [hin] at hx
          simp only [Option.getD_some] at hx
          obtain ⟨h₁, h₂⟩ :=
            (hw.2.2.2.2.2.2.2.2.1.1 (n, ins) (AList.mem_of_alookup_eq_some hin)).2 x hx
          exact ⟨(x.address, x), AList.mem_of_alookup_eq_some h₁, Or.inr h₂⟩
      · cases hout : alookup n g.outEdges with
        | none => rw [hout] at hx; simp at hx
        | some outs =>
          rw [hout] at hx
          simp only [Option.getD_some] at hx
          obtain ⟨h₁, h₂⟩ :=
            (hw.2.2.2.2.2.2.2.2.2.1.1 (n, outs) (AList.mem_of_alookup_eq_some hout)).2 x hx
          exact ⟨(x.address, x), AList.mem_of_alookup_eq_some h₁, Or.inl h₂⟩
    constructor
    · constructor
      · intro _
        exact hincident
      · intro _
        rw [hrn]
    · intro hno
      exact absurd hincident hno
  · -- no incident edge: the call succeeds and removes the node
    have hnil : (alookup n g.inEdges).getD [] = [] ∧
        (alookup n g.outEdges).getD [] = [] := by
      have h0 :
          ((alookup n g.inEdges).getD [] ++ (alookup n g.outEdges).getD []) = [] := by
        rw [← List.length_eq_zero]
        omega
      exact List.append_eq_nil.mp h0
    have hrn := Graph.removeNode_free_state (g := g) hv hnil.1 hnil.2 hc
    have hNoSrc := Graph.no_src_of_outEdges_empty hw hnil.2
    have hNoDst := Graph.no_dst_of_inEdges_empty hw hnil.1
    constructor
    · constructor
      · intro habs
        rw [hrn] at habs
        cases habs
      · intro ⟨p, hp, hor⟩
        rcases hor with hor | hor
        · exact absurd hor (hNoSrc p hp)
        · exact absurd hor (hNoDst p hp)
    · intro _
      rw [hrn]
      refine ⟨rfl, ?_, ?_, ?_⟩
      · exact AList.not_mem_eraseFirst_self hw.1
      · exact AList.alookup_adelete_self hw.2.2.1
      · exact AList.alookup_adelete_self hw.2.2.2.1

/-- Counterexample to C4 as stated: in this well-formed graph whose
modification counter sits at `Number.MAX_SAFE_INTEGER`, the node has no
incident edge, yet `removeNode` still throws (the overflow guard), so
"if no edge is incident, the call succeeds" fails unconditionally. -/
theorem claim_C4_counterexample :
    Graph.Wf
      { nodes := [["n"]], edges := [], inEdges := [(["n"], [])],
        outEdges := [(["n"], [])], modificationCount := 9007199254740991 } ∧
    (["n"] : NodeAddr) ∈
      Graph.nodes
        { nodes := [["n"]], edges := [], inEdges := [(["n"], [])],
          outEdges := [(["n"], [])], modificationCount := 9007199254740991 } ∧
    (¬∃ p ∈ Graph.edges
        { nodes := [["n"]], edges := [], inEdges := [(["n"], [])],
          outEdges := [(["n"], [])], modificationCount := 9007199254740991 },
      p.2.src = (["n"] : NodeAddr) ∨ p.2.dst = (["n"] : NodeAddr)) ∧
    (Graph.removeNode
        { nodes := [["n"]], edges := [], inEdges := [(["n"], [])],
          outEdges := [(["n"], [])], modificationCount := 9007199254740991 }
        ["n"]).2 ≠ none := by
  refine ⟨by decide, by decide, by decide, by decide⟩

/-- Witness for (the amended) C4 at a concrete graph with no incident edge. -/
theorem claim_C4_witness :
    (Graph.removeNode
        { nodes := [["n"]], edges := [], inEdges := [(["n"], [])],
          outEdges := [(["n"], [])], modificationCount := 1 } ["n"]).2 = none ∧
    (["n"] : NodeAddr) ∉
      (Graph.removeNode
        { nodes := [["n"]], edges := [], inEdges := [(["n"], [])],
          outEdges := [(["n"], [])], modificationCount := 1 } ["n"]).1.nodes ∧
    alookup (["n"] : NodeAddr)
        (Graph.removeNode
          { nodes := [["n"]], edges := [], inEdges := [(["n"], [])],
            outEdges := [(["n"], [])], modificationCount := 1 } ["n"]).1.inEdges = none ∧
    alookup (["n"] : NodeAddr)
        (Graph.removeNode
          { nodes := [["n"]], edges := [], inEdges := [(["n"], [])],
            outEdges := [(["n"], [])], modificationCount := 1 } ["n"]).1.outEdges = none :=
  (claim_C4 (g :=
      { nodes := [["n"]], edges := [], inEdges := [(["n"], [])],
        outEdges := [(["n"], [])], modificationCount := 1 })
    (n := ["n"]) (by decide) (by decide) (by decide)).2 (by decide)

/-- **C9 (amended).** For every well-formed graph whose modification counter
is below `Number.MAX_SAFE_INTEGER`, every failing mutation is atomic:
whenever `addNode`, `addEdge`, `removeNode`, or `removeEdge` throws, the
graph is exactly as it was before the call.  (The counter bound is forced by
the counterexample: the overflow guard in `_markModification` fires *after*
the structural mutation.) -/
theorem claim_C9 {g : Graph} (hw : Graph.Wf g)
    (hc : g.modificationCount < Graph.maxSafeInteger) :
    ∀ (op : Graph.Op) (g₁ : Graph) (err : GError),
      Graph.applyOp g op = (g₁, some err) → g₁ = g := by
  intro op g₁ err h
  cases op with
  | addNode a =>
    have h : g.addNode a = (g₁, some err) := h
    unfold Graph.addNode at h
    split at h
    · simp only [Prod.mk.injEq] at h
      exact h.1.symm
    split at h
    · unfold Graph.markModification at h
      split at h
      · rename_i hcap
        exact absurd hcap (by omega)
      · simp at h
    · unfold Graph.markModification at h
      split at h
      · rename_i hcap
        have hcap₁ : Graph.maxSafeInteger ≤ g.modificationCount := hcap
        exact absurd hcap₁ (by omega)
      · simp at h
  | removeNode a =>
    have h : g.removeNode a = (g₁, some err) := h
    simp only [Graph.removeNode] at h
    split at h
    · simp only [Prod.mk.injEq] at h
      exact h.1.symm
    split at h
    · simp only [Prod.mk.injEq] at h
      exact h.1.symm
    · unfold Graph.markModification at h
      split at h
      · rename_i hcap
        have hcap₁ : Graph.maxSafeInteger ≤ g.modificationCount := hcap
        exact absurd hcap₁ (by omega)
      · simp at h
  | addEdge e =>
    have h : g.addEdge e = (g₁, some err) := h
    simp only [Graph.addEdge] at h
    split at h
    · simp only [Prod.mk.injEq] at h
      exact h.1.symm
    split at h
    · simp only [Prod.mk.injEq] at h
      exact h.1.symm
    split at h
    · simp only [Prod.mk.injEq] at h
      exact h.1.symm
    split at h
    · simp only [Prod.mk.injEq] at h
      exact h.1.symm
    rename_i hvs hvd hva hmiss
    rw [not_or, not_not, not_not] at hmiss
    obtain ⟨hs, hd⟩ := hmiss
    split at h
    · split at h
      · simp only [Prod.mk.injEq] at h
        exact h.1.symm
      · unfold Graph.markModification at h
        split at h
        · rename_i hcap
          have hcap₁ : Graph.maxSafeInteger ≤ g.modificationCount := hcap
          exact absurd hcap₁ (by omega)
        · simp at h
    · split at h
      · unfold Graph.markModification at h
        split at h
        · rename_i hcap
          have hcap₁ : Graph.maxSafeInteger ≤ g.modificationCount := hcap
          exact absurd hcap₁ (by omega)
        · simp at h
      · rename_i hno
        obtain ⟨ins, hins⟩ :=
          Option.isSome_iff_exists.mp ((hw.2.2.2.2.2.2.1 e.dst hd).1)
        obtain ⟨outs, houts⟩ :=
          Option.isSome_iff_exists.mp ((hw.2.2.2.2.2.2.1 e.src hs).2)
        exact (hno ins outs hins houts).elim
  | removeEdge a =>
    have h : g.removeEdge a = (g₁, some err) := h
    simp only [Graph.removeEdge] at h
    split at h
    · simp only [Prod.mk.injEq] at h
      exact h.1.symm
    split at h
    · unfold Graph.markModification at h
      split at h
      · rename_i hcap
        exact absurd hcap (by omega)
      · simp at h
    · rename_i e hedge
      have hds : e.dst ∈ g.nodes :=
        (hw.2.2.2.2.2.2.2.1 (a, e) (AList.mem_of_alookup_eq_some hedge)).2.2
      have hss : e.src ∈ g.nodes :=
        (hw.2.2.2.2.2.2.2.1 (a, e) (AList.mem_of_alookup_eq_some hedge)).2.1
      split at h
      · rename_i ins outs hins houts
        have hins : alookup e.dst g.inEdges = some ins := hins
        have houts : alookup e.src g.outEdges = some outs := houts
        split at h
        · rename_i hall
          obtain ⟨ed, hed, heda⟩ := Graph.exists_in_entry hw hedge hins
          simp only [List.all_eq_true, ne_eq, decide_not] at hall
          have := hall ed hed
          simp [heda] at this
        split at h
        · rename_i hall
          obtain ⟨ed, hed, heda⟩ := Graph.exists_out_entry hw hedge houts
          simp only [List.all_eq_true, ne_eq, decide_not] at hall
          have := hall ed hed
          simp [heda] at this
        · unfold Graph.markModification at h
          split at h
          · rename_i hcap
            have hcap₁ : Graph.maxSafeInteger ≤ g.modificationCount := hcap
            exact absurd hcap₁ (by omega)
          · simp at h
      · rename_i hno
        obtain ⟨ins, hins⟩ :=
          Option.isSome_iff_exists.mp ((hw.2.2.2.2.2.2.1 e.dst hds).1)
        obtain ⟨outs, houts⟩ :=
          Option.isSome_iff_exists.mp ((hw.2.2.2.2.2.2.1 e.src hss).2)
        exact (hno ins outs hins houts).elim

/-- Counterexample to C9 as stated: in this well-formed (and reachable)
graph whose modification counter sits at `Number.MAX_SAFE_INTEGER`, adding a
fresh node throws — yet the node set observed at the throw has already been
mutated, so the failing call is not atomic. -/
theorem claim_C9_counterexample :
    Graph.Wf
      { nodes := [["n"]], edges := [], inEdges := [(["n"], [])],
        outEdges := [(["n"], [])], modificationCount := 9007199254740991 } ∧
    (Graph.addNode
        { nodes := [["n"]], edges := [], inEdges := [(["n"], [])],
          outEdges := [(["n"], [])], modificationCount := 9007199254740991 }
        ["m"]).2.isSome = true ∧
    (Graph.addNode
        { nodes := [["n"]], edges := [], inEdges := [(["n"], [])],
          outEdges := [(["n"], [])], modificationCount := 9007199254740991 }
        ["m"]).1.nodes ≠
      Graph.nodes
        { nodes := [["n"]], edges := [], inEdges := [(["n"], [])],
          outEdges := [(["n"], [])], modificationCount := 9007199254740991 } := by
  refine ⟨by decide, by decide, by decide⟩

/-- Witness for (the amended) C9: a `removeNode` that throws
`DanglingEdgeError` below the counter cap leaves the graph untouched. -/
theorem claim_C9_witness :
    (Graph.applyOp
        { nodes := [["n"]],
          edges := [(["e"], { address := ["e"], src := ["n"], dst := ["n"] })],
          inEdges := [(["n"], [{ address := ["e"], src := ["n"], dst := ["n"] }])],
          outEdges := [(["n"], [{ address := ["e"], src := ["n"], dst := ["n"] }])],
          modificationCount := 2 }
        (Graph.Op.removeNode ["n"])).1 =
      { nodes := [["n"]],
        edges := [(["e"], { address := ["e"], src := ["n"], dst := ["n"] })],
        inEdges := [(["n"], [{ address := ["e"], src := ["n"], dst := ["n"] }])],
        outEdges := [(["n"], [{ address := ["e"], src := ["n"], dst := ["n"] }])],
        modificationCount := 2 } :=
  claim_C9 (g :=
      { nodes := [["n"]],
        edges := [(["e"], { address := ["e"], src := ["n"], dst := ["n"] })],
        inEdges := [(["n"], [{ address := ["e"], src := ["n"], dst := ["n"] }])],
        outEdges := [(["n"], [{ address := ["e"], src := ["n"], dst := ["n"] }])],
        modificationCount := 2 }) (by decide) (by decide)
    (Graph.Op.removeNode ["n"])
    (Graph.applyOp
        { nodes := [["n"]],
          edges := [(["e"], { address := ["e"], src := ["n"], dst := ["n"] })],
          inEdges := [(["n"], [{ address := ["e"], src := ["n"], dst := ["n"] }])],
          outEdges := [(["n"], [{ address := ["e"], src := ["n"], dst := ["n"] }])],
          modificationCount := 2 }
        (Graph.Op.removeNode ["n"])).1
    GError.danglingEdge (by decide)

namespace Graph

/-- `Graph._checkForComodification`: succeeds when the count is unchanged,
fails with `ConcurrentModificationError` when the graph has since been
mutated, and with an internal invariant violation when the recorded count
lies in the future. -/
def checkForComodification (g : Graph) (since : Nat) : Option GError :=
  if g.modificationCount = since then none
  else if since < g.modificationCount then some .concurrentModification
  else some .modificationCountFromFuture

/-- State of an iterator produced by `Graph.nodes()`: the modification count
captured at creation, the prefix filter, and the not-yet-visited tail of the
node set. -/
structure NodesIter where
  since : Nat
  pre : NodeAddr
  remaining : List NodeAddr
deriving DecidableEq, Repr

/-- Scan of `_nodesIterator` from a given tail: find the next node matching
the prefix, run the comodification check before yielding it (or after the
scan is exhausted, before finishing). -/
def nodesIterNextAux (g : Graph) (since : Nat) (pre : NodeAddr) :
    List NodeAddr → Except GError (Option (NodeAddr × NodesIter))
  | [] =>
    match checkForComodification g since with
    | some err => .error err
    | none => .ok none
  | n :: rest =>
    if addrHasPrefix n pre then
      match checkForComodification g since with
      | some err => .error err
      | none => .ok (some (n, ⟨since, pre, rest⟩))
    else nodesIterNextAux g since pre rest

/-- One resumption of the `_nodesIterator` generator against the current
graph `g`. -/
def nodesIterNext (g : Graph) (it : NodesIter) :
    Except GError (Option (NodeAddr × NodesIter)) :=
  nodesIterNextAux g it.since it.pre it.remaining

/-- A complete run of the `_nodesIterator` generator over the snapshot list
`l` while the current graph stays `g`: the sequence of yielded nodes, or the
error raised by a comodification check. -/
def nodesGenRun (g : Graph) (since : Nat) (pre : NodeAddr) :
    List NodeAddr → Except GError (List NodeAddr)
  | [] =>
    match checkForComodification g since with
    | some err => .error err
    | none => .ok []
  | n :: rest =>
    if addrHasPrefix n pre then
      match checkForComodification g since with
      | some err => .error err
      | none => (nodesGenRun g since pre rest).map fun l => n :: l
    else nodesGenRun g since pre rest

/-- State of an iterator produced by `Graph.edges()`. -/
structure EdgesIter where
  since : Nat
  addressPre : EdgeAddr
  srcPre : NodeAddr
  dstPre : NodeAddr
  remaining : List Edge
deriving DecidableEq, Repr

/-- The three-way prefix filter of `_edgesIterator`. -/
def edgeMatches (it : EdgesIter) (e : Edge) : Bool :=
  addrHasPrefix e.address it.addressPre &&
  addrHasPrefix e.src it.srcPre &&
  addrHasPrefix e.dst it.dstPre

/-- Scan of `_edgesIterator` from a given tail. -/
def edgesIterNextAux (g : Graph) (it : EdgesIter) :
    List Edge → Except GError (Option (Edge × EdgesIter))
  | [] =>
    match checkForComodification g it.since with
    | some err => .error err
    | none => .ok none
  | e :: rest =>
    if edgeMatches it e then
      match checkForComodification g it.since with
      | some err => .error err
      | none => .ok (some (e, { it with remaining := rest }))
    else edgesIterNextAux g it rest

/-- One resumption of the `_edgesIterator` generator against the current
graph `g`. -/
def edgesIterNext (g : Graph) (it : EdgesIter) :
    Except GError (Option (Edge × EdgesIter)) :=
  edgesIterNextAux g it it.remaining

/-- A complete run of the `_edgesIterator` generator over the snapshot list
`l` while the current graph stays `g`. -/
def edgesGenRun (g : Graph) (it : EdgesIter) :
    List Edge → Except GError (List Edge)
  | [] =>
    match checkForComodification g it.since with
    | some err => .error err
    | none => .ok []
  | e :: rest =>
    if edgeMatches it e then
      match checkForComodification g it.since with
      | some err => .error err
      | none => (edgesGenRun g it rest).map fun l => e :: l
    else edgesGenRun g it rest

theorem checkForComodification_self (g : Graph) :
    checkForComodification g g.modificationCount = none := by
  simp [checkForComodification]

theorem checkForComodification_mutated {g : Graph} {since : Nat}
    (h : since < g.modificationCount) :
    checkForComodification g since = some GError.concurrentModification := by
  simp [checkForComodification, Nat.ne_of_gt h, h]

end Graph

namespace Graph

theorem nodesIterNextAux_error {g : Graph} {since : Nat} (pre : NodeAddr)
    (h : since < g.modificationCount) :
    ∀ l, nodesIterNextAux g since pre l = .error GError.concurrentModification := by
  intro l
  induction l with
  | nil => simp [nodesIterNextAux, checkForComodification_mutated h]
  | cons n rest ih =>
    by_cases hp : addrHasPrefix n pre
    · simp [nodesIterNextAux, hp, checkForComodification_mutated h]
    · simp [nodesIterNextAux, hp, ih]

theorem edgesIterNextAux_error {g : Graph} {it : EdgesIter}
    (h : it.since < g.modificationCount) :
    ∀ l, edgesIterNextAux g it l = .error GError.concurrentModification := by
  intro l
  induction l with
  | nil => simp [edgesIterNextAux, checkForComodification_mutated h]
  | cons e rest ih =>
    by_cases hp : edgeMatches it e
    · simp [edgesIterNextAux, hp, checkForComodification_mutated h]
    · simp [edgesIterNextAux, hp, ih]

theorem nodesGenRun_ok (g : Graph) (pre : NodeAddr) :
    ∀ l, nodesGenRun g g.modificationCount pre l =
      .ok (l.filter fun n => addrHasPrefix n pre) := by
  intro l
  induction l with
  | nil => simp [nodesGenRun, checkForComodification_self]
  | cons n rest ih =>
    by_cases hp : addrHasPrefix n pre
    · simp [nodesGenRun, hp, checkForComodification_self, ih, Except.map]
    · simp [nodesGenRun, hp, ih]

theorem edgesGenRun_ok (g : Graph) (it : EdgesIter)
    (hs : it.since = g.modificationCount) :
    ∀ l, edgesGenRun g it l = .ok (l.filter fun e => edgeMatches it e) := by
  intro l
  induction l with
  | nil => simp [edgesGenRun, hs, checkForComodification_self]
  | cons e rest ih =>
    by_cases hp : edgeMatches it e
    · simp [edgesGenRun, hp, hs, checkForComodification_self, ih, Except.map]
    · simp [edgesGenRun, hp, ih]

end Graph

/-- **C5.** For every iterator obtained from `nodes()` or `edges()`: if any
mutation occurs after the iterator is created (so the graph's modification
count exceeds the count the iterator captured), the next attempt to advance
or finalize the iterator throws a `ConcurrentModificationError`; if no
mutation occurs, iteration completes normally and yields exactly the
elements matching the prefix filters. -/
theorem claim_C5 :
    (∀ (g₁ : Graph) (it : Graph.NodesIter),
      it.since < g₁.modificationCount →
      Graph.nodesIterNext g₁ it = .error GError.concurrentModification) ∧
    (∀ (g₁ : Graph) (it : Graph.EdgesIter),
      it.since < g₁.modificationCount →
      Graph.edgesIterNext g₁ it = .error GError.concurrentModification) ∧
    (∀ (g : Graph) (pre : NodeAddr),
      Graph.nodesGenRun g g.modificationCount pre g.nodes =
        .ok (g.nodes.filter fun n => addrHasPrefix n pre)) ∧
    (∀ (g : Graph) (it : Graph.EdgesIter), it.since = g.modificationCount →
      Graph.edgesGenRun g it (g.edges.map Prod.snd) =
        .ok ((g.edges.map Prod.snd).filter fun e => Graph.edgeMatches it e)) := by
  refine ⟨?_, ?_, ?_, ?_⟩
  · intro g₁ it h
    exact Graph.nodesIterNextAux_error it.pre h it.remaining
  · intro g₁ it h
    exact Graph.edgesIterNextAux_error h it.remaining
  · intro g pre
    exact Graph.nodesGenRun_ok g pre g.nodes
  · intro g it hs
    exact Graph.edgesGenRun_ok g it hs (g.edges.map Prod.snd)

/-- Witness for C5: a mutated-counter advance fails; an unmutated full run
yields exactly the prefix-matching nodes. -/
theorem claim_C5_witness :
    Graph.nodesIterNext
        { nodes := [["n"]], edges := [], inEdges := [(["n"], [])],
          outEdges := [(["n"], [])], modificationCount := 1 }
        ⟨0, [], [["n"]]⟩ = .error GError.concurrentModification ∧
    Graph.nodesGenRun
        { nodes := [["a"], ["b", "c"]], edges := [],
          inEdges := [(["a"], []), (["b", "c"], [])],
          outEdges := [(["a"], []), (["b", "c"], [])], modificationCount := 2 }
        2 ["b"]
        [["a"], ["b", "c"]] = .ok [["b", "c"]] := by
  constructor
  · exact claim_C5.1
      { nodes := [["n"]], edges := [], inEdges := [(["n"], [])],
        outEdges := [(["n"], [])], modificationCount := 1 }
      ⟨0, [], [["n"]]⟩ (by decide)
  · have h := claim_C5.2.2.1
      { nodes := [["a"], ["b", "c"]], edges := [],
        inEdges := [(["a"], []), (["b", "c"], [])],
        outEdges := [(["a"], []), (["b", "c"], [])], modificationCount := 2 }
      ["b"]
    rw [h]
    rfl

namespace Graph

/-- The `Direction` enum of `src/core/graph.js`. -/
inductive Direction where
  | IN
  | OUT
  | ANY
deriving DecidableEq, Repr

/-- The options record of `Graph.neighbors`. -/
structure NeighborsOptions where
  direction : Direction
  nodePre : NodeAddr
  edgePre : EdgeAddr
deriving DecidableEq, Repr

/-- A `{node, edge}` pair yielded by `Graph.neighbors`. -/
structure Neighbor where
  node : NodeAddr
  edge : Edge
deriving DecidableEq, Repr

/-- The scan `_neighbors` performs over one adjacency list (`isIn = true` for
the in-scan): under `ANY`, the in-scan skips self-loop edges so that they are
yielded only by the out-scan; each non-skipped edge is yielded when its
neighbor node and its address pass the prefix filters.  (The comodification
checks are identities while the graph is unchanged and are elided here.) -/
def scanAdjacency (o : NeighborsOptions) (isIn : Bool) : List Edge → List Neighbor
  | [] => []
  | e :: rest =>
    if o.direction = Direction.ANY ∧ isIn = true ∧ e.src = e.dst then
      scanAdjacency o isIn rest
    else
      if addrHasPrefix (if isIn then e.src else e.dst) o.nodePre &&
          addrHasPrefix e.address o.edgePre then
        ⟨if isIn then e.src else e.dst, e⟩ :: scanAdjacency o isIn rest
      else scanAdjacency o isIn rest

/-- The full yield of `Graph._neighbors(node, o)` over an unmutated graph:
the in-scan (for `IN`/`ANY`) followed by the out-scan (for `OUT`/`ANY`). -/
def neighborsList (g : Graph) (node : NodeAddr) (o : NeighborsOptions) :
    List Neighbor :=
  (if o.direction = Direction.IN ∨ o.direction = Direction.ANY then
    scanAdjacency o true ((alookup node g.inEdges).getD [])
  else []) ++
  (if o.direction = Direction.OUT ∨ o.direction = Direction.ANY then
    scanAdjacency o false ((alookup node g.outEdges).getD [])
  else [])

theorem scan_count_of_yield {o : NeighborsOptions} {isIn : Bool} {e : Edge}
    (hskip : ¬(o.direction = Direction.ANY ∧ isIn = true ∧ e.src = e.dst))
    (hfil : (addrHasPrefix (if isIn then e.src else e.dst) o.nodePre &&
      addrHasPrefix e.address o.edgePre) = true) :
    ∀ l, ((scanAdjacency o isIn l).filter fun nb => nb.edge = e).length =
      l.count e := by
  intro l
  induction l with
  | nil => simp [scanAdjacency]
  | cons f rest ih =>
    by_cases hf : f = e
    · subst hf
      simp only [scanAdjacency, if_neg hskip, if_pos hfil]
      simp [ih, List.count_cons]
    · have hcount : (f :: rest).count e = rest.count e := by
        simp [List.count_cons, hf]
      by_cases hskip₁ : o.direction = Direction.ANY ∧ isIn = true ∧ f.src = f.dst
      · simp only [scanAdjacency, if_pos hskip₁]
        rw [ih, hcount]
      · simp only [scanAdjacency, if_neg hskip₁]
        by_cases hfil₁ : (addrHasPrefix (if isIn then f.src else f.dst) o.nodePre &&
            addrHasPrefix f.address o.edgePre) = true
        · simp only [if_pos hfil₁]
          rw [hcount, ← ih]
          simp [hf]
        · simp only [if_neg hfil₁]
          rw [ih, hcount]

theorem scan_count_zero_of_not_mem {o : NeighborsOptions} {isIn : Bool} {e : Edge} :
    ∀ l, e ∉ l →
      ((scanAdjacency o isIn l).filter fun nb => nb.edge = e).length = 0 := by
  intro l
  induction l with
  | nil => simp [scanAdjacency]
  | cons f rest ih =>
    intro hmem
    have hf : f ≠ e := fun hh => hmem (hh ▸ List.mem_cons_self _ _)
    have hrest : e ∉ rest := fun hh => hmem (List.mem_cons_of_mem _ hh)
    by_cases hskip₁ : o.direction = Direction.ANY ∧ isIn = true ∧ f.src = f.dst
    · simp only [scanAdjacency, if_pos hskip₁]
      exact ih hrest
    · simp only [scanAdjacency, if_neg hskip₁]
      by_cases hfil₁ : (addrHasPrefix (if isIn then f.src else f.dst) o.nodePre &&
          addrHasPrefix f.address o.edgePre) = true
      · simp only [if_pos hfil₁]
        rw [← ih hrest]
        simp [hf]
      · simp only [if_neg hfil₁]
        exact ih hrest

theorem scan_count_zero_of_loop {o : NeighborsOptions} {e : Edge}
    (hdir : o.direction = Direction.ANY) (hloop : e.src = e.dst) :
    ∀ l, ((scanAdjacency o true l).filter fun nb => nb.edge = e).length = 0 := by
  intro l
  induction l with
  | nil => simp [scanAdjacency]
  | cons f rest ih =>
    simp only [scanAdjacency]
    split
    · exact ih
    · rename_i hcond
      have hf : f ≠ e := by
        intro hh
        exact hcond ⟨hdir, by trivial, hh ▸ hloop⟩
      split_ifs <;> simp [hf, ih]

/-- An edge occurs exactly once in a list whose mapped addresses are
duplicate-free. -/
theorem count_eq_one_of_mem_nodup_map {l : List Edge} {e : Edge}
    (hnd : (l.map Edge.address).Nodup) (h : e ∈ l) : l.count e = 1 := by
  induction l with
  | nil => simp at h
  | cons f rest ih =>
    simp only [List.map_cons, List.nodup_cons] at hnd
    by_cases hf : f = e
    · subst hf
      have hrest : f ∉ rest := by
        intro hh
        exact hnd.1 (List.mem_map.mpr ⟨f, hh, rfl⟩)
      rw [List.count_cons_self, List.count_eq_zero.mpr hrest]
    · rcases List.mem_cons.mp h with h₁ | h₁
      · exact absurd h₁.symm hf
      · rw [List.count_cons_of_ne (fun hh => hf hh.symm) rest, ih hnd.2 h₁]

/-- The per-key address lists of an index with a duplicate-free flat address
list are themselves duplicate-free. -/
theorem index_list_nodup {m : List (NodeAddr × List Edge)} {k : NodeAddr}
    {vs : List Edge} (hflat : (flatAddrs m).Nodup) (h : alookup k m = some vs) :
    (vs.map Edge.address).Nodup := by
  obtain ⟨pre, post, h₁, -, -⟩ := flatAddrs_decomp h
  have hsub : (vs.map Edge.address).Sublist (pre ++ vs.map Edge.address ++ post) := by
    have ha := List.sublist_append_left (vs.map Edge.address) post
    have hb := List.sublist_append_right pre (vs.map Edge.address ++ post)
    simpa [List.append_assoc] using ha.trans hb
  exact hsub.nodup (h₁ ▸ hflat)

/-- In a well-formed graph, an edge of the edge map is an element of the
in-adjacency list of its `dst`. -/
theorem edge_mem_inEdges {g : Graph} (hw : Wf g) {a : EdgeAddr} {e : Edge}
    {ins : List Edge} (hedge : alookup a g.edges = some e)
    (hins : alookup e.dst g.inEdges = some ins) : e ∈ ins := by
  obtain ⟨ed, hed, heda⟩ := exists_in_entry hw hedge hins
  have h₃ := ((hw.2.2.2.2.2.2.2.2.1.1 (e.dst, ins)
    (AList.mem_of_alookup_eq_some hins)).2 ed hed).1
  rw [heda, hedge] at h₃
  obtain rfl : ed = e := by cases h₃; rfl
  exact hed

/-- In a well-formed graph, an edge of the edge map is an element of the
out-adjacency list of its `src`. -/
theorem edge_mem_outEdges {g : Graph} (hw : Wf g) {a : EdgeAddr} {e : Edge}
    {outs : List Edge} (hedge : alookup a g.edges = some e)
    (houts : alookup e.src g.outEdges = some outs) : e ∈ outs := by
  obtain ⟨ed, hed, heda⟩ := exists_out_entry hw hedge houts
  have h₄ := ((hw.2.2.2.2.2.2.2.2.2.1.1 (e.src, outs)
    (AList.mem_of_alookup_eq_some houts)).2 ed hed).1
  rw [heda, hedge] at h₄
  obtain rfl : ed = e := by cases h₄; rfl
  exact hed

end Graph

/-- **C6.** For every well-formed graph `g`, node `n` of `g`, and edge `e` of
`g` incident to `n` that passes the node and edge prefix filters:
`neighbors(n, {direction: ANY, ...})` yields `e` exactly once — a self-loop
is not yielded once per adjacency scan, and a non-loop incident edge is
yielded exactly once as well. -/
theorem claim_C6 {g : Graph} {n : NodeAddr} {o : Graph.NeighborsOptions}
    {a : EdgeAddr} {e : Edge}
    (hw : Graph.Wf g) (hn : n ∈ g.nodes)
    (hdir : o.direction = Graph.Direction.ANY)
    (hedge : alookup a g.edges = some e)
    (hinc : e.src = n ∨ e.dst = n)
    (hnf : addrHasPrefix (if e.dst = n then e.src else e.dst) o.nodePre = true)
    (hef : addrHasPrefix e.address o.edgePre = true) :
    ((Graph.neighborsList g n o).filter fun nb => nb.edge = e).length = 1 := by
  have inv1 := hw.2.2.2.2.2.2.1
  have inv3 := hw.2.2.2.2.2.2.2.2.1
  have inv4 := hw.2.2.2.2.2.2.2.2.2.1
  obtain ⟨ins, hins⟩ := Option.isSome_iff_exists.mp (inv1 n hn).1
  obtain ⟨outs, houts⟩ := Option.isSome_iff_exists.mp (inv1 n hn).2
  have hnl : Graph.neighborsList g n o =
      Graph.scanAdjacency o true ins ++ Graph.scanAdjacency o false outs := by
    unfold Graph.neighborsList
    rw [if_pos (Or.inr hdir), if_pos (Or.inr hdir), hins, houts]
    rfl
  rw [hnl, List.filter_append, List.length_append]
  by_cases hloop : e.src = e.dst
  · -- self-loop: skipped by the in-scan, yielded once by the out-scan
    have hdn : e.dst = n := by
      rcases hinc with h | h
      · exact hloop ▸ h
      · exact h
    have hsn : e.src = n := hloop.trans hdn
    have houts₁ : alookup e.src g.outEdges = some outs := by
      rw [hsn]; exact houts
    have hmem : e ∈ outs := Graph.edge_mem_outEdges hw hedge houts₁
    have hnodup : (outs.map Edge.address).Nodup :=
      Graph.index_list_nodup inv4.2 houts
    have hnf₁ : addrHasPrefix e.dst o.nodePre = true := by
      have : addrHasPrefix e.src o.nodePre = true := by
        rw [if_pos hdn] at hnf
        exact hnf
      rw [← hloop]
      exact this
    rw [Graph.scan_count_zero_of_loop hdir hloop ins,
      @Graph.scan_count_of_yield o false e (by simp)
        (by simp [hnf₁, hef]) outs,
      Graph.count_eq_one_of_mem_nodup_map hnodup hmem]
  · rcases hinc with hsn | hdn
    · -- out-edge only: e.src = n, e.dst ≠ n
      have hdn₁ : e.dst ≠ n := fun hh => hloop (hsn.trans hh.symm)
      have hnotin : e ∉ ins := by
        intro hmem
        exact hdn₁ (((inv3.1 (n, ins) (AList.mem_of_alookup_eq_some hins)).2
          e hmem).2)
      have houts₁ : alookup e.src g.outEdges = some outs := by
        rw [hsn]; exact houts
      have hmem : e ∈ outs := Graph.edge_mem_outEdges hw hedge houts₁
      have hnodup : (outs.map Edge.address).Nodup :=
        Graph.index_list_nodup inv4.2 houts
      have hnf₁ : addrHasPrefix e.dst o.nodePre = true := by
        rw [if_neg hdn₁] at hnf
        exact hnf
      rw [Graph.scan_count_zero_of_not_mem ins hnotin,
        @Graph.scan_count_of_yield o false e (by simp)
          (by simp [hnf₁, hef]) outs,
        Graph.count_eq_one_of_mem_nodup_map hnodup hmem]
    · -- in-edge only: e.dst = n, e.src ≠ n
      have hsn₁ : e.src ≠ n := fun hh => hloop (hh.trans hdn.symm)
      have hnotout : e ∉ outs := by
        intro hmem
        exact hsn₁ (((inv4.1 (n, outs) (AList.mem_of_alookup_eq_some houts)).2
          e hmem).2)
      have hins₁ : alookup e.dst g.inEdges = some ins := by
        rw [hdn]; exact hins
      have hmem : e ∈ ins := Graph.edge_mem_inEdges hw hedge hins₁
      have hnodup : (ins.map Edge.address).Nodup :=
        Graph.index_list_nodup inv3.2 hins
      have hnf₁ : addrHasPrefix e.src o.nodePre = true := by
        rw [if_pos hdn] at hnf
        exact hnf
      rw [@Graph.scan_count_of_yield o true e
          (fun hh => hloop hh.2.2) (by simp [hnf₁, hef]) ins,
        Graph.scan_count_zero_of_not_mem outs hnotout,
        Graph.count_eq_one_of_mem_nodup_map hnodup hmem]

/-- Witness for C6: a self-loop in a concrete graph is yielded exactly once
under `ANY`. -/
theorem claim_C6_witness :
    ((Graph.neighborsList
        { nodes := [["n"]],
          edges := [(["e"], { address := ["e"], src := ["n"], dst := ["n"] })],
          inEdges := [(["n"], [{ address := ["e"], src := ["n"], dst := ["n"] }])],
          outEdges := [(["n"], [{ address := ["e"], src := ["n"], dst := ["n"] }])],
          modificationCount := 2 }
        ["n"]
        { direction := Graph.Direction.ANY, nodePre := [], edgePre := [] }).filter
      fun nb => nb.edge = { address := ["e"], src := ["n"], dst := ["n"] }).length = 1 :=
  claim_C6 (g :=
      { nodes := [["n"]],
        edges := [(["e"], { address := ["e"], src := ["n"], dst := ["n"] })],
        inEdges := [(["n"], [{ address := ["e"], src := ["n"], dst := ["n"] }])],
        outEdges := [(["n"], [{ address := ["e"], src := ["n"], dst := ["n"] }])],
        modificationCount := 2 })
    (a := ["e"]) (by decide) (by decide) (by decide) (by decide) (by decide)
    (by decide) (by decide)

namespace Graph

/-- The index-based edge encoding of `Graph.toJSON`. -/
structure IndexedEdgeJSON where
  address : EdgeAddr
  srcIndex : Nat
  dstIndex : Nat
deriving DecidableEq, Repr

/-- The raw payload of a graph's JSON form. -/
structure GraphJSONData where
  nodes : List NodeAddr
  edges : List IndexedEdgeJSON
deriving DecidableEq, Repr

/-- Modelled from the spec: the compatibility envelope `{type, version}`
(`src/util/compat.js` is not among the sources under study); it is checked on
load and causes a hard failure on mismatch. -/
structure GraphJSON where
  typ : String
  version : String
  data : GraphJSONData
deriving DecidableEq, Repr

/-- `COMPAT_INFO.type` of `src/core/graph.js`. -/
def compatType : String := "sourcecred/graph"

/-- `COMPAT_INFO.version` of `src/core/graph.js`. -/
def compatVersion : String := "0.4.0"

/-- Comparator for node addresses: `Array.prototype.sort`'s default string
comparison of the NUL-delimited address strings coincides with lexicographic
order on the segment lists, because the NUL separator is below every
character admissible in a segment. -/
def nodeLe (a b : NodeAddr) : Bool := decide (a ≤ b)

/-- Comparator for `sortBy(..., (x) => x.address)` on edges. -/
def edgeAddressLe (e f : Edge) : Bool := decide (e.address ≤ f.address)

/-- `Graph.toJSON`: sort the nodes, sort the edges by address, and re-express
each edge by the sorted indices of its endpoints.  `NullUtil.get` on the
index map throws (yielding `none` here) if an endpoint were not a node. -/
def toJSON (g : Graph) : Option GraphJSON :=
  let sortedNodes := sortLe nodeLe g.nodes
  let sortedEdges := sortLe edgeAddressLe (g.edges.map Prod.snd)
  (mapO
    (fun e =>
      if e.src ∈ sortedNodes ∧ e.dst ∈ sortedNodes then
        some
          { address := e.address
            srcIndex := idxOf e.src sortedNodes
            dstIndex := idxOf e.dst sortedNodes }
      else none)
    sortedEdges).map
    fun indexedEdges =>
      { typ := compatType, version := compatVersion,
        data := { nodes := sortedNodes, edges := indexedEdges } }

/-- The node-insertion loop of `Graph.fromJSON`. -/
def replayNodes : List NodeAddr → Graph → Except GError Graph
  | [], g => .ok g
  | n :: rest, g =>
    match g.addNode n with
    | (g₁, none) => replayNodes rest g₁
    | (_, some err) => .error err

/-- The edge-insertion loop of `Graph.fromJSON`: each stored edge is decoded
through the node array; an out-of-range index decodes to `undefined`, which
the subsequent `assertValid` rejects. -/
def replayEdges (nodes : List NodeAddr) :
    List IndexedEdgeJSON → Graph → Except GError Graph
  | [], g => .ok g
  | ie :: rest, g =>
    match nodes[ie.srcIndex]?, nodes[ie.dstIndex]? with
    | some s, some d =>
      match g.addEdge { address := ie.address, src := s, dst := d } with
      | (g₁, none) => replayEdges nodes rest g₁
      | (_, some err) => .error err
    | _, _ => .error .invalidAddress

/-- `Graph.fromJSON`: check the compatibility envelope, then rebuild the
graph by re-adding every node and every decoded edge. -/
def fromJSON (j : GraphJSON) : Except GError Graph :=
  if j.typ = compatType ∧ j.version = compatVersion then
    match replayNodes j.data.nodes Graph.empty with
    | .ok g₁ => replayEdges j.data.nodes j.data.edges g₁
    | .error err => .error err
  else .error .incompatibleFormat

end Graph

theorem mapO_map_eq_some {α β : Type} {f : α → Option β} {gf : α → β} :
    ∀ {l : List α}, (∀ a ∈ l, f a = some (gf a)) → mapO f l = some (l.map gf) := by
  intro l
  induction l with
  | nil => intro _; rfl
  | cons x rest ih =>
    intro h
    simp only [mapO, h x (List.mem_cons_self _ _),
      ih fun a ha => h a (List.mem_cons_of_mem _ ha), List.map_cons]

namespace Graph

theorem replayNodes_spec : ∀ (ns : List NodeAddr) (g : Graph),
    Wf g → ns.Nodup → (∀ x ∈ ns, validParts x = true) →
    (∀ x ∈ ns, x ∉ g.nodes) →
    g.modificationCount + ns.length ≤ maxSafeInteger →
    ∃ g₁, replayNodes ns g = .ok g₁ ∧ Wf g₁ ∧
      g₁.nodes = g.nodes ++ ns ∧ g₁.edges = g.edges ∧
      g₁.modificationCount = g.modificationCount + ns.length := by
  intro ns
  induction ns with
  | nil =>
    intro g hw _ _ _ _
    exact ⟨g, rfl, hw, by simp, rfl, by simp⟩
  | cons n rest ih =>
    intro g hw hnd hval hfresh hbudget
    simp only [List.nodup_cons] at hnd
    have hstate := addNode_fresh_state (g := g)
      (hval n (List.mem_cons_self _ _)) (hfresh n (List.mem_cons_self _ _))
      (by simp only [List.length_cons] at hbudget; omega)
    have hwn : Wf (g.addNode n).1 := wf_addNode hw (by rw [hstate])
    rw [hstate] at hwn
    obtain ⟨g₁, hrun, hw₁, hn₁, he₁, hm₁⟩ := ih
      { g with
        nodes := g.nodes ++ [n]
        inEdges := aset n [] g.inEdges
        outEdges := aset n [] g.outEdges
        modificationCount := g.modificationCount + 1 }
      hwn hnd.2 (fun x hx => hval x (List.mem_cons_of_mem _ hx))
      (by
        intro x hx
        simp only [List.mem_append, List.mem_singleton]
        rintro (hh | hh)
        · exact hfresh x (List.mem_cons_of_mem _ hx) hh
        · exact hnd.1 (hh ▸ hx))
      (by simp only [List.length_cons] at hbudget; simp only []; omega)
    refine ⟨g₁, ?_, hw₁, ?_, he₁, ?_⟩
    · simp only [replayNodes, hstate]
      exact hrun
    · rw [hn₁]
      simp
    · rw [hm₁]
      simp only [List.length_cons]
      omega

theorem replayEdges_spec : ∀ (es : List Edge) (g : Graph) (nodes : List NodeAddr),
    Wf g →
    (∀ e ∈ es, validParts e.address = true) →
    (∀ e ∈ es, e.src ∈ g.nodes ∧ e.dst ∈ g.nodes) →
    (∀ e ∈ es, e.src ∈ nodes ∧ e.dst ∈ nodes) →
    (es.map Edge.address).Nodup →
    (∀ e ∈ es, alookup e.address g.edges = none) →
    g.modificationCount + es.length ≤ maxSafeInteger →
    ∃ g₁, replayEdges nodes
        (es.map fun e =>
          { address := e.address, srcIndex := idxOf e.src nodes,
            dstIndex := idxOf e.dst nodes }) g = .ok g₁ ∧ Wf g₁ ∧
      g₁.nodes = g.nodes ∧
      g₁.edges = g.edges ++ es.map (fun e => (e.address, e)) ∧
      g₁.modificationCount = g.modificationCount + es.length := by
  intro es
  induction es with
  | nil =>
    intro g nodes hw _ _ _ _ _ _
    exact ⟨g, rfl, hw, rfl, by simp, by simp⟩
  | cons e rest ih =>
    intro g nodes hw hval hmem hmemN hnd hfresh hbudget
    simp only [List.map_cons, List.nodup_cons] at hnd
    obtain ⟨hs, hd⟩ := hmem e (List.mem_cons_self _ _)
    obtain ⟨hsN, hdN⟩ := hmemN e (List.mem_cons_self _ _)
    have inv1 := hw.2.2.2.2.2.2.1
    obtain ⟨ins, hins⟩ := Option.isSome_iff_exists.mp (inv1 e.dst hd).1
    obtain ⟨outs, houts⟩ := Option.isSome_iff_exists.mp (inv1 e.src hs).2
    have hmc : g.modificationCount < maxSafeInteger := by
      simp only [List.length_cons] at hbudget; omega
    have hstate := addEdge_fresh_state (g := g) (e := e)
      (hw.2.2.2.2.1 e.src hs) (hw.2.2.2.2.1 e.dst hd)
      (hval e (List.mem_cons_self _ _)) hs hd
      (hfresh e (List.mem_cons_self _ _)) hins houts hmc
    have hwn : Wf (g.addEdge e).1 := wf_addEdge hw (by rw [hstate])
    rw [hstate] at hwn
    have hedgesN :
        ({ g with
            edges := g.edges ++ [(e.address, e)]
            inEdges := aset e.dst (ins ++ [e]) g.inEdges
            outEdges := aset e.src (outs ++ [e]) g.outEdges
            modificationCount := g.modificationCount + 1 } : Graph).edges =
          g.edges ++ [(e.address, e)] := rfl
    obtain ⟨g₁, hrun, hw₁, hn₁, he₁, hm₁⟩ := ih
      { g with
        edges := g.edges ++ [(e.address, e)]
        inEdges := aset e.dst (ins ++ [e]) g.inEdges
        outEdges := aset e.src (outs ++ [e]) g.outEdges
        modificationCount := g.modificationCount + 1 }
      nodes hwn
      (fun x hx => hval x (List.mem_cons_of_mem _ hx))
      (fun x hx => hmem x (List.mem_cons_of_mem _ hx))
      (fun x hx => hmemN x (List.mem_cons_of_mem _ hx))
      hnd.2
      (by
        intro x hx
        rw [hedgesN, ← AList.aset_of_alookup_none
          (hfresh e (List.mem_cons_self _ _)) e, AList.alookup_aset]
        rw [if_neg]
        · exact hfresh x (List.mem_cons_of_mem _ hx)
        · intro hh
          exact hnd.1 (hh ▸ List.mem_map.mpr ⟨x, hx, rfl⟩))
      (by simp only [List.length_cons] at hbudget; simp only []; omega)
    refine ⟨g₁, ?_, hw₁, hn₁, ?_, ?_⟩
    · simp only [List.map_cons, replayEdges, idxOf_getElem? hsN, idxOf_getElem? hdN]
      rw [show ({ address := e.address, src := e.src, dst := e.dst } : Edge) = e
        from rfl]
      simp only [hstate]
      exact hrun
    · rw [he₁, hedgesN]
      simp
    · rw [hm₁]
      simp only [List.length_cons]
      omega

end Graph

/-- **C2.** For every graph `g` (any graph built by a valid call sequence),
`Graph.fromJSON(g.toJSON())` equals `g` in the sense of `Graph.equals`: the
deserialized graph has exactly the same node set and the same edge map (each
edge with identical address, `src`, and `dst`) as `g`. -/
theorem claim_C2 (ops : List Graph.Op) (g : Graph)
    (h : Graph.runValid Graph.empty ops = some g) :
    ∃ j g₂, Graph.toJSON g = some j ∧ Graph.fromJSON j = .ok g₂ ∧
      (∀ n, n ∈ g₂.nodes ↔ n ∈ g.nodes) ∧
      (∀ a, alookup a g₂.edges = alookup a g.edges) := by
  have hw := Graph.wf_of_reachable ⟨ops, h⟩
  have hsz := Graph.sizeOk_of_reachable ⟨ops, h⟩
  obtain ⟨hnN, hnE, hnI, hnO, hvN, hvE, inv1, inv2, inv3, inv4, inv45⟩ := hw
  have hw' : Graph.Wf g := ⟨hnN, hnE, hnI, hnO, hvN, hvE, inv1, inv2, inv3, inv4, inv45⟩
  have hpermN : (sortLe Graph.nodeLe g.nodes).Perm g.nodes :=
    SortLe.sortLe_perm _ g.nodes
  have hpermE : (sortLe Graph.edgeAddressLe (g.edges.map Prod.snd)).Perm
      (g.edges.map Prod.snd) :=
    SortLe.sortLe_perm _ _
  have hvalmem : ∀ e ∈ g.edges.map Prod.snd,
      e.src ∈ g.nodes ∧ e.dst ∈ g.nodes ∧ validParts e.address = true := by
    intro e he
    obtain ⟨p, hp, hpe⟩ := List.mem_map.mp he
    obtain ⟨h₁, h₂, h₃⟩ := inv2 p hp
    exact ⟨hpe ▸ h₂, hpe ▸ h₃, hpe ▸ hvE p hp⟩
  have hmapO : mapO
      (fun e =>
        if e.src ∈ sortLe Graph.nodeLe g.nodes ∧
            e.dst ∈ sortLe Graph.nodeLe g.nodes then
          some
            { address := e.address
              srcIndex := idxOf e.src (sortLe Graph.nodeLe g.nodes)
              dstIndex := idxOf e.dst (sortLe Graph.nodeLe g.nodes) }
        else none)
      (sortLe Graph.edgeAddressLe (g.edges.map Prod.snd)) =
      some ((sortLe Graph.edgeAddressLe (g.edges.map Prod.snd)).map
        fun e =>
          ({ address := e.address
             srcIndex := idxOf e.src (sortLe Graph.nodeLe g.nodes)
             dstIndex := idxOf e.dst (sortLe Graph.nodeLe g.nodes) } :
            Graph.IndexedEdgeJSON)) := by
    apply mapO_map_eq_some
    intro e he
    obtain ⟨h₁, h₂, -⟩ := hvalmem e (hpermE.mem_iff.mp he)
    rw [if_pos ⟨hpermN.mem_iff.mpr h₁, hpermN.mem_iff.mpr h₂⟩]
  have htoJSON : Graph.toJSON g = some
      { typ := Graph.compatType, version := Graph.compatVersion,
        data :=
          { nodes := sortLe Graph.nodeLe g.nodes
            edges := (sortLe Graph.edgeAddressLe (g.edges.map Prod.snd)).map
              fun e =>
                { address := e.address
                  srcIndex := idxOf e.src (sortLe Graph.nodeLe g.nodes)
                  dstIndex := idxOf e.dst (sortLe Graph.nodeLe g.nodes) } } } := by
    simp only [Graph.toJSON]
    rw [hmapO]
    rfl
  -- replaying the nodes
  obtain ⟨gN, hrunN, hwN, hnodesN, hedgesN, hmcN⟩ :=
    Graph.replayNodes_spec (sortLe Graph.nodeLe g.nodes) Graph.empty
      Graph.wf_empty (hpermN.nodup_iff.mpr hnN)
      (fun x hx => hvN x (hpermN.mem_iff.mp hx))
      (by intro x _; simp [Graph.empty])
      (by
        have h₁ := hpermN.length_eq
        have h₂ := hsz.1
        have h₃ := hsz.2
        simp only [Graph.empty]
        omega)
  have hnodesN' : gN.nodes = sortLe Graph.nodeLe g.nodes := by
    rw [hnodesN]
    simp [Graph.empty]
  have hedgesN' : gN.edges = [] := hedgesN
  -- replaying the edges
  have haddrkeys : ((sortLe Graph.edgeAddressLe (g.edges.map Prod.snd)).map
      Edge.address).Perm (g.edges.map Prod.fst) := by
    have h₁ : (g.edges.map Prod.snd).map Edge.address = g.edges.map Prod.fst := by
      rw [List.map_map]
      apply List.map_congr_left
      intro p hp
      exact (inv2 p hp).1
    exact h₁ ▸ hpermE.map Edge.address
  obtain ⟨g₂, hrunE, hw₂, hnodes₂, hedges₂, hmc₂⟩ :=
    Graph.replayEdges_spec (sortLe Graph.edgeAddressLe (g.edges.map Prod.snd))
      gN (sortLe Graph.nodeLe g.nodes) hwN
      (fun e he => (hvalmem e (hpermE.mem_iff.mp he)).2.2)
      (fun e he => by
        obtain ⟨h₁, h₂, -⟩ := hvalmem e (hpermE.mem_iff.mp he)
        rw [hnodesN']
        exact ⟨hpermN.mem_iff.mpr h₁, hpermN.mem_iff.mpr h₂⟩)
      (fun e he => by
        obtain ⟨h₁, h₂, -⟩ := hvalmem e (hpermE.mem_iff.mp he)
        exact ⟨hpermN.mem_iff.mpr h₁, hpermN.mem_iff.mpr h₂⟩)
      (haddrkeys.nodup_iff.mpr hnE)
      (fun e _ => by rw [hedgesN']; rfl)
      (by
        have h₁ := hpermN.length_eq
        have h₂ := hpermE.length_eq
        have h₃ := hsz.1
        have h₄ := hsz.2
        have h₅ : (g.edges.map Prod.snd).length = g.edges.length :=
          List.length_map _ _
        rw [hmcN, hpermE.length_eq, h₅]
        simp only [Graph.empty]
        omega)
  -- the deserialized edge list is a permutation of the original edge map
  have hpairs : (g.edges.map Prod.snd).map (fun e => (e.address, e)) = g.edges := by
    have h₁ : g.edges.map ((fun e => (e.address, e)) ∘ Prod.snd) = g.edges := by
      have h₂ : ∀ p ∈ g.edges, ((fun e => (e.address, e)) ∘ Prod.snd) p = p := by
        intro p hp
        have h₃ := (inv2 p hp).1
        show (p.2.address, p.2) = p
        rw [h₃]
      rw [List.map_congr_left h₂]
      simp
    rw [List.map_map]
    exact h₁
  have hedgesPerm : g₂.edges.Perm g.edges := by
    rw [hedges₂, hedgesN']
    simp only [List.nil_append]
    have h₁ := hpermE.map fun e => (e.address, e)
    rw [hpairs] at h₁
    exact h₁
  refine ⟨_, g₂, htoJSON, ?_, ?_, ?_⟩
  · unfold Graph.fromJSON
    rw [if_pos ⟨rfl, rfl⟩]
    simp only [hrunN]
    exact hrunE
  · intro n
    rw [hnodes₂, hnodesN']
    exact hpermN.mem_iff
  · intro a
    exact (AList.alookup_eq_of_perm hedgesPerm.symm hnE a).symm

/-- Witness for C2 at a concrete two-node, one-edge graph. -/
theorem claim_C2_witness :
    ∃ j g₂,
      Graph.toJSON
          { nodes := [["n"], ["m"]],
            edges := [(["e"], { address := ["e"], src := ["n"], dst := ["m"] })],
            inEdges := [(["n"], []),
              (["m"], [{ address := ["e"], src := ["n"], dst := ["m"] }])],
            outEdges := [(["n"], [{ address := ["e"], src := ["n"], dst := ["m"] }]),
              (["m"], [])],
            modificationCount := 3 } = some j ∧
      Graph.fromJSON j = .ok g₂ ∧
      (∀ n, n ∈ g₂.nodes ↔ n ∈
        Graph.nodes
          { nodes := [["n"], ["m"]],
            edges := [(["e"], { address := ["e"], src := ["n"], dst := ["m"] })],
            inEdges := [(["n"], []),
              (["m"], [{ address := ["e"], src := ["n"], dst := ["m"] }])],
            outEdges := [(["n"], [{ address := ["e"], src := ["n"], dst := ["m"] }]),
              (["m"], [])],
            modificationCount := 3 }) ∧
      (∀ a, alookup a g₂.edges = alookup a
        (Graph.edges
          { nodes := [["n"], ["m"]],
            edges := [(["e"], { address := ["e"], src := ["n"], dst := ["m"] })],
            inEdges := [(["n"], []),
              (["m"], [{ address := ["e"], src := ["n"], dst := ["m"] }])],
            outEdges := [(["n"], [{ address := ["e"], src := ["n"], dst := ["m"] }]),
              (["m"], [])],
            modificationCount := 3 })) :=
  claim_C2
    [Graph.Op.addNode ["n"], Graph.Op.addNode ["m"],
      Graph.Op.addEdge { address := ["e"], src := ["n"], dst := ["m"] }]
    _ (by decide)

/-! ## Score decomposition (`src/analysis/pagerankNodeDecomposition.js`) -/

namespace PND

/-- An adjacency of the Markov chain (the type declared in
`graphToMarkovChain` and consumed by `decompose`): a real inbound edge, a
real outbound edge used in reverse, or the synthetic self-loop.  The source
tags them with the strings `"IN_EDGE"`, `"OUT_EDGE"`, `"SYNTHETIC_LOOP"`. -/
inductive Adjacency where
  | inEdge (edge : Edge)
  | outEdge (edge : Edge)
  | syntheticLoop
deriving DecidableEq, Repr

/-- Modelled from the spec: `adjacencySource` (from the
`graphToMarkovChain` module, not among the sources under study) — the source
node of an inbound edge is its `src`, of an outbound-as-reverse edge its
`dst`, and of the synthetic self-loop the target node itself. -/
def adjacencySource (target : NodeAddr) : Adjacency → NodeAddr
  | .inEdge e => e.src
  | .outEdge e => e.dst
  | .syntheticLoop => target

/-- A weighted adjacency (`Connection`). -/
structure Connection where
  adjacency : Adjacency
  weight : ℚ
deriving DecidableEq, Repr

/-- A connection together with its source node and contribution score
(`ScoredConnection`). -/
structure ScoredConnection where
  connection : Connection
  source : NodeAddr
  connectionScore : ℚ
deriving DecidableEq, Repr

/-- Rank of `adjacency.type` under lodash's ascending string comparison:
`"IN_EDGE" < "OUT_EDGE" < "SYNTHETIC_LOOP"` (alphabetical). -/
def typeRank : Adjacency → Nat
  | .inEdge _ => 0
  | .outEdge _ => 1
  | .syntheticLoop => 2

/-- The third sort criterion: the edge address for edge adjacencies and the
empty string for the synthetic loop.  (Comparing the NUL-delimited address
strings coincides with lexicographic order on segment lists.) -/
def addrKey : Adjacency → List String
  | .inEdge e => e.address
  | .outEdge e => e.address
  | .syntheticLoop => []

/-- Strict comparison of character lists by code point, mirroring the
JavaScript string comparison used by lodash `compareAscending`. -/
def charsLtB : List Char → List Char → Bool
  | [], [] => false
  | [], _ :: _ => true
  | _ :: _, [] => false
  | a :: as, b :: bs =>
    if a.toNat < b.toNat then true
    else if b.toNat < a.toNat then false
    else charsLtB as bs

/-- Strict string comparison by code point. -/
def strLtB (a b : String) : Bool := charsLtB a.data b.data

/-- Strict lexicographic comparison of segment lists; comparing the
NUL-delimited address strings coincides with this order because the NUL
separator is below every admissible character. -/
def partsLtB : List String → List String → Bool
  | [], [] => false
  | [], _ :: _ => true
  | _ :: _, [] => false
  | a :: as, b :: bs =>
    if strLtB a b then true
    else if strLtB b a then false
    else partsLtB as bs

/-- The comparator realizing lodash `sortBy`'s composite key in `decompose`:
ascending by `-connectionScore` (i.e. descending by contribution score), then
by the adjacency type string (`"IN_EDGE" < "OUT_EDGE" < "SYNTHETIC_LOOP"`),
then by the edge address. -/
def scKeyLe (x y : ScoredConnection) : Bool :=
  if y.connectionScore < x.connectionScore then true
  else if x.connectionScore < y.connectionScore then false
  else if typeRank x.connection.adjacency < typeRank y.connection.adjacency then true
  else if typeRank y.connection.adjacency < typeRank x.connection.adjacency then false
  else !partsLtB (addrKey y.connection.adjacency) (addrKey x.connection.adjacency)

/-- Score one connection of a target node: look up the source node's score
(`NullUtil.get` throws when absent) and multiply it by the connection's
weight. -/
def scoredConnection (pr : List (NodeAddr × ℚ)) (target : NodeAddr)
    (c : Connection) : Option ScoredConnection :=
  match alookup (adjacencySource target c.adjacency) pr with
  | none => none
  | some sourceScore =>
    some
      { connection := c
        source := adjacencySource target c.adjacency
        connectionScore := c.weight * sourceScore }

/-- The per-node body of `decompose`: the node's own score together with its
scored connections sorted by the composite key. -/
def decomposeEntry (pr : List (NodeAddr × ℚ)) (target : NodeAddr)
    (cs : List Connection) : Option (ℚ × List ScoredConnection) :=
  match alookup target pr with
  | none => none
  | some score =>
    match mapO (scoredConnection pr target) cs with
    | none => none
    | some scored => some (score, sortLe scKeyLe scored)

/-- `decompose`: map the per-node body over the connection map
(`MapUtil.mapValues` preserves keys and their order). -/
def decompose (pr : List (NodeAddr × ℚ))
    (connections : List (NodeAddr × List Connection)) :
    Option (List (NodeAddr × (ℚ × List ScoredConnection))) :=
  mapO (fun p => (decomposeEntry pr p.1 p.2).map fun d => (p.1, d)) connections

theorem charsLtB_asymm : ∀ a b, charsLtB a b = true → charsLtB b a = false := by
  intro a
  induction a with
  | nil =>
    intro b h
    cases b with
    | nil => simp [charsLtB] at h
    | cons y bs => simp [charsLtB]
  | cons x as ih =>
    intro b h
    cases b with
    | nil => simp [charsLtB] at h
    | cons y bs =>
      simp only [charsLtB] at h ⊢
      by_cases h1 : x.toNat < y.toNat
      · rw [if_neg (by omega), if_pos h1]
      · rw [if_neg h1] at h
        by_cases h2 : y.toNat < x.toNat
        · rw [if_pos h2] at h; simp at h
        · rw [if_neg h2] at h
          rw [if_neg h2, if_neg h1]
          exact ih bs h

theorem charsLtB_trans : ∀ a b c, charsLtB a b = true → charsLtB b c = true →
    charsLtB a c = true := by
  intro a
  induction a with
  | nil =>
    intro b c hab hbc
    cases b with
    | nil => simp [charsLtB] at hab
    | cons y bs =>
      cases c with
      | nil => simp [charsLtB] at hbc
      | cons z cs => simp [charsLtB]
  | cons x as ih =>
    intro b c hab hbc
    cases b with
    | nil => simp [charsLtB] at hab
    | cons y bs =>
      cases c with
      | nil => simp [charsLtB] at hbc
      | cons z cs =>
        simp only [charsLtB] at hab hbc ⊢
        by_cases h1 : x.toNat < y.toNat
        · by_cases h2 : y.toNat < z.toNat
          · rw [if_pos (by omega)]
          · rw [if_neg h2] at hbc
            by_cases h3 : z.toNat < y.toNat
            · rw [if_pos h3] at hbc; simp at hbc
            · rw [if_pos (by omega)]
        · rw [if_neg h1] at hab
          by_cases h4 : y.toNat < x.toNat
          · rw [if_pos h4] at hab; simp at hab
          · rw [if_neg h4] at hab
            by_cases h2 : y.toNat < z.toNat
            · rw [if_pos (by omega)]
            · rw [if_neg h2] at hbc
              by_cases h3 : z.toNat < y.toNat
              · rw [if_pos h3] at hbc; simp at hbc
              · rw [if_neg h3] at hbc
                rw [if_neg (by omega), if_neg (by omega)]
                exact ih bs cs hab hbc

theorem charsLtB_cotrans : ∀ a c, charsLtB a c = true →
    ∀ b, charsLtB a b = true ∨ charsLtB b c = true := by
  intro a
  induction a with
  | nil =>
    intro c hac b
    cases c with
    | nil => simp [charsLtB] at hac
    | cons z cs =>
      cases b with
      | nil => exact Or.inr (by simp [charsLtB])
      | cons y bs => exact Or.inl (by simp [charsLtB])
  | cons x as ih =>
    intro c hac b
    cases c with
    | nil => simp [charsLtB] at hac
    | cons z cs =>
      cases b with
      | nil => exact Or.inr (by simp [charsLtB])
      | cons y bs =>
        simp only [charsLtB] at hac ⊢
        by_cases h1 : x.toNat < z.toNat
        · by_cases h2 : x.toNat < y.toNat
          · exact Or.inl (by rw [if_pos h2])
          · exact Or.inr (by rw [if_pos (by omega)])
        · rw [if_neg h1] at hac
          by_cases h2 : z.toNat < x.toNat
          · rw [if_pos h2] at hac; simp at hac
          · rw [if_neg h2] at hac
            by_cases h3 : x.toNat < y.toNat
            · exact Or.inl (by rw [if_pos h3])
            · by_cases h4 : y.toNat < x.toNat
              · exact Or.inr (by rw [if_pos (by omega)])
              · rcases ih cs hac bs with h | h
                · refine Or.inl ?_
                  rw [if_neg h3, if_neg h4, h]
                · refine Or.inr ?_
                  rw [if_neg (by omega), if_neg (by omega), h]

theorem strLtB_asymm (a b : String) (h : strLtB a b = true) :
    strLtB b a = false :=
  charsLtB_asymm a.data b.data h

theorem strLtB_trans (a b c : String) (hab : strLtB a b = true)
    (hbc : strLtB b c = true) : strLtB a c = true :=
  charsLtB_trans a.data b.data c.data hab hbc

theorem strLtB_cotrans (a c : String) (hac : strLtB a c = true) (b : String) :
    strLtB a b = true ∨ strLtB b c = true :=
  charsLtB_cotrans a.data c.data hac b.data

theorem partsLtB_asymm : ∀ a b, partsLtB a b = true → partsLtB b a = false := by
  intro a
  induction a with
  | nil =>
    intro b h
    cases b with
    | nil => simp [partsLtB] at h
    | cons y bs => simp [partsLtB]
  | cons x as ih =>
    intro b h
    cases b with
    | nil => simp [partsLtB] at h
    | cons y bs =>
      simp only [partsLtB] at h ⊢
      by_cases h1 : strLtB x y = true
      · rw [if_neg (by rw [strLtB_asymm x y h1]; simp), if_pos h1]
      · rw [if_neg h1] at h
        by_cases h2 : strLtB y x = true
        · rw [if_pos h2] at h; simp at h
        · rw [if_neg h2] at h
          rw [if_neg h2, if_neg h1]
          exact ih bs h

theorem partsLtB_trans : ∀ a b c, partsLtB a b = true → partsLtB b c = true →
    partsLtB a c = true := by
  intro a
  induction a with
  | nil =>
    intro b c hab hbc
    cases b with
    | nil => simp [partsLtB] at hab
    | cons y bs =>
      cases c with
      | nil => simp [partsLtB] at hbc
      | cons z cs => simp [partsLtB]
  | cons x as ih =>
    intro b c hab hbc
    cases b with
    | nil => simp [partsLtB] at hab
    | cons y bs =>
      cases c with
      | nil => simp [partsLtB] at hbc
      | cons z cs =>
        simp only [partsLtB] at hab hbc ⊢
        by_cases h1 : strLtB x y = true
        · by_cases h2 : strLtB y z = true
          · rw [if_pos (strLtB_trans x y z h1 h2)]
          · rw [if_neg h2] at hbc
            by_cases h3 : strLtB z y = true
            · rw [if_pos h3] at hbc; simp at hbc
            · rcases strLtB_cotrans x y h1 z with h | h
              · rw [if_pos h]
              · exact absurd h h3
        · rw [if_neg h1] at hab
          by_cases h4 : strLtB y x = true
          · rw [if_pos h4] at hab; simp at hab
          · rw [if_neg h4] at hab
            by_cases h2 : strLtB y z = true
            · rcases strLtB_cotrans y z h2 x with h | h
              · exact absurd h h4
              · rw [if_pos h]
            · rw [if_neg h2] at hbc
              by_cases h3 : strLtB z y = true
              · rw [if_pos h3] at hbc; simp at hbc
              · rw [if_neg h3] at hbc
                have hxz : ¬ strLtB x z = true := fun h =>
                  (strLtB_cotrans x z h y).elim h1 h2
                have hzx : ¬ strLtB z x = true := fun h =>
                  (strLtB_cotrans z x h y).elim h3 h4
                rw [if_neg hxz, if_neg hzx]
                exact ih bs cs hab hbc

theorem partsLtB_cotrans : ∀ a c, partsLtB a c = true →
    ∀ b, partsLtB a b = true ∨ partsLtB b c = true := by
  intro a
  induction a with
  | nil =>
    intro c hac b
    cases c with
    | nil => simp [partsLtB] at hac
    | cons z cs =>
      cases b with
      | nil => exact Or.inr (by simp [partsLtB])
      | cons y bs => exact Or.inl (by simp [partsLtB])
  | cons x as ih =>
    intro c hac b
    cases c with
    | nil => simp [partsLtB] at hac
    | cons z cs =>
      cases b with
      | nil => exact Or.inr (by simp [partsLtB])
      | cons y bs =>
        simp only [partsLtB] at hac ⊢
        by_cases h1 : strLtB x z = true
        · by_cases h2 : strLtB x y = true
          · exact Or.inl (by rw [if_pos h2])
          · rcases strLtB_cotrans x z h1 y with h | h
            · exact absurd h h2
            · exact Or.inr (by rw [if_pos h])
        · rw [if_neg h1] at hac
          by_cases h2 : strLtB z x = true
          · rw [if_pos h2] at hac; simp at hac
          · rw [if_neg h2] at hac
            by_cases h3 : strLtB x y = true
            · exact Or.inl (by rw [if_pos h3])
            · by_cases h4 : strLtB y x = true
              · rcases strLtB_cotrans y x h4 z with h | h
                · exact Or.inr (by rw [if_pos h])
                · exact absurd h h2
              · have hyz : ¬ strLtB y z = true := fun h =>
                  (strLtB_cotrans y z h x).elim h4 h1
                have hzy : ¬ strLtB z y = true := fun h =>
                  (strLtB_cotrans z y h x).elim h2 h3
                rcases ih cs hac bs with h | h
                · refine Or.inl ?_
                  rw [if_neg h3, if_neg h4, h]
                · refine Or.inr ?_
                  rw [if_neg hyz, if_neg hzy, h]

theorem scKeyLe_total (x y : ScoredConnection) :
    scKeyLe x y = true ∨ scKeyLe y x = true := by
  unfold scKeyLe
  by_cases h1 : y.connectionScore < x.connectionScore
  · exact Or.inl (by rw [if_pos h1])
  · by_cases h2 : x.connectionScore < y.connectionScore
    · exact Or.inr (by rw [if_pos h2])
    · by_cases h3 : typeRank x.connection.adjacency < typeRank y.connection.adjacency
      · exact Or.inl (by rw [if_neg h1, if_neg h2, if_pos h3])
      · by_cases h4 : typeRank y.connection.adjacency < typeRank x.connection.adjacency
        · exact Or.inr (by rw [if_neg h2, if_neg h1, if_pos h4])
        · by_cases h5 : partsLtB (addrKey y.connection.adjacency)
              (addrKey x.connection.adjacency) = true
          · refine Or.inr ?_
            rw [if_neg h2, if_neg h1, if_neg h4, if_neg h3,
              partsLtB_asymm _ _ h5]
            rfl
          · refine Or.inl ?_
            rw [if_neg h1, if_neg h2, if_neg h3, if_neg h4,
              Bool.eq_false_iff.mpr h5]
            rfl

theorem scKeyLe_trans (x y z : ScoredConnection)
    (h₁ : scKeyLe x y = true) (h₂ : scKeyLe y z = true) : scKeyLe x z = true := by
  unfold scKeyLe at h₁ h₂ ⊢
  by_cases a1 : y.connectionScore < x.connectionScore
  · by_cases a2 : z.connectionScore < y.connectionScore
    · rw [if_pos (lt_trans a2 a1)]
    · rw [if_pos a1] at h₁
      rw [if_neg a2] at h₂
      by_cases a3 : y.connectionScore < z.connectionScore
      · rw [if_pos a3] at h₂; simp at h₂
      · rw [if_pos (lt_of_le_of_lt (not_lt.mp a3) a1)]
  · rw [if_neg a1] at h₁
    by_cases a4 : x.connectionScore < y.connectionScore
    · rw [if_pos a4] at h₁; simp at h₁
    · rw [if_neg a4] at h₁
      by_cases a2 : z.connectionScore < y.connectionScore
      · rw [if_pos (lt_of_lt_of_le a2 (not_lt.mp a4))]
      · rw [if_neg a2] at h₂
        by_cases a3 : y.connectionScore < z.connectionScore
        · rw [if_pos a3] at h₂; simp at h₂
        · rw [if_neg a3] at h₂
          have hyz : y.connectionScore = z.connectionScore :=
            le_antisymm (not_lt.mp a2) (not_lt.mp a3)
          have hxy : x.connectionScore = y.connectionScore :=
            le_antisymm (not_lt.mp a1) (not_lt.mp a4)
          rw [if_neg (by rw [hxy, hyz]; exact lt_irrefl _),
            if_neg (by rw [hxy, hyz]; exact lt_irrefl _)]
          by_cases b2 : typeRank x.connection.adjacency <
              typeRank y.connection.adjacency
          · rw [if_pos b2] at h₁
            by_cases b4 : typeRank y.connection.adjacency <
                typeRank z.connection.adjacency
            · rw [if_pos (by omega)]
            · rw [if_neg b4] at h₂
              by_cases b3 : typeRank z.connection.adjacency <
                  typeRank y.connection.adjacency
              · rw [if_pos b3] at h₂; simp at h₂
              · rw [if_pos (by omega)]
          · rw [if_neg b2] at h₁
            by_cases b1 : typeRank y.connection.adjacency <
                typeRank x.connection.adjacency
            · rw [if_pos b1] at h₁; simp at h₁
            · rw [if_neg b1] at h₁
              by_cases b4 : typeRank y.connection.adjacency <
                  typeRank z.connection.adjacency
              · rw [if_pos b4] at h₂
                rw [if_pos (by omega)]
              · rw [if_neg b4] at h₂
                by_cases b3 : typeRank z.connection.adjacency <
                    typeRank y.connection.adjacency
                · rw [if_pos b3] at h₂; simp at h₂
                · rw [if_neg b3] at h₂
                  rw [if_neg (by omega), if_neg (by omega)]
                  simp only [Bool.not_eq_true'] at h₁ h₂ ⊢
                  by_cases c1 : partsLtB (addrKey z.connection.adjacency)
                      (addrKey x.connection.adjacency) = true
                  · rcases partsLtB_cotrans _ _ c1
                        (addrKey y.connection.adjacency) with h | h
                    · rw [h] at h₂; simp at h₂
                    · rw [h] at h₁; simp at h₁
                  · exact Bool.eq_false_iff.mpr c1

end PND

/-- **C7.** For every node-score map and connection map on which `decompose`
succeeds (every referenced node has a score), the entry of each node carries
its own score and a list of scored connections in which every entry's
`connectionScore` is the connection's weight multiplied by the source node's
score; the list is a permutation of the scored connections, sorted by the
composite key "descending contribution score, then adjacency kind in the
canonical order inbound-edge / outbound-as-reverse / synthetic-loop, then
edge address lexicographically"; and that key order is total, so the order
is deterministic even among equal scores. -/
theorem claim_C7 {pr : List (NodeAddr × ℚ)}
    {connections : List (NodeAddr × List PND.Connection)}
    {out : List (NodeAddr × (ℚ × List PND.ScoredConnection))}
    {target : NodeAddr} {cs : List PND.Connection}
    (hout : PND.decompose pr connections = some out)
    (hmem : (target, cs) ∈ connections) :
    ∃ score l, (target, (score, l)) ∈ out ∧
      alookup target pr = some score ∧
      (∃ scored, mapO (PND.scoredConnection pr target) cs = some scored ∧
        l.Perm scored) ∧
      (∀ sc ∈ l,
        sc.source = PND.adjacencySource target sc.connection.adjacency ∧
        ∃ s, alookup sc.source pr = some s ∧
          sc.connectionScore = sc.connection.weight * s) ∧
      l.Pairwise (fun x y => PND.scKeyLe x y = true) ∧
      (∀ x y : PND.ScoredConnection,
        PND.scKeyLe x y = true ∨ PND.scKeyLe y x = true) := by
  obtain ⟨q, hq, hfq⟩ := MapO.eq_some_of_mem hout (target, cs) hmem
  simp only at hfq
  cases hentry : PND.decomposeEntry pr target cs with
  | none => rw [hentry] at hfq; simp at hfq
  | some d =>
    rw [hentry] at hfq
    simp only [Option.map_some'] at hfq
    obtain rfl : (target, d) = q := by cases hfq; rfl
    unfold PND.decomposeEntry at hentry
    cases hscore : alookup target pr with
    | none => rw [hscore] at hentry; simp at hentry
    | some score =>
      rw [hscore] at hentry
      cases hscored : mapO (PND.scoredConnection pr target) cs with
      | none => rw [hscored] at hentry; simp at hentry
      | some scored =>
        rw [hscored] at hentry
        simp only [Option.some_inj] at hentry
        obtain rfl : d = (score, sortLe PND.scKeyLe scored) := hentry.symm
        refine ⟨score, sortLe PND.scKeyLe scored, hq, rfl,
          ⟨scored, rfl, SortLe.sortLe_perm _ scored⟩, ?_, ?_, PND.scKeyLe_total⟩
        · intro sc hsc
          have hsc₁ : sc ∈ scored :=
            (SortLe.sortLe_perm PND.scKeyLe scored).mem_iff.mp hsc
          obtain ⟨c, hc, hcs⟩ := MapO.mem_eq_some hscored sc hsc₁
          unfold PND.scoredConnection at hcs
          cases hsrc : alookup (PND.adjacencySource target c.adjacency) pr with
          | none => rw [hsrc] at hcs; simp at hcs
          | some s =>
            rw [hsrc] at hcs
            simp only [Option.some_inj] at hcs
            rw [← hcs]
            exact ⟨rfl, s, hsrc, rfl⟩
        · exact SortLe.sortLe_pairwise PND.scKeyLe PND.scKeyLe_total
            PND.scKeyLe_trans scored

/-- Witness for C7: two equal-score connections with different edge
addresses. -/
theorem claim_C7_witness :
    ∃ score l,
      ((["t"] : NodeAddr), (score, l)) ∈
        [((["t"] : NodeAddr),
          ((1 : ℚ),
            [{ connection :=
                { adjacency := PND.Adjacency.inEdge
                    { address := ["e1"], src := ["a"], dst := ["t"] }
                  weight := (1 : ℚ) }
               source := ["a"], connectionScore := (1 : ℚ) },
             { connection :=
                { adjacency := PND.Adjacency.inEdge
                    { address := ["e2"], src := ["b"], dst := ["t"] }
                  weight := (1 : ℚ) }
               source := ["b"], connectionScore := (1 : ℚ) }]))] ∧
      alookup (["t"] : NodeAddr) [((["a"] : NodeAddr), (1 : ℚ)), (["b"], 1), (["t"], 1)] =
        some score ∧
      (∃ scored, mapO
          (PND.scoredConnection [((["a"] : NodeAddr), (1 : ℚ)), (["b"], 1), (["t"], 1)] ["t"])
          [{ adjacency := PND.Adjacency.inEdge
              { address := ["e1"], src := ["a"], dst := ["t"] }
             weight := (1 : ℚ) },
           { adjacency := PND.Adjacency.inEdge
              { address := ["e2"], src := ["b"], dst := ["t"] }
             weight := (1 : ℚ) }] = some scored ∧ l.Perm scored) ∧
      (∀ sc ∈ l,
        sc.source = PND.adjacencySource ["t"] sc.connection.adjacency ∧
        ∃ s, alookup sc.source [((["a"] : NodeAddr), (1 : ℚ)), (["b"], 1), (["t"], 1)] =
            some s ∧
          sc.connectionScore = sc.connection.weight * s) ∧
      l.Pairwise (fun x y => PND.scKeyLe x y = true) ∧
      (∀ x y : PND.ScoredConnection,
        PND.scKeyLe x y = true ∨ PND.scKeyLe y x = true) :=
  @claim_C7
    [((["a"] : NodeAddr), (1 : ℚ)), (["b"], 1), (["t"], 1)]
    [((["t"] : NodeAddr),
      [{ adjacency := PND.Adjacency.inEdge
          { address := ["e1"], src := ["a"], dst := ["t"] }
         weight := (1 : ℚ) },
       { adjacency := PND.Adjacency.inEdge
          { address := ["e2"], src := ["b"], dst := ["t"] }
         weight := (1 : ℚ) }])]
    [((["t"] : NodeAddr),
      ((1 : ℚ),
        [{ connection :=
            { adjacency := PND.Adjacency.inEdge
                { address := ["e1"], src := ["a"], dst := ["t"] }
              weight := (1 : ℚ) }
           source := ["a"], connectionScore := (1 : ℚ) },
         { connection :=
            { adjacency := PND.Adjacency.inEdge
                { address := ["e2"], src := ["b"], dst := ["t"] }
              weight := (1 : ℚ) }
           source := ["b"], connectionScore := (1 : ℚ) }]))]
    ["t"]
    [{ adjacency := PND.Adjacency.inEdge
        { address := ["e1"], src := ["a"], dst := ["t"] }
       weight := (1 : ℚ) },
     { adjacency := PND.Adjacency.inEdge
        { address := ["e2"], src := ["b"], dst := ["t"] }
       weight := (1 : ℚ) }]
    (by
      simp [PND.decompose, PND.decomposeEntry, PND.scoredConnection,
        PND.adjacencySource, mapO, alookup, sortLe, insertLe, PND.scKeyLe,
        PND.typeRank, PND.addrKey, PND.partsLtB, PND.strLtB, PND.charsLtB])
    (by decide)

/-! ## The legacy payload-carrying graph (`Graph<NP, EP>`) and `merge` -/

namespace OG

/-- A legacy structured address (`{pluginName, type, id}`).  Modelled from the
spec: the legacy address module is not present in the sources. -/
structure OAddress where
  pluginName : String
  type : String
  id : String
deriving DecidableEq, Repr

/-- A legacy node: an address plus an arbitrary payload. -/
structure ONode (NP : Type) where
  address : OAddress
  payload : NP
deriving DecidableEq, Repr

/-- A legacy edge: an address, two endpoints, and a payload. -/
structure OEdge (EP : Type) where
  address : OAddress
  src : OAddress
  dst : OAddress
  payload : EP
deriving DecidableEq, Repr

/-- The errors thrown by the legacy graph: `addNode`/`addEdge` on an existing
address with distinct contents, and `conservativeResolver`'s
"distinct nodes/edges with address ..." errors. -/
inductive OErr where
  | nodeExistsWithDistinctContents
  | edgeExistsWithDistinctContents
  | distinctNodes
  | distinctEdges
deriving DecidableEq, Repr

/-- The legacy graph: `AddressMap`s (association lists keyed by address) for
nodes, edges, and the two adjacency indices. -/
structure OGraph (NP EP : Type) where
  nodes : List (OAddress × ONode NP)
  edges : List (OAddress × OEdge EP)
  outEdges : List (OAddress × List OAddress)
  inEdges : List (OAddress × List OAddress)

/-- `new Graph()`. -/
def OGraph.empty (NP EP : Type) : OGraph NP EP := ⟨[], [], [], []⟩

variable {NP EP : Type} [DecidableEq NP] [DecidableEq EP]

/-- `_lookupEdges`: the stored edge list at a key, or `[]`. -/
def lookupEdges (m : List (OAddress × List OAddress)) (k : OAddress) :
    List OAddress :=
  (alookup k m).getD []

/-- Legacy `addNode`: idempotent on a deep-equal duplicate, an error on an
existing address with distinct contents, otherwise inserts the node and
(re)initializes its adjacency-index rows. -/
def addNode (g : OGraph NP EP) (node : ONode NP) : Except OErr (OGraph NP EP) :=
  match alookup node.address g.nodes with
  | some existing =>
    if existing = node then .ok g
    else .error .nodeExistsWithDistinctContents
  | none =>
    .ok { g with
      nodes := aset node.address node g.nodes
      outEdges := aset node.address (lookupEdges g.outEdges node.address) g.outEdges
      inEdges := aset node.address (lookupEdges g.inEdges node.address) g.inEdges }

/-- Legacy `addEdge`: idempotent on a deep-equal duplicate, an error on an
existing address with distinct contents, otherwise inserts the edge and
appends its address to the `src` out-row and the `dst` in-row. -/
def addEdge (g : OGraph NP EP) (edge : OEdge EP) : Except OErr (OGraph NP EP) :=
  match alookup edge.address g.edges with
  | some existing =>
    if existing = edge then .ok g
    else .error .edgeExistsWithDistinctContents
  | none =>
    .ok { g with
      edges := aset edge.address edge g.edges
      outEdges := aset edge.src (lookupEdges g.outEdges edge.src ++ [edge.address]) g.outEdges
      inEdges := aset edge.dst (lookupEdges g.inEdges edge.dst ++ [edge.address]) g.inEdges }

/-- A `forEach` over a list whose body may throw: stop at the first error. -/
def foldE {α : Type} (f : OGraph NP EP → α → Except OErr (OGraph NP EP)) :
    OGraph NP EP → List α → Except OErr (OGraph NP EP)
  | g, [] => .ok g
  | g, x :: xs =>
    match f g x with
    | .error e => .error e
    | .ok g₁ => foldE f g₁ xs

/-- `merge`'s first loop body: a `g1` node is resolved against the `g2` node
at the same address (if any) and added to the result. -/
def nodePhase1 (nr : ONode NP → ONode NP → Except OErr (ONode NP))
    (g2nodes : List (OAddress × ONode NP)) (acc : OGraph NP EP)
    (node : ONode NP) : Except OErr (OGraph NP EP) :=
  match alookup node.address g2nodes with
  | some other =>
    match nr node other with
    | .error e => .error e
    | .ok resolved => addNode acc resolved
  | none => addNode acc node

/-- `merge`'s second loop body: a `g2` node is added only if its address is
not yet in the result. -/
def nodePhase2 (acc : OGraph NP EP) (node : ONode NP) :
    Except OErr (OGraph NP EP) :=
  match alookup node.address acc.nodes with
  | some _ => .ok acc
  | none => addNode acc node

/-- `merge`'s third loop body: a `g1` edge is resolved against the `g2` edge
at the same address (if any) and added to the result. -/
def edgePhase3 (er : OEdge EP → OEdge EP → Except OErr (OEdge EP))
    (g2edges : List (OAddress × OEdge EP)) (acc : OGraph NP EP)
    (edge : OEdge EP) : Except OErr (OGraph NP EP) :=
  match alookup edge.address g2edges with
  | some other =>
    match er edge other with
    | .error e => .error e
    | .ok resolved => addEdge acc resolved
  | none => addEdge acc edge

/-- `merge`'s fourth loop body: a `g2` edge is added only if its address is
not yet in the result. -/
def edgePhase4 (acc : OGraph NP EP) (edge : OEdge EP) :
    Except OErr (OGraph NP EP) :=
  match alookup edge.address acc.edges with
  | some _ => .ok acc
  | none => addEdge acc edge

/-- `Graph.merge(g1, g2, nodeResolver, edgeResolver)`: fold the four loops
over a fresh graph, propagating the first thrown error. -/
def merge (g1 g2 : OGraph NP EP)
    (nr : ONode NP → ONode NP → Except OErr (ONode NP))
    (er : OEdge EP → OEdge EP → Except OErr (OEdge EP)) :
    Except OErr (OGraph NP EP) :=
  match foldE (nodePhase1 nr g2.nodes) (OGraph.empty NP EP)
      (g1.nodes.map Prod.snd) with
  | .error e => .error e
  | .ok r1 =>
    match foldE nodePhase2 r1 (g2.nodes.map Prod.snd) with
    | .error e => .error e
    | .ok r2 =>
      match foldE (edgePhase3 er g2.edges) r2 (g1.edges.map Prod.snd) with
      | .error e => .error e
      | .ok r3 => foldE edgePhase4 r3 (g2.edges.map Prod.snd)

/-- `conservativeResolver` for nodes: return the first node on deep equality,
throw `distinct nodes ...` otherwise. -/
def consNodeResolver (u v : ONode NP) : Except OErr (ONode NP) :=
  if u = v then .ok u else .error .distinctNodes

/-- `conservativeResolver` for edges. -/
def consEdgeResolver (e f : OEdge EP) : Except OErr (OEdge EP) :=
  if e = f then .ok e else .error .distinctEdges

/-- `Graph.mergeConservative`. -/
def mergeConservative (g1 g2 : OGraph NP EP) : Except OErr (OGraph NP EP) :=
  merge g1 g2 consNodeResolver consEdgeResolver

/-- An `AddressMap` is keyed consistently: every stored value sits under its
own address, and the keys are distinct. -/
def Keyed {β : Type} (addr : β → OAddress) (m : List (OAddress × β)) : Prop :=
  (∀ p ∈ m, addr p.2 = p.1) ∧ (m.map Prod.fst).Nodup

end OG

namespace OG

variable {NP EP : Type} [DecidableEq NP] [DecidableEq EP]

theorem og_addNode_fresh {g : OGraph NP EP} {n : ONode NP}
    (h : alookup n.address g.nodes = none) :
    ∃ g₁, addNode g n = .ok g₁ ∧ g₁.nodes = aset n.address n g.nodes ∧
      g₁.edges = g.edges := by
  refine ⟨{ g with
      nodes := aset n.address n g.nodes
      outEdges := aset n.address (lookupEdges g.outEdges n.address) g.outEdges
      inEdges := aset n.address (lookupEdges g.inEdges n.address) g.inEdges },
    ?_, rfl, rfl⟩
  simp [addNode, h]

theorem og_addEdge_fresh {g : OGraph NP EP} {e : OEdge EP}
    (h : alookup e.address g.edges = none) :
    ∃ g₁, addEdge g e = .ok g₁ ∧ g₁.edges = aset e.address e g.edges ∧
      g₁.nodes = g.nodes := by
  refine ⟨{ g with
      edges := aset e.address e g.edges
      outEdges := aset e.src (lookupEdges g.outEdges e.src ++ [e.address]) g.outEdges
      inEdges := aset e.dst (lookupEdges g.inEdges e.dst ++ [e.address]) g.inEdges },
    ?_, rfl, rfl⟩
  simp [addEdge, h]

theorem og_phase1_ok (g2n : List (OAddress × ONode NP))
    {nr : ONode NP → ONode NP → Except OErr (ONode NP)}
    (htot : ∀ x y, ∃ w, nr x y = .ok w ∧ w.address = x.address) :
    ∀ (l : List (ONode NP)) (acc : OGraph NP EP),
      (l.map (fun n => n.address)).Nodup →
      (∀ n ∈ l, alookup n.address acc.nodes = none) →
      ∃ g₁, foldE (nodePhase1 nr g2n) acc l = .ok g₁ ∧
        g₁.edges = acc.edges ∧
        (∀ k, (∀ n ∈ l, n.address ≠ k) →
          alookup k g₁.nodes = alookup k acc.nodes) ∧
        (∀ n ∈ l, ∀ m r, alookup n.address g2n = some m → nr n m = .ok r →
          alookup n.address g₁.nodes = some r) := by
  intro l
  induction l with
  | nil =>
    intro acc _ _
    exact ⟨acc, rfl, rfl, fun k _ => rfl, by simp⟩
  | cons n rest ih =>
    intro acc hnd hfresh
    simp only [List.map_cons, List.nodup_cons] at hnd
    obtain ⟨hn_notin, hnd_rest⟩ := hnd
    cases hg2 : alookup n.address g2n with
    | some m =>
      obtain ⟨r, hok, haddr⟩ := htot n m
      have hfr : alookup r.address acc.nodes = none := by
        rw [haddr]; exact hfresh n (List.mem_cons_self n rest)
      obtain ⟨acc₁, hadd, hnodes₁, hedges₁⟩ := og_addNode_fresh hfr
      have hstep : nodePhase1 nr g2n acc n = .ok acc₁ := by
        simp [nodePhase1, hg2, hok, hadd]
      have hfresh₁ : ∀ n' ∈ rest, alookup n'.address acc₁.nodes = none := by
        intro n' hn'
        have hne : ¬ r.address = n'.address := by
          rw [haddr]
          intro he
          exact hn_notin (List.mem_map.mpr ⟨n', hn', he.symm⟩)
        rw [hnodes₁, AList.alookup_aset, if_neg hne]
        exact hfresh n' (List.mem_cons_of_mem _ hn')
      obtain ⟨g₁, hfold, hedges, hun, hpl⟩ := ih acc₁ hnd_rest hfresh₁
      refine ⟨g₁, ?_, ?_, ?_, ?_⟩
      · simp [foldE, hstep, hfold]
      · rw [hedges, hedges₁]
      · intro k hk
        have hkn : ¬ r.address = k := by
          rw [haddr]; exact hk n (List.mem_cons_self n rest)
        rw [hun k (fun n' h' => hk n' (List.mem_cons_of_mem _ h')), hnodes₁,
          AList.alookup_aset, if_neg hkn]
      · intro n' hn' m' r' hg2' hok'
        rcases List.mem_cons.mp hn' with rfl | hmem
        · rw [hg2] at hg2'
          injection hg2' with hm
          subst hm
          rw [hok] at hok'
          injection hok' with hrr
          subst hrr
          rw [hun n'.address (fun n'' h'' he =>
              hn_notin (List.mem_map.mpr ⟨n'', h'', he⟩)),
            hnodes₁, AList.alookup_aset, if_pos haddr]
        · exact hpl n' hmem m' r' hg2' hok'
    | none =>
      have hfr : alookup n.address acc.nodes = none :=
        hfresh n (List.mem_cons_self n rest)
      obtain ⟨acc₁, hadd, hnodes₁, hedges₁⟩ := og_addNode_fresh hfr
      have hstep : nodePhase1 nr g2n acc n = .ok acc₁ := by
        simp [nodePhase1, hg2, hadd]
      have hfresh₁ : ∀ n' ∈ rest, alookup n'.address acc₁.nodes = none := by
        intro n' hn'
        have hne : ¬ n.address = n'.address := fun he =>
          hn_notin (List.mem_map.mpr ⟨n', hn', he.symm⟩)
        rw [hnodes₁, AList.alookup_aset, if_neg hne]
        exact hfresh n' (List.mem_cons_of_mem _ hn')
      obtain ⟨g₁, hfold, hedges, hun, hpl⟩ := ih acc₁ hnd_rest hfresh₁
      refine ⟨g₁, ?_, ?_, ?_, ?_⟩
      · simp [foldE, hstep, hfold]
      · rw [hedges, hedges₁]
      · intro k hk
        have hkn : ¬ n.address = k := hk n (List.mem_cons_self n rest)
        rw [hun k (fun n' h' => hk n' (List.mem_cons_of_mem _ h')), hnodes₁,
          AList.alookup_aset, if_neg hkn]
      · intro n' hn' m' r' hg2' hok'
        rcases List.mem_cons.mp hn' with rfl | hmem
        · rw [hg2] at hg2'
          simp at hg2'
        · exact hpl n' hmem m' r' hg2' hok'

theorem og_phase2_ok :
    ∀ (l : List (ONode NP)) (acc : OGraph NP EP),
      ∃ g₁, foldE nodePhase2 acc l = .ok g₁ ∧ g₁.edges = acc.edges ∧
        (∀ k w, alookup k acc.nodes = some w → alookup k g₁.nodes = some w) := by
  intro l
  induction l with
  | nil => intro acc; exact ⟨acc, rfl, rfl, fun k w h => h⟩
  | cons n rest ih =>
    intro acc
    cases hl : alookup n.address acc.nodes with
    | some w =>
      have hstep : nodePhase2 acc n = .ok acc := by simp [nodePhase2, hl]
      obtain ⟨g₁, hfold, he, hpres⟩ := ih acc
      exact ⟨g₁, by simp [foldE, hstep, hfold], he, hpres⟩
    | none =>
      obtain ⟨acc₁, hadd, hnodes₁, hedges₁⟩ := og_addNode_fresh hl
      have hstep : nodePhase2 acc n = .ok acc₁ := by
        simp [nodePhase2, hl, hadd]
      obtain ⟨g₁, hfold, he, hpres⟩ := ih acc₁
      refine ⟨g₁, by simp [foldE, hstep, hfold], by rw [he, hedges₁], ?_⟩
      intro k w hw
      apply hpres
      rw [hnodes₁, AList.alookup_aset]
      by_cases hkn : n.address = k
      · rw [hkn] at hl
        rw [hl] at hw
        exact absurd hw (by simp)
      · rw [if_neg hkn]
        exact hw

theorem og_phase3_ok (g2e : List (OAddress × OEdge EP))
    {er : OEdge EP → OEdge EP → Except OErr (OEdge EP)}
    (htot : ∀ x y, ∃ w, er x y = .ok w ∧ w.address = x.address) :
    ∀ (l : List (OEdge EP)) (acc : OGraph NP EP),
      (l.map (fun e => e.address)).Nodup →
      (∀ e ∈ l, alookup e.address acc.edges = none) →
      ∃ g₁, foldE (edgePhase3 er g2e) acc l = .ok g₁ ∧
        g₁.nodes = acc.nodes := by
  intro l
  induction l with
  | nil => intro acc _ _; exact ⟨acc, rfl, rfl⟩
  | cons e rest ih =>
    intro acc hnd hfresh
    simp only [List.map_cons, List.nodup_cons] at hnd
    obtain ⟨he_notin, hnd_rest⟩ := hnd
    cases hg2 : alookup e.address g2e with
    | some f' =>
      obtain ⟨r, hok, haddr⟩ := htot e f'
      have hfr : alookup r.address acc.edges = none := by
        rw [haddr]; exact hfresh e (List.mem_cons_self e rest)
      obtain ⟨acc₁, hadd, hedges₁, hnodes₁⟩ := og_addEdge_fresh hfr
      have hstep : edgePhase3 er g2e acc e = .ok acc₁ := by
        simp [edgePhase3, hg2, hok, hadd]
      have hfresh₁ : ∀ e' ∈ rest, alookup e'.address acc₁.edges = none := by
        intro e' he'
        have hne : ¬ r.address = e'.address := by
          rw [haddr]
          intro he
          exact he_notin (List.mem_map.mpr ⟨e', he', he.symm⟩)
        rw [hedges₁, AList.alookup_aset, if_neg hne]
        exact hfresh e' (List.mem_cons_of_mem _ he')
      obtain ⟨g₁, hfold, hn⟩ := ih acc₁ hnd_rest hfresh₁
      exact ⟨g₁, by simp [foldE, hstep, hfold], by rw [hn, hnodes₁]⟩
    | none =>
      have hfr : alookup e.address acc.edges = none :=
        hfresh e (List.mem_cons_self e rest)
      obtain ⟨acc₁, hadd, hedges₁, hnodes₁⟩ := og_addEdge_fresh hfr
      have hstep : edgePhase3 er g2e acc e = .ok acc₁ := by
        simp [edgePhase3, hg2, hadd]
      have hfresh₁ : ∀ e' ∈ rest, alookup e'.address acc₁.edges = none := by
        intro e' he'
        have hne : ¬ e.address = e'.address := fun he =>
          he_notin (List.mem_map.mpr ⟨e', he', he.symm⟩)
        rw [hedges₁, AList.alookup_aset, if_neg hne]
        exact hfresh e' (List.mem_cons_of_mem _ he')
      obtain ⟨g₁, hfold, hn⟩ := ih acc₁ hnd_rest hfresh₁
      exact ⟨g₁, by simp [foldE, hstep, hfold], by rw [hn, hnodes₁]⟩

theorem og_phase4_ok :
    ∀ (l : List (OEdge EP)) (acc : OGraph NP EP),
      ∃ g₁, foldE edgePhase4 acc l = .ok g₁ ∧ g₁.nodes = acc.nodes := by
  intro l
  induction l with
  | nil => intro acc; exact ⟨acc, rfl, rfl⟩
  | cons e rest ih =>
    intro acc
    cases hl : alookup e.address acc.edges with
    | some w =>
      have hstep : edgePhase4 acc e = .ok acc := by simp [edgePhase4, hl]
      obtain ⟨g₁, hfold, hn⟩ := ih acc
      exact ⟨g₁, by simp [foldE, hstep, hfold], hn⟩
    | none =>
      obtain ⟨acc₁, hadd, hedges₁, hnodes₁⟩ := og_addEdge_fresh hl
      have hstep : edgePhase4 acc e = .ok acc₁ := by
        simp [edgePhase4, hl, hadd]
      obtain ⟨g₁, hfold, hn⟩ := ih acc₁
      exact ⟨g₁, by simp [foldE, hstep, hfold], by rw [hn, hnodes₁]⟩

theorem og_phase1_conflict {g2n : List (OAddress × ONode NP)} :
    ∀ (l : List (ONode NP)) (acc : OGraph NP EP),
      (l.map (fun n => n.address)).Nodup →
      (∀ n ∈ l, alookup n.address acc.nodes = none) →
      (∃ n ∈ l, ∃ m, alookup n.address g2n = some m ∧ m ≠ n) →
      foldE (nodePhase1 consNodeResolver g2n) acc l =
        .error OErr.distinctNodes := by
  intro l
  induction l with
  | nil => intro acc _ _ hw; simp at hw
  | cons n rest ih =>
    intro acc hnd hfresh hw
    simp only [List.map_cons, List.nodup_cons] at hnd
    obtain ⟨hn_notin, hnd_rest⟩ := hnd
    cases hg2 : alookup n.address g2n with
    | some m =>
      by_cases hm : n = m
      · have hres : consNodeResolver n m = .ok n := by
          simp [consNodeResolver, hm]
        have hfr : alookup n.address acc.nodes = none :=
          hfresh n (List.mem_cons_self n rest)
        obtain ⟨acc₁, hadd, hnodes₁, hedges₁⟩ := og_addNode_fresh hfr
        have hstep : nodePhase1 consNodeResolver g2n acc n = .ok acc₁ := by
          simp [nodePhase1, hg2, hres, hadd]
        have hfresh₁ : ∀ n' ∈ rest, alookup n'.address acc₁.nodes = none := by
          intro n' hn'
          have hne : ¬ n.address = n'.address := fun he =>
            hn_notin (List.mem_map.mpr ⟨n', hn', he.symm⟩)
          rw [hnodes₁, AList.alookup_aset, if_neg hne]
          exact hfresh n' (List.mem_cons_of_mem _ hn')
        have hw' : ∃ n' ∈ rest, ∃ m', alookup n'.address g2n = some m' ∧
            m' ≠ n' := by
          obtain ⟨n', hn', m', hg2', hm'⟩ := hw
          rcases List.mem_cons.mp hn' with rfl | hmem
          · rw [hg2] at hg2'
            injection hg2' with he
            exact absurd (he ▸ hm.symm) hm'
          · exact ⟨n', hmem, m', hg2', hm'⟩
        rw [show foldE (nodePhase1 consNodeResolver g2n) acc (n :: rest) =
            foldE (nodePhase1 consNodeResolver g2n) acc₁ rest by
          simp [foldE, hstep]]
        exact ih acc₁ hnd_rest hfresh₁ hw'
      · have hres : consNodeResolver n m = .error OErr.distinctNodes := by
          simp [consNodeResolver, hm]
        have hstep : nodePhase1 consNodeResolver g2n acc n =
            .error OErr.distinctNodes := by
          simp [nodePhase1, hg2, hres]
        simp [foldE, hstep]
    | none =>
      have hfr : alookup n.address acc.nodes = none :=
        hfresh n (List.mem_cons_self n rest)
      obtain ⟨acc₁, hadd, hnodes₁, hedges₁⟩ := og_addNode_fresh hfr
      have hstep : nodePhase1 consNodeResolver g2n acc n = .ok acc₁ := by
        simp [nodePhase1, hg2, hadd]
      have hfresh₁ : ∀ n' ∈ rest, alookup n'.address acc₁.nodes = none := by
        intro n' hn'
        have hne : ¬ n.address = n'.address := fun he =>
          hn_notin (List.mem_map.mpr ⟨n', hn', he.symm⟩)
        rw [hnodes₁, AList.alookup_aset, if_neg hne]
        exact hfresh n' (List.mem_cons_of_mem _ hn')
      have hw' : ∃ n' ∈ rest, ∃ m', alookup n'.address g2n = some m' ∧
          m' ≠ n' := by
        obtain ⟨n', hn', m', hg2', hm'⟩ := hw
        rcases List.mem_cons.mp hn' with rfl | hmem
        · rw [hg2] at hg2'
          simp at hg2'
        · exact ⟨n', hmem, m', hg2', hm'⟩
      rw [show foldE (nodePhase1 consNodeResolver g2n) acc (n :: rest) =
          foldE (nodePhase1 consNodeResolver g2n) acc₁ rest by
        simp [foldE, hstep]]
      exact ih acc₁ hnd_rest hfresh₁ hw'

theorem og_keyed_map_nodup {β : Type} {addr : β → OAddress}
    {m : List (OAddress × β)} (hk : Keyed addr m) :
    ((m.map Prod.snd).map (fun b => addr b)).Nodup := by
  rw [List.map_map]
  have he : m.map ((fun b => addr b) ∘ Prod.snd) = m.map Prod.fst :=
    List.map_congr_left fun p hp => hk.1 p hp
  rw [he]
  exact hk.2

end OG

/-- **C8.** If two well-keyed legacy graphs both contain a node at the same
address but with different payloads, then `mergeConservative` throws the
conservative resolver's "distinct nodes" error, whereas `merge` with total,
address-preserving node and edge resolvers succeeds and the merged graph maps
that address to the node resolver's result. -/
theorem claim_C8 {NP EP : Type} [DecidableEq NP] [DecidableEq EP]
    {g1 g2 : OG.OGraph NP EP} {a : OG.OAddress} {u v : OG.ONode NP}
    {nr : OG.ONode NP → OG.ONode NP → Except OG.OErr (OG.ONode NP)}
    {er : OG.OEdge EP → OG.OEdge EP → Except OG.OErr (OG.OEdge EP)}
    {r : OG.ONode NP}
    (hk1 : OG.Keyed OG.ONode.address g1.nodes)
    (hk2 : OG.Keyed OG.ONode.address g2.nodes)
    (hke1 : OG.Keyed OG.OEdge.address g1.edges)
    (hu : alookup a g1.nodes = some u) (hv : alookup a g2.nodes = some v)
    (hpay : u.payload ≠ v.payload)
    (htn : ∀ x y, ∃ w, nr x y = .ok w ∧ w.address = x.address)
    (hte : ∀ x y, ∃ w, er x y = .ok w ∧ w.address = x.address)
    (hr : nr u v = .ok r) :
    OG.mergeConservative g1 g2 = .error OG.OErr.distinctNodes ∧
    ∃ gm, OG.merge g1 g2 nr er = .ok gm ∧ alookup a gm.nodes = some r := by
  have hu_mem : u ∈ g1.nodes.map Prod.snd :=
    List.mem_map.mpr ⟨(a, u), AList.mem_of_alookup_eq_some hu, rfl⟩
  have huaddr : u.address = a := hk1.1 (a, u) (AList.mem_of_alookup_eq_some hu)
  have hnd1 : ((g1.nodes.map Prod.snd).map (fun n => n.address)).Nodup :=
    OG.og_keyed_map_nodup hk1
  have hnd1e : ((g1.edges.map Prod.snd).map (fun e => e.address)).Nodup :=
    OG.og_keyed_map_nodup hke1
  have hfresh1 : ∀ n ∈ g1.nodes.map Prod.snd,
      alookup n.address (OG.OGraph.empty NP EP).nodes = none := fun n _ => rfl
  have hvne : v ≠ u := fun he => hpay (by rw [he])
  constructor
  · have hc := OG.og_phase1_conflict (g1.nodes.map Prod.snd)
      (OG.OGraph.empty NP EP) hnd1 hfresh1
      ⟨u, hu_mem, v, by rw [huaddr]; exact hv, hvne⟩
    unfold OG.mergeConservative OG.merge
    rw [hc]
  · obtain ⟨r1, h1, he1, hun1, hpl1⟩ :=
      OG.og_phase1_ok g2.nodes htn (g1.nodes.map Prod.snd)
        (OG.OGraph.empty NP EP) hnd1 hfresh1
    obtain ⟨r2, h2, he2, hpres2⟩ :=
      OG.og_phase2_ok (g2.nodes.map Prod.snd) r1
    have hedges_r2 : r2.edges = [] := by rw [he2, he1]; rfl
    obtain ⟨r3, h3, hn3⟩ :=
      OG.og_phase3_ok g2.edges hte (g1.edges.map Prod.snd) r2 hnd1e
        (fun e _ => by rw [hedges_r2]; rfl)
    obtain ⟨r4, h4, hn4⟩ := OG.og_phase4_ok (g2.edges.map Prod.snd) r3
    refine ⟨r4, ?_, ?_⟩
    · simp only [OG.merge, h1, h2, h3, h4]
    · rw [hn4, hn3]
      apply hpres2
      have hpl := hpl1 u hu_mem v r (by rw [huaddr]; exact hv) hr
      rw [huaddr] at hpl
      exact hpl

/-- Witness for C8: graphs sharing address `⟨"p","t","x"⟩` with payloads `1`
and `2`; the additive resolver places payload `3` there. -/
theorem claim_C8_witness :
    OG.mergeConservative
        (OG.OGraph.mk
          [(OG.OAddress.mk "p" "t" "x",
            OG.ONode.mk (OG.OAddress.mk "p" "t" "x") (1 : ℕ))]
          ([] : List (OG.OAddress × OG.OEdge ℕ)) [] [])
        (OG.OGraph.mk
          [(OG.OAddress.mk "p" "t" "x",
            OG.ONode.mk (OG.OAddress.mk "p" "t" "x") (2 : ℕ))]
          ([] : List (OG.OAddress × OG.OEdge ℕ)) [] []) =
      .error OG.OErr.distinctNodes ∧
    ∃ gm,
      OG.merge
          (OG.OGraph.mk
            [(OG.OAddress.mk "p" "t" "x",
              OG.ONode.mk (OG.OAddress.mk "p" "t" "x") (1 : ℕ))]
            ([] : List (OG.OAddress × OG.OEdge ℕ)) [] [])
          (OG.OGraph.mk
            [(OG.OAddress.mk "p" "t" "x",
              OG.ONode.mk (OG.OAddress.mk "p" "t" "x") (2 : ℕ))]
            ([] : List (OG.OAddress × OG.OEdge ℕ)) [] [])
          (fun x y => .ok (OG.ONode.mk x.address (x.payload + y.payload)))
          (fun x _ => .ok x) =
        .ok gm ∧
      alookup (OG.OAddress.mk "p" "t" "x") gm.nodes =
        some (OG.ONode.mk (OG.OAddress.mk "p" "t" "x") (3 : ℕ)) :=
  @claim_C8 ℕ ℕ _ _
    (OG.OGraph.mk
      [(OG.OAddress.mk "p" "t" "x",
        OG.ONode.mk (OG.OAddress.mk "p" "t" "x") (1 : ℕ))]
      ([] : List (OG.OAddress × OG.OEdge ℕ)) [] [])
    (OG.OGraph.mk
      [(OG.OAddress.mk "p" "t" "x",
        OG.ONode.mk (OG.OAddress.mk "p" "t" "x") (2 : ℕ))]
      ([] : List (OG.OAddress × OG.OEdge ℕ)) [] [])
    (OG.OAddress.mk "p" "t" "x")
    (OG.ONode.mk (OG.OAddress.mk "p" "t" "x") (1 : ℕ))
    (OG.ONode.mk (OG.OAddress.mk "p" "t" "x") (2 : ℕ))
    (fun x y => .ok (OG.ONode.mk x.address (x.payload + y.payload)))
    (fun x _ => .ok x)
    (OG.ONode.mk (OG.OAddress.mk "p" "t" "x") (3 : ℕ))
    ⟨by decide, by decide⟩ ⟨by decide, by decide⟩ ⟨by decide, by decide⟩
    (by decide) (by decide) (by decide)
    (fun x y => ⟨OG.ONode.mk x.address (x.payload + y.payload), rfl, rfl⟩)
    (fun x _ => ⟨x, rfl, rfl⟩)
    rfl

/-! ## CredData compression (`compressByThreshold`) -/

/-- Summary of a node's cred across all time. -/
structure NodeCredSummary where
  cred : ℚ
  seedFlow : ℚ
  syntheticLoopFlow : ℚ
deriving DecidableEq, Repr

/-- A node's cred data at interval resolution; the per-flow arrays may have
been nulled out by compression. -/
structure NodeCredOverTime where
  cred : List ℚ
  seedFlow : Option (List ℚ)
  syntheticLoopFlow : Option (List ℚ)
deriving DecidableEq, Repr

/-- Summary of an edge's cred flows across all time. -/
structure EdgeCredSummary where
  forwardFlow : ℚ
  backwardFlow : ℚ
deriving DecidableEq, Repr

/-- An edge's cred flows at interval resolution; either direction may have
been nulled out by compression. -/
structure EdgeCredOverTime where
  forwardFlow : Option (List ℚ)
  backwardFlow : Option (List ℚ)
deriving DecidableEq, Repr

/-- Comprehensive data on a cred distribution. -/
structure CredData where
  nodeSummaries : List NodeCredSummary
  nodeOverTime : List (Option NodeCredOverTime)
  edgeSummaries : List EdgeCredSummary
  edgeOverTime : List (Option EdgeCredOverTime)
  intervalEnds : List ℚ
deriving DecidableEq, Repr

/-- The node loop of `compressByThreshold`: `nodeOverTime.map((d, i) => ...)`
walking `nodeSummaries` in index lockstep.  A `null` entry is passed through
(idempotence of already-compressed data); a present entry whose summary index
is out of bounds would dereference `undefined`, modelled as `none`. -/
def compressNodes (threshold : ℚ) :
    List (Option NodeCredOverTime) → List NodeCredSummary →
    Option (List (Option NodeCredOverTime))
  | [], _ => some []
  | none :: ds, ss => (compressNodes threshold ds ss.tail).map (none :: ·)
  | some _ :: _, [] => none
  | some d :: ds, s :: ss =>
    (compressNodes threshold ds ss).map fun rest =>
      (if s.cred < threshold then none
       else some
        { cred := d.cred
          seedFlow := if s.seedFlow < threshold then none else d.seedFlow
          syntheticLoopFlow :=
            if s.syntheticLoopFlow < threshold then none
            else d.syntheticLoopFlow }) :: rest

/-- The edge loop of `compressByThreshold`: keep a direction's array only when
that direction's summary flow reaches the threshold, and drop the whole entry
when neither direction does. -/
def compressEdges (threshold : ℚ) :
    List (Option EdgeCredOverTime) → List EdgeCredSummary →
    Option (List (Option EdgeCredOverTime))
  | [], _ => some []
  | none :: ds, ss => (compressEdges threshold ds ss.tail).map (none :: ·)
  | some _ :: _, [] => none
  | some d :: ds, s :: ss =>
    (compressEdges threshold ds ss).map fun rest =>
      (if threshold ≤ s.forwardFlow ∨ threshold ≤ s.backwardFlow then
        some
          { forwardFlow :=
              if threshold ≤ s.forwardFlow then d.forwardFlow else none
            backwardFlow :=
              if threshold ≤ s.backwardFlow then d.backwardFlow else none }
       else none) :: rest

/-- `compressByThreshold`: remove all time-level information on flows that sum
below the threshold; summaries and interval ends are passed through. -/
def compressByThreshold (x : CredData) (threshold : ℚ) : Option CredData :=
  match compressNodes threshold x.nodeOverTime x.nodeSummaries with
  | none => none
  | some nOT =>
    match compressEdges threshold x.edgeOverTime x.edgeSummaries with
    | none => none
    | some eOT =>
      some { x with nodeOverTime := nOT, edgeOverTime := eOT }

theorem compressNodes_idem (t : ℚ) :
    ∀ (ds : List (Option NodeCredOverTime)) (ss : List NodeCredSummary)
      (ds' : List (Option NodeCredOverTime)),
      compressNodes t ds ss = some ds' → compressNodes t ds' ss = some ds' := by
  intro ds
  induction ds with
  | nil =>
    intro ss ds' h
    simp only [compressNodes] at h
    injection h with he
    subst he
    rfl
  | cons d ds ih =>
    intro ss ds' h
    cases d with
    | none =>
      simp only [compressNodes] at h
      cases hrec : compressNodes t ds ss.tail with
      | none => rw [hrec] at h; simp at h
      | some rest =>
        rw [hrec] at h
        simp only [Option.map_some'] at h
        injection h with he
        subst he
        have hr := ih ss.tail rest hrec
        simp [compressNodes, hr]
    | some d =>
      cases ss with
      | nil => simp [compressNodes] at h
      | cons s ss =>
        simp only [compressNodes] at h
        cases hrec : compressNodes t ds ss with
        | none => rw [hrec] at h; simp at h
        | some rest =>
          rw [hrec] at h
          simp only [Option.map_some'] at h
          injection h with he
          subst he
          have hr := ih ss rest hrec
          by_cases hc : s.cred < t
          · rw [if_pos hc]
            simp [compressNodes, hr]
          · rw [if_neg hc]
            simp only [compressNodes, hr, Option.map_some']
            rw [if_neg hc]
            by_cases hs : s.seedFlow < t
            · by_cases hl : s.syntheticLoopFlow < t
              · simp [if_pos hs, if_pos hl]
              · simp [if_pos hs, if_neg hl]
            · by_cases hl : s.syntheticLoopFlow < t
              · simp [if_neg hs, if_pos hl]
              · simp [if_neg hs, if_neg hl]

theorem compressEdges_idem (t : ℚ) :
    ∀ (ds : List (Option EdgeCredOverTime)) (ss : List EdgeCredSummary)
      (ds' : List (Option EdgeCredOverTime)),
      compressEdges t ds ss = some ds' → compressEdges t ds' ss = some ds' := by
  intro ds
  induction ds with
  | nil =>
    intro ss ds' h
    simp only [compressEdges] at h
    injection h with he
    subst he
    rfl
  | cons d ds ih =>
    intro ss ds' h
    cases d with
    | none =>
      simp only [compressEdges] at h
      cases hrec : compressEdges t ds ss.tail with
      | none => rw [hrec] at h; simp at h
      | some rest =>
        rw [hrec] at h
        simp only [Option.map_some'] at h
        injection h with he
        subst he
        have hr := ih ss.tail rest hrec
        simp [compressEdges, hr]
    | some d =>
      cases ss with
      | nil => simp [compressEdges] at h
      | cons s ss =>
        simp only [compressEdges] at h
        cases hrec : compressEdges t ds ss with
        | none => rw [hrec] at h; simp at h
        | some rest =>
          rw [hrec] at h
          simp only [Option.map_some'] at h
          injection h with he
          subst he
          have hr := ih ss rest hrec
          by_cases hf : t ≤ s.forwardFlow
          · rw [if_pos (Or.inl hf)]
            simp only [compressEdges, hr, Option.map_some']
            rw [if_pos (Or.inl hf)]
            by_cases hb : t ≤ s.backwardFlow
            · simp [if_pos hf, if_pos hb]
            · simp [if_pos hf, if_neg hb]
          · by_cases hb : t ≤ s.backwardFlow
            · rw [if_pos (Or.inr hb)]
              simp only [compressEdges, hr, Option.map_some']
              rw [if_pos (Or.inr hb)]
              simp [if_neg hf, if_pos hb]
            · rw [if_neg (by rintro (h | h) <;> [exact hf h; exact hb h])]
              simp [compressEdges, hr]

/-- **C10.** `compressByThreshold` is idempotent: whenever it succeeds,
re-compressing its output at the same threshold returns the output unchanged
(already-nulled over-time entries are passed through). -/
theorem claim_C10 {x y : CredData} {t : ℚ}
    (h : compressByThreshold x t = some y) :
    compressByThreshold y t = some y := by
  unfold compressByThreshold at h
  cases hn : compressNodes t x.nodeOverTime x.nodeSummaries with
  | none => rw [hn] at h; simp at h
  | some nOT =>
    rw [hn] at h
    cases he : compressEdges t x.edgeOverTime x.edgeSummaries with
    | none => rw [he] at h; simp at h
    | some eOT =>
      rw [he] at h
      injection h with hy
      subst hy
      have hn' := compressNodes_idem t x.nodeOverTime x.nodeSummaries nOT hn
      have he' := compressEdges_idem t x.edgeOverTime x.edgeSummaries eOT he
      simp [compressByThreshold, hn', he']

/-- Witness for C10: a node above and a node below the threshold, plus an
effectively-unidirectional edge. -/
theorem claim_C10_witness :
    compressByThreshold
        { nodeSummaries := [⟨5, 1, 0⟩, ⟨1, 0, 0⟩]
          nodeOverTime := [some ⟨[2, 3], none, none⟩, none]
          edgeSummaries := [⟨4, 0⟩]
          edgeOverTime := [some ⟨some [4, 0], none⟩]
          intervalEnds := [1, 2] } 3 =
      some
        { nodeSummaries := [⟨5, 1, 0⟩, ⟨1, 0, 0⟩]
          nodeOverTime := [some ⟨[2, 3], none, none⟩, none]
          edgeSummaries := [⟨4, 0⟩]
          edgeOverTime := [some ⟨some [4, 0], none⟩]
          intervalEnds := [1, 2] } :=
  @claim_C10
    { nodeSummaries := [⟨5, 1, 0⟩, ⟨1, 0, 0⟩]
      nodeOverTime := [some ⟨[2, 3], some [1, 0], some [0, 0]⟩,
        some ⟨[1, 0], none, none⟩]
      edgeSummaries := [⟨4, 0⟩]
      edgeOverTime := [some ⟨some [4, 0], some [0, 0]⟩]
      intervalEnds := [1, 2] }
    { nodeSummaries := [⟨5, 1, 0⟩, ⟨1, 0, 0⟩]
      nodeOverTime := [some ⟨[2, 3], none, none⟩, none]
      edgeSummaries := [⟨4, 0⟩]
      edgeOverTime := [some ⟨some [4, 0], none⟩]
      intervalEnds := [1, 2] }
    3 (by decide)
